import Mathlib

/-! # superd: rule matching, conflict resolution, move log and undo

A shallow embedding of `app.go` and `history.go`.

Conventions of the embedding.

* A Go `string` is a Lean `String`; Go's `len` and the byte-oriented library
  functions (`strings.ReplaceAll`, `filepath.Match`) work on its UTF-8 encoding,
  `goBytes`.  The path functions (`filepath.Clean`, `Join`, `Ext`, `Base`) only
  inspect the ASCII bytes `/` and `.` and copy everything else, so they are written
  over the characters.
* Go `int` values that occur (scores, counts) are far below `2^63`; they are `Nat`.
  Unix time is an `Int`.
* The Go standard library is not part of the repository; the functions the code
  calls are written out here after the library's Unix implementation
  (`path/filepath`, `strings`, `unicode/utf8`, `sort` as of go1.19 and later).
* What the program takes from outside is a parameter, `Env`: the calls of package
  `os` on the file system (`os.ReadDir`, `os.MkdirAll`, `os.Stat`, `os.Rename`,
  `os.Open`/`os.Create`/`io.Copy`, `os.Remove`), over any type of file system
  states, and the case tables of package `unicode`.  `OrganizeFiles` and `UndoByID`
  are embedded over every such environment.
* One environment is written out, `mapEnv`: the file system that the
  specification reasons about for undo, a finite map from paths to file contents,
  held as an association list whose first binding of a key is the live one.  It has
  files only: `os.MkdirAll` has nothing to record in it and `os.Rename` fails only
  for an absent source.
-/

namespace Superd

/-! ## Go strings -/

/-- The bytes of a Go string. -/
abbrev Bytes := List Nat

/-- UTF-8 encoding of one code point. -/
def utf8Encode (c : Char) : Bytes :=
  let v := c.toNat
  if v < 0x80 then [v]
  else if v < 0x800 then [0xC0 + v / 64, 0x80 + v % 64]
  else if v < 0x10000 then [0xE0 + v / 4096, 0x80 + v / 64 % 64, 0x80 + v % 64]
  else [0xF0 + v / 262144, 0x80 + v / 4096 % 64, 0x80 + v / 64 % 64, 0x80 + v % 64]

/-- The byte sequence a Go string holds. -/
def goBytes (s : String) : Bytes :=
  s.data.flatMap utf8Encode

/-- Go `len(s)` for a string: its number of bytes. -/
def goLen (s : String) : Nat :=
  (goBytes s).length

/-- The rune `utf8.RuneError`. -/
def runeError : Nat := 0xFFFD

/-- Go `utf8.DecodeRuneInString`: the first rune of `s` and its width in bytes;
`(RuneError, 0)` on the empty string and `(RuneError, 1)` on an invalid encoding. -/
def decodeRune (s : Bytes) : Nat × Nat :=
  match s with
  | [] => (runeError, 0)
  | b0 :: t =>
    if b0 < 0x80 then (b0, 1)
    else if b0 < 0xC2 then (runeError, 1)
    else if b0 < 0xE0 then
      match t with
      | b1 :: _ =>
        if 0x80 ≤ b1 ∧ b1 ≤ 0xBF then ((b0 % 32) * 64 + b1 % 64, 2) else (runeError, 1)
      | [] => (runeError, 1)
    else if b0 < 0xF0 then
      let lo := if b0 = 0xE0 then 0xA0 else 0x80
      let hi := if b0 = 0xED then 0x9F else 0xBF
      match t with
      | b1 :: b2 :: _ =>
        if lo ≤ b1 ∧ b1 ≤ hi then
          if 0x80 ≤ b2 ∧ b2 ≤ 0xBF then
            ((b0 % 16) * 4096 + (b1 % 64) * 64 + b2 % 64, 3)
          else (runeError, 1)
        else (runeError, 1)
      | _ => (runeError, 1)
    else if b0 < 0xF5 then
      let lo := if b0 = 0xF0 then 0x90 else 0x80
      let hi := if b0 = 0xF4 then 0x8F else 0xBF
      match t with
      | b1 :: b2 :: b3 :: _ =>
        if lo ≤ b1 ∧ b1 ≤ hi then
          if 0x80 ≤ b2 ∧ b2 ≤ 0xBF then
            if 0x80 ≤ b3 ∧ b3 ≤ 0xBF then
              ((b0 % 8) * 262144 + (b1 % 64) * 4096 + (b2 % 64) * 64 + b3 % 64, 4)
            else (runeError, 1)
          else (runeError, 1)
        else (runeError, 1)
      | _ => (runeError, 1)
    else (runeError, 1)

/-- Whether `old` is a prefix of `s`. -/
def startsWith : Bytes → Bytes → Bool
  | _, [] => true
  | [], _ :: _ => false
  | c :: s, d :: old => c == d && startsWith s old

/-- The replacement loop of Go `strings.Replace` with `n < 0` for a non-empty `old`:
every non-overlapping occurrence of `old`, found left to right, becomes `new`.
`skip` counts the bytes of an occurrence still to be dropped. -/
def replaceLoop (old new : Bytes) : Bytes → Nat → Bytes
  | [], _ => []
  | _ :: s, skip + 1 => replaceLoop old new s skip
  | c :: s, 0 =>
    if startsWith (c :: s) old then new ++ replaceLoop old new s (old.length - 1)
    else c :: replaceLoop old new s 0

/-- The loop of `strings.Replace` for the empty `old`: `new` is put before every rune
and at the end. `skip` counts the remaining bytes of the current rune. -/
def replaceEmptyLoop (new : Bytes) : Bytes → Nat → Bytes
  | [], _ => new
  | c :: s, skip + 1 => c :: replaceEmptyLoop new s skip
  | c :: s, 0 => new ++ c :: replaceEmptyLoop new s ((decodeRune (c :: s)).2 - 1)

/-- Go `strings.ReplaceAll(s, old, new)`. -/
def stringsReplaceAll (s old new : Bytes) : Bytes :=
  if old = new then s
  else if old = [] then replaceEmptyLoop new s 0
  else replaceLoop old new s 0

/-- Go `unicode.ToLower(r)`: below `utf8.RuneSelf` the letters `A`–`Z` are shifted by
`'a' - 'A'` and every other rune is returned as it is; from `utf8.RuneSelf` on the
rune is looked up in the case tables of package `unicode`, which are the parameter
`unicodeLower`. -/
def unicodeToLower (unicodeLower : Char → Char) (r : Char) : Char :=
  if r.toNat < 128 then
    if 'A'.toNat ≤ r.toNat ∧ r.toNat ≤ 'Z'.toNat then
      Char.ofNat (r.toNat + ('a'.toNat - 'A'.toNat))
    else r
  else unicodeLower r

/-- Go `strings.ToLower(s)`: every rune of `s` mapped by `unicode.ToLower` (the
library's separate loop for a string of ASCII bytes computes the same). -/
def stringsToLower (unicodeLower : Char → Char) (s : String) : String :=
  ⟨s.data.map (unicodeToLower unicodeLower)⟩

/-- Go `fmt.Sprintf("%d", n)` for an `int64`. -/
def sprintD (n : Int) : String :=
  match n with
  | Int.ofNat m => Nat.repr m
  | Int.negSucc m => "-" ++ Nat.repr (m + 1)

/-! ## Globs: `filepath.Match` -/

/-- The scan of `scanChunk` after the leading stars: splits the pattern before the
first `*` that is outside a bracket expression. A backslash takes the next byte
with it. -/
def scanChunkLoop : Bytes → Bool → Bytes × Bytes
  | [], _ => ([], [])
  | [c], inrange =>
    if c = 42 ∧ !inrange then ([], [c]) else ([c], [])
  | c :: e :: t, inrange =>
    if c = 92 then
      let r := scanChunkLoop t inrange
      (c :: e :: r.1, r.2)
    else if c = 91 then
      let r := scanChunkLoop (e :: t) true
      (c :: r.1, r.2)
    else if c = 93 then
      let r := scanChunkLoop (e :: t) false
      (c :: r.1, r.2)
    else if c = 42 ∧ !inrange then ([], c :: e :: t)
    else
      let r := scanChunkLoop (e :: t) inrange
      (c :: r.1, r.2)

/-- Strips the leading `*` bytes of a pattern; the flag says whether there was one. -/
def stripStars : Bytes → Bool → Bool × Bytes
  | [], star => (star, [])
  | c :: t, star => if c = 42 then stripStars t true else (star, c :: t)

/-- Go `scanChunk`: `(star, chunk, rest)`. -/
def scanChunk (pattern : Bytes) : Bool × Bytes × Bytes :=
  let s := stripStars pattern false
  let r := scanChunkLoop s.2 false
  (s.1, r.1, r.2)

/-- Go `getEsc`: a possibly escaped rune of a bracket expression,
`(rune, rest of chunk, bad pattern)`. -/
def getEsc (chunk : Bytes) : Nat × Bytes × Bool :=
  match chunk with
  | [] => (0, [], true)
  | c :: t =>
    if c = 45 ∨ c = 93 then (0, [], true)
    else
      let chunk1 := if c = 92 then t else c :: t
      if chunk1 = [] then (0, [], true)
      else
        let d := decodeRune chunk1
        let nchunk := chunk1.drop d.2
        (d.1, nchunk, (d.1 = runeError ∧ d.2 = 1) ∨ nchunk = [])

/-- The range loop of a bracket expression in `matchChunk`:
`(rest of chunk, matched, bad pattern)`. -/
def classLoop : Nat → Bytes → Nat → Bool → Nat → Bytes × Bool × Bool
  | 0, _, _, _, _ => ([], false, true)
  | fuel + 1, chunk, r, mtch, nrange =>
    match chunk, decide (0 < nrange) with
    | 93 :: t, true => (t, mtch, false)
    | _, _ =>
      let lo := getEsc chunk
      if lo.2.2 then ([], false, true)
      else
        match lo.2.1 with
        | 45 :: t =>
          let hi := getEsc t
          if hi.2.2 then ([], false, true)
          else classLoop fuel hi.2.1 r (mtch || (decide (lo.1 ≤ r) && decide (r ≤ hi.1)))
            (nrange + 1)
        | chunk1 =>
          classLoop fuel chunk1 r (mtch || (decide (lo.1 ≤ r) && decide (r ≤ lo.1)))
            (nrange + 1)

/-- The loop of Go `matchChunk`: `(rest of s, ok, bad pattern)`. Once the match has
failed the loop goes on over the chunk to check that it is well formed, without
reading `s`. -/
def matchChunkLoop : Nat → Bytes → Bytes → Bool → Bytes × Bool × Bool
  | 0, _, _, _ => ([], false, true)
  | fuel + 1, chunk, s, failed0 =>
    match chunk with
    | [] => if failed0 then ([], false, false) else (s, true, false)
    | c :: ct =>
      let failed := failed0 || s.isEmpty
      if c = 91 then
        let r := if failed then 0 else (decodeRune s).1
        let s1 := if failed then s else s.drop (decodeRune s).2
        let negated := ct.head? = some 94
        let chunk1 := if negated then ct.drop 1 else ct
        let cl := classLoop (chunk1.length + 1) chunk1 r false 0
        if cl.2.2 then ([], false, true)
        else matchChunkLoop fuel cl.1 s1 (failed || (cl.2.1 == decide negated))
      else if c = 63 then
        let failed1 := failed || s.head? = some 47
        let s1 := if failed then s else s.drop (decodeRune s).2
        matchChunkLoop fuel ct s1 failed1
      else if c = 92 then
        match ct with
        | [] => ([], false, true)
        | e :: et =>
          matchChunkLoop fuel et (if failed then s else s.drop 1)
            (failed || s.head? != some e)
      else
        matchChunkLoop fuel ct (if failed then s else s.drop 1)
          (failed || s.head? != some c)

/-- Go `matchChunk(chunk, s)`. -/
def matchChunk (chunk s : Bytes) : Bytes × Bool × Bool :=
  matchChunkLoop (chunk.length + 1) chunk s false

/-- Outcome of the search that lets a `*` swallow a prefix of the name. -/
inductive StarResult where
  | found (t : Bytes)
  | bad
  | none

/-- The loop of `Match` after a star: tries the chunk after skipping `i+1` bytes of
the name, for `i = 0, 1, ...`, never skipping a `/`. -/
def starLoop (chunk : Bytes) (lastChunk : Bool) : Bytes → StarResult
  | [] => StarResult.none
  | c :: rest =>
    if c = 47 then StarResult.none
    else
      let m := matchChunk chunk rest
      if m.2.1 then
        if lastChunk ∧ m.1 ≠ [] then starLoop chunk lastChunk rest
        else StarResult.found m.1
      else if m.2.2 then StarResult.bad
      else starLoop chunk lastChunk rest

/-- The main loop of Go `filepath.Match`: `(matched, bad pattern)`. When a chunk
matches at no position the result is `false, nil`: the chunks after it are not
looked at. -/
def matchLoop : Nat → Bytes → Bytes → Bool × Bool
  | 0, _, _ => (false, true)
  | fuel + 1, pattern, name =>
    if pattern = [] then (name.isEmpty, false)
    else
      let sc := scanChunk pattern
      let star := sc.1
      let chunk := sc.2.1
      let rest := sc.2.2
      if star ∧ chunk = [] then (!name.contains 47, false)
      else
        let m := matchChunk chunk name
        if m.2.1 ∧ (m.1 = [] ∨ rest ≠ []) then matchLoop fuel rest m.1
        else if m.2.2 then (false, true)
        else
          match (if star then starLoop chunk (decide (rest = [])) name else StarResult.none) with
          | StarResult.found t => matchLoop fuel rest t
          | StarResult.bad => (false, true)
          | StarResult.none => (false, false)

/-- Go `filepath.Match(pattern, name)` on Unix: `(matched, err != nil)`. -/
def filepathMatch (pattern name : String) : Bool × Bool :=
  matchLoop (goLen pattern + 1) (goBytes pattern) (goBytes name)

/-! ## Data model (`app.go`) -/

/-- Go `type Rule struct`. -/
structure Rule where
  ID : String
  Name : String
  Extensions : List String
  Pattern : String
  TargetDir : String
  deriving DecidableEq, Repr, Inhabited

/-- Go `type Schema struct`. -/
structure Schema where
  Rules : List Rule
  deriving DecidableEq, Repr

/-- Go `type MoveOperation struct`. -/
structure MoveOperation where
  FileName : String
  OldPath : String
  NewPath : String
  deriving DecidableEq, Repr

/-- Go `type Transaction struct`. -/
structure Transaction where
  ID : String
  Timestamp : Int
  Operations : List MoveOperation
  deriving DecidableEq, Repr

/-! ## Rule matcher -/

/-- Go `getSpecificityScore`. -/
def getSpecificityScore (r : Rule) : Nat :=
  let score := 0
  let score :=
    if r.Pattern ≠ "" then
      let cleanPattern :=
        stringsReplaceAll (stringsReplaceAll (goBytes r.Pattern) (goBytes "*") (goBytes ""))
          (goBytes "?") (goBytes "")
      score + (1000 + cleanPattern.length)
    else score
  let score := if r.Extensions.length > 0 then score + 100 else score
  score

/-- Go `contains`. -/
def contains : List String → String → Bool
  | [], _ => false
  | a :: s, e => if a = e then true else contains s e

/-- The `less` closure handed to `sort.Slice` in `OrganizeFiles`, on the elements. -/
def ruleLess (x y : Rule) : Bool :=
  decide (getSpecificityScore x > getSpecificityScore y)

/-- The rule scan of `OrganizeFiles` (the `for _, r := range sortedRules` loop);
`destDir` is the loop variable, returning is `break`. -/
def scanRules (fileName ext : String) : List Rule → String → String
  | [], destDir => destDir
  | r :: rest, destDir =>
    if r.Pattern ≠ "" ∧ (filepathMatch r.Pattern fileName).1 = true then r.TargetDir
    else if destDir = "" ∧ contains r.Extensions ext = true then r.TargetDir
    else scanRules fileName ext rest destDir

/-! ## `sort.Slice`

The pattern-defeating quicksort of Go's `sort` package (`zsortfunc.go`), over a
list that stands for the slice; `less` compares the elements at two indices. -/

section SliceSort
variable {α : Type}

/-- Go `data.Swap(i, j)`. -/
def swapAt (d : List α) (i j : Nat) : List α :=
  match d[i]?, d[j]? with
  | some x, some y => (d.set i y).set j x
  | _, _ => d

/-- Go `data.Less(i, j)`. -/
def lessAt (less : α → α → Bool) (d : List α) (i j : Nat) : Bool :=
  match d[i]?, d[j]? with
  | some x, some y => less x y
  | _, _ => false

/-- The inner loop of `insertionSort_func`:
`for j := i; j > a && data.Less(j, j-1); j-- { data.Swap(j, j-1) }`. -/
def insertLoop (less : α → α → Bool) (a : Nat) : Nat → List α → List α
  | 0, d => d
  | j + 1, d =>
    if a < j + 1 ∧ lessAt less d (j + 1) j = true then
      insertLoop less a j (swapAt d (j + 1) j)
    else d

/-- The outer loop of `insertionSort_func` from index `i`, with `n = b - i` rounds
left. -/
def insertionSortLoop (less : α → α → Bool) (a : Nat) : Nat → Nat → List α → List α
  | 0, _, d => d
  | n + 1, i, d => insertionSortLoop less a n (i + 1) (insertLoop less a i d)

/-- Go `insertionSort_func(data, a, b)`. -/
def insertionSortFunc (less : α → α → Bool) (d : List α) (a b : Nat) : List α :=
  insertionSortLoop less a (b - (a + 1)) (a + 1) d

/-- Go `siftDown_func(data, lo, hi, first)`; the fuel bounds the descent. -/
def siftDown (less : α → α → Bool) (hi first : Nat) : Nat → Nat → List α → List α
  | 0, _, d => d
  | fuel + 1, root, d =>
    let child := 2 * root + 1
    if child ≥ hi then d
    else
      let child1 :=
        if child + 1 < hi ∧ lessAt less d (first + child) (first + child + 1) = true
        then child + 1 else child
      if lessAt less d (first + root) (first + child1) = false then d
      else siftDown less hi first fuel child1 (swapAt d (first + root) (first + child1))

/-- First loop of `heapSort_func`: `for i := (hi-1)/2; i >= 0; i--`. -/
def heapBuild (less : α → α → Bool) (hi first : Nat) : Nat → List α → List α
  | 0, d => siftDown less hi first hi 0 d
  | i + 1, d => heapBuild less hi first i (siftDown less hi first hi (i + 1) d)

/-- Second loop of `heapSort_func`: `for i := hi-1; i >= 0; i--`. -/
def heapPop (less : α → α → Bool) (first : Nat) : Nat → List α → List α
  | 0, d => siftDown less 0 first 0 0 (swapAt d first first)
  | i + 1, d =>
    heapPop less first i (siftDown less (i + 1) first (i + 1) 0 (swapAt d first (first + (i + 1))))

/-- Go `heapSort_func(data, a, b)`. -/
def heapSortFunc (less : α → α → Bool) (d : List α) (a b : Nat) : List α :=
  let hi := b - a
  heapPop less a (hi - 1) (heapBuild less hi a ((hi - 1) / 2) d)

/-- The loop `for i <= j && p(i) { i++ }`; the fuel is `j + 1 - i`. -/
def advanceWhile (p : Nat → Bool) (j : Nat) : Nat → Nat → Nat
  | 0, i => i
  | n + 1, i => if i ≤ j ∧ p i = true then advanceWhile p j n (i + 1) else i

/-- The loop `for i <= j && p(j) { j-- }`; the fuel is `j + 1 - i`. -/
def retreatWhile (p : Nat → Bool) (i : Nat) : Nat → Nat → Nat
  | 0, j => j
  | n + 1, j => if i ≤ j ∧ p j = true then retreatWhile p i n (j - 1) else j

/-- The closing `for` loop of `partition_func`, with the pivot at index `a`:
returns the slice and the final `j`. -/
def partitionLoop (less : α → α → Bool) (a : Nat) : Nat → List α → Nat → Nat → List α × Nat
  | 0, d, _, j => (d, j)
  | fuel + 1, d, i, j =>
    let i1 := advanceWhile (fun k => lessAt less d k a) j (j + 1 - i) i
    let j1 := retreatWhile (fun k => !lessAt less d k a) i1 (j + 1 - i1) j
    if i1 > j1 then (d, j1)
    else partitionLoop less a fuel (swapAt d i1 j1) (i1 + 1) (j1 - 1)

/-- Go `partition_func(data, a, b, pivot)`: `(data, newpivot, alreadyPartitioned)`. -/
def partitionFunc (less : α → α → Bool) (d : List α) (a b pivot : Nat) :
    List α × Nat × Bool :=
  let d1 := swapAt d a pivot
  let i := a + 1
  let j := b - 1
  let i1 := advanceWhile (fun k => lessAt less d1 k a) j (j + 1 - i) i
  let j1 := retreatWhile (fun k => !lessAt less d1 k a) i1 (j + 1 - i1) j
  if i1 > j1 then (swapAt d1 j1 a, j1, true)
  else
    let r := partitionLoop less a (b - a) (swapAt d1 i1 j1) (i1 + 1) (j1 - 1)
    (swapAt r.1 r.2 a, r.2, false)

/-- The loop of `partitionEqual_func`: returns the slice and the final `i`. -/
def partitionEqualLoop (less : α → α → Bool) (a : Nat) :
    Nat → List α → Nat → Nat → List α × Nat
  | 0, d, i, _ => (d, i)
  | fuel + 1, d, i, j =>
    let i1 := advanceWhile (fun k => !lessAt less d a k) j (j + 1 - i) i
    let j1 := retreatWhile (fun k => lessAt less d a k) i1 (j + 1 - i1) j
    if i1 > j1 then (d, i1)
    else partitionEqualLoop less a fuel (swapAt d i1 j1) (i1 + 1) (j1 - 1)

/-- Go `partitionEqual_func(data, a, b, pivot)`: `(data, newpivot)`. -/
def partitionEqualFunc (less : α → α → Bool) (d : List α) (a b pivot : Nat) : List α × Nat :=
  partitionEqualLoop less a (b - a + 1) (swapAt d a pivot) (a + 1) (b - 1)

/-- The shift to the left in `partialInsertionSort_func`:
`for j := i-1; j >= 1; j-- { if !Less(j, j-1) { break }; Swap(j, j-1) }`. -/
def shiftLeft (less : α → α → Bool) : Nat → List α → List α
  | 0, d => d
  | j + 1, d =>
    if lessAt less d (j + 1) j = false then d
    else shiftLeft less j (swapAt d (j + 1) j)

/-- The shift to the right in `partialInsertionSort_func`:
`for j := i+1; j < b; j++ { if !Less(j, j-1) { break }; Swap(j, j-1) }`. -/
def shiftRight (less : α → α → Bool) (b : Nat) : Nat → Nat → List α → List α
  | 0, _, d => d
  | n + 1, j, d =>
    if j < b then
      if lessAt less d j (j - 1) = false then d
      else shiftRight less b n (j + 1) (swapAt d j (j - 1))
    else d

/-- The loop of `partialInsertionSort_func` with `steps` rounds left. -/
def partialInsertionLoop (less : α → α → Bool) (a b : Nat) :
    Nat → Nat → List α → List α × Bool
  | 0, _, d => (d, false)
  | steps + 1, i, d =>
    let i1 := advanceWhile (fun k => !lessAt less d k (k - 1)) (b - 1) (b - i) i
    if i1 = b then (d, true)
    else if b - a < 50 then (d, false)
    else
      let d1 := swapAt d i1 (i1 - 1)
      let d2 := if i1 - a ≥ 2 then shiftLeft less (i1 - 1) d1 else d1
      let d3 := if b - i1 ≥ 2 then shiftRight less b (b - (i1 + 1)) (i1 + 1) d2 else d2
      partialInsertionLoop less a b steps i1 d3

/-- Go `partialInsertionSort_func(data, a, b)`: the slice and whether it is sorted. -/
def partialInsertionSortFunc (less : α → α → Bool) (d : List α) (a b : Nat) : List α × Bool :=
  partialInsertionLoop less a b 5 (a + 1) d

/-- Go `bits.Len`. -/
def bitsLen (x : Nat) : Nat :=
  if x = 0 then 0 else Nat.log2 x + 1

/-- Go `(*xorshift).Next` on a `uint64`. -/
def xorshiftNext (r : Nat) : Nat :=
  let r1 := Nat.xor r ((r * 2 ^ 13) % 2 ^ 64)
  let r2 := Nat.xor r1 (r1 / 2 ^ 7)
  Nat.xor r2 ((r2 * 2 ^ 17) % 2 ^ 64)

/-- The loop of `breakPatterns_func`, `i = 0, 1, 2`: the three elements around the
middle pivot candidate, at the indices `idx + i`, are swapped with elements at
pseudo-random places of the range. -/
def breakPatternsLoop (a length modulus idx : Nat) : Nat → Nat → Nat → List α → List α
  | 0, _, _, d => d
  | n + 1, i, random, d =>
    let random1 := xorshiftNext random
    let other := random1 % modulus
    let other1 := if other ≥ length then other - length else other
    breakPatternsLoop a length modulus idx n (i + 1) random1 (swapAt d (idx + i) (a + other1))

/-- Go `breakPatterns_func(data, a, b)`. -/
def breakPatternsFunc (d : List α) (a b : Nat) : List α :=
  let length := b - a
  if length ≥ 8 then
    breakPatternsLoop a length (2 ^ bitsLen length) (a + (length / 4) * 2 - 1) 3 0 length d
  else d

/-- Go `order2_func`: `(x, y, swaps)` with `data[x] <= data[y]`. -/
def order2 (less : α → α → Bool) (d : List α) (a b swaps : Nat) : Nat × Nat × Nat :=
  if lessAt less d b a = true then (b, a, swaps + 1) else (a, b, swaps)

/-- Go `median_func`: the index of the median of three and the swap count. -/
def medianFunc (less : α → α → Bool) (d : List α) (a b c swaps : Nat) : Nat × Nat :=
  let r1 := order2 less d a b swaps
  let r2 := order2 less d r1.2.1 c r1.2.2
  let r3 := order2 less d r1.1 r2.1 r2.2.2
  (r3.2.1, r3.2.2)

/-- Go `medianAdjacent_func`. -/
def medianAdjacent (less : α → α → Bool) (d : List α) (a swaps : Nat) : Nat × Nat :=
  medianFunc less d (a - 1) a (a + 1) swaps

/-- Go `sortedHint`. -/
inductive SortedHint where
  | unknownHint
  | increasingHint
  | decreasingHint
  deriving DecidableEq, Repr

/-- Go `choosePivot_func(data, a, b)`. -/
def choosePivot (less : α → α → Bool) (d : List α) (a b : Nat) : Nat × SortedHint :=
  let l := b - a
  let i := a + l / 4 * 1
  let j := a + l / 4 * 2
  let k := a + l / 4 * 3
  let r :=
    if l ≥ 8 then
      if l ≥ 50 then
        let mi := medianAdjacent less d i 0
        let mj := medianAdjacent less d j mi.2
        let mk := medianAdjacent less d k mj.2
        medianFunc less d mi.1 mj.1 mk.1 mk.2
      else medianFunc less d i j k 0
    else (j, 0)
  if r.2 = 0 then (r.1, SortedHint.increasingHint)
  else if r.2 = 12 then (r.1, SortedHint.decreasingHint)
  else (r.1, SortedHint.unknownHint)

/-- Go `reverseRange_func`: the loop `for i < j { Swap(i, j); i++; j-- }`. -/
def reverseLoop : Nat → Nat → Nat → List α → List α
  | 0, _, _, d => d
  | n + 1, i, j, d => if i < j then reverseLoop n (i + 1) (j - 1) (swapAt d i j) else d

/-- Go `reverseRange_func(data, a, b)`. -/
def reverseRange (d : List α) (a b : Nat) : List α :=
  reverseLoop (b - a) a (b - 1) d

/-- Go `pdqsort_func(data, a, b, limit)`. The loop variables `wasBalanced` and
`wasPartitioned` are arguments; each round, and each recursive call, works on a
strictly shorter range, which the fuel counts. -/
def pdqsort (less : α → α → Bool) :
    Nat → List α → Nat → Nat → Nat → Bool → Bool → List α
  | 0, d, _, _, _, _, _ => d
  | fuel + 1, d, a, b, limit, wasBalanced, wasPartitioned =>
    let length := b - a
    if length ≤ 12 then insertionSortFunc less d a b
    else if limit = 0 then heapSortFunc less d a b
    else
      let d1 := if wasBalanced then d else breakPatternsFunc d a b
      let limit1 := if wasBalanced then limit else limit - 1
      let cp := choosePivot less d1 a b
      let d2 := if cp.2 = SortedHint.decreasingHint then reverseRange d1 a b else d1
      let pivot := if cp.2 = SortedHint.decreasingHint then (b - 1) - (cp.1 - a) else cp.1
      let hint := if cp.2 = SortedHint.decreasingHint then SortedHint.increasingHint else cp.2
      let pis :=
        if wasBalanced ∧ wasPartitioned ∧ hint = SortedHint.increasingHint then
          partialInsertionSortFunc less d2 a b
        else (d2, false)
      if pis.2 = true then pis.1
      else if a > 0 ∧ lessAt less pis.1 (a - 1) pivot = false then
        let pe := partitionEqualFunc less pis.1 a b pivot
        pdqsort less fuel pe.1 pe.2 b limit1 wasBalanced wasPartitioned
      else
        let pt := partitionFunc less pis.1 a b pivot
        let mid := pt.2.1
        let leftLen := mid - a
        let rightLen := b - mid
        let balanceThreshold := length / 8
        if leftLen < rightLen then
          pdqsort less fuel (pdqsort less fuel pt.1 a mid limit1 true true)
            (mid + 1) b limit1 (decide (leftLen ≥ balanceThreshold)) pt.2.2
        else
          pdqsort less fuel (pdqsort less fuel pt.1 (mid + 1) b limit1 true true)
            a mid limit1 (decide (rightLen ≥ balanceThreshold)) pt.2.2

/-- Go `sort.Slice(x, less)`. -/
def sortSlice (less : α → α → Bool) (d : List α) : List α :=
  pdqsort less (d.length + 1) d 0 d.length (bitsLen d.length) true true

end SliceSort

/-- The sorted copy of the rules that `OrganizeFiles` scans. -/
def sortedRules (schema : Schema) : List Rule :=
  sortSlice ruleLess schema.Rules

/-! ## Paths: `path/filepath` on Unix -/

/-- The backtracking of `Clean` at a `..` element, after `out.w--`:
`for out.w > dotdot && !os.IsPathSeparator(out.index(out.w)) { out.w-- }`. -/
def backtrackLoop (out : List Char) (dotdot : Nat) : Nat → Nat
  | 0 => 0
  | w + 1 =>
    if w + 1 > dotdot ∧ out[w + 1]? ≠ some '/' then backtrackLoop out dotdot w else w + 1

/-- The main loop of Go `filepath.Clean` over the unread part of the path. `out` is
the buffer written so far, `dotdot` the index where `..` must stop; `copying` says
that the loop is inside the copy of a real path element. -/
def cleanLoop (rooted : Bool) : List Char → Bool → List Char → Nat → List Char
  | [], _, out, _ => out
  | c :: t, true, out, dotdot =>
    if c = '/' then cleanLoop rooted t false out dotdot
    else cleanLoop rooted t true (out ++ [c]) dotdot
  | [c], false, out, dotdot =>
    if c = '/' then out
    else if c = '.' then out
    else
      let out1 :=
        if (rooted = true ∧ out.length ≠ 1) ∨ (rooted = false ∧ out.length ≠ 0)
        then out ++ ['/'] else out
      cleanLoop rooted [] true (out1 ++ [c]) dotdot
  | c :: d :: t, false, out, dotdot =>
    if c = '/' then cleanLoop rooted (d :: t) false out dotdot
    else if c = '.' ∧ d = '/' then cleanLoop rooted (d :: t) false out dotdot
    else if c = '.' ∧ d = '.' ∧ (t = [] ∨ t.head? = some '/') then
      if out.length > dotdot then
        cleanLoop rooted t false (out.take (backtrackLoop out dotdot (out.length - 1))) dotdot
      else if rooted = false then
        let out1 := (if out.length > 0 then out ++ ['/'] else out) ++ ['.', '.']
        cleanLoop rooted t false out1 out1.length
      else cleanLoop rooted t false out dotdot
    else
      let out1 :=
        if (rooted = true ∧ out.length ≠ 1) ∨ (rooted = false ∧ out.length ≠ 0)
        then out ++ ['/'] else out
      cleanLoop rooted (d :: t) true (out1 ++ [c]) dotdot

/-- Go `filepath.Clean`. -/
def filepathClean (path : String) : String :=
  match path.data with
  | [] => "."
  | c :: t =>
    let out :=
      if c = '/' then cleanLoop true t false ['/'] 1
      else cleanLoop false (c :: t) false [] 0
    if out.length = 0 then "." else ⟨out⟩

/-- Go `strings.Join(elems, sep)`. -/
def stringsJoin (sep : String) : List String → String
  | [] => ""
  | [e] => e
  | e :: f :: rest => e ++ sep ++ stringsJoin sep (f :: rest)

/-- Go `filepath.Join(elem...)`: the elements from the first non-empty one on,
joined by `/` and cleaned. -/
def filepathJoin : List String → String
  | [] => ""
  | e :: rest =>
    if e ≠ "" then filepathClean (stringsJoin "/" (e :: rest)) else filepathJoin rest

/-- Go `filepath.IsAbs` on Unix. -/
def filepathIsAbs (path : String) : Bool :=
  path.data.head? = some '/'

/-- The loop of Go `filepath.Ext`, over the reversed path: the text from the last
dot of the last element on. -/
def extLoop : List Char → List Char → List Char
  | [], _ => []
  | c :: t, acc =>
    if c = '/' then []
    else if c = '.' then c :: acc
    else extLoop t (c :: acc)

/-- Go `filepath.Ext`. -/
def filepathExt (path : String) : String :=
  ⟨extLoop path.data.reverse []⟩

/-- The first loop of Go `filepath.Base`, over the reversed path: drops the
trailing slashes. -/
def stripSlashes : List Char → List Char
  | [] => []
  | c :: t => if c = '/' then stripSlashes t else c :: t

/-- The second loop of Go `filepath.Base`, over the reversed path: the last element. -/
def lastElem : List Char → List Char → List Char
  | [], acc => acc
  | c :: t, acc => if c = '/' then acc else lastElem t (c :: acc)

/-- Go `filepath.Base`. -/
def filepathBase (path : String) : String :=
  if path = "" then "."
  else
    let e := lastElem (stripSlashes path.data.reverse) []
    if e = [] then "/" else ⟨e⟩

/-- The loop of Go `filepath.Dir`, over the reversed path: drops the last element,
down to the last slash. -/
def dropLastElem : List Char → List Char
  | [] => []
  | c :: t => if c = '/' then c :: t else dropLastElem t

/-- Go `filepath.Dir`. -/
def filepathDir (path : String) : String :=
  filepathClean ⟨(dropLastElem path.data.reverse).reverse⟩

/-! ## The environment -/

/-- What the program takes from outside, over file system states `σ`. Each call of
package `os` is a function of the state of the file system, and returns the state
that it leaves; where the code looks at the error of a call, the result says whether
there was none. -/
structure Env (σ : Type) where
  /-- Go `unicode.ToLower` on the runes from `utf8.RuneSelf` on: the case tables. -/
  unicodeLower : Char → Char
  /-- Go `os.ReadDir(p)`: the entries that the call returns, in their order, each with
  its `Name()` and `IsDir()`; the code ignores the error. -/
  readDir : σ → String → List (String × Bool)
  /-- Go `os.MkdirAll(path, 0755)`. -/
  mkdirAll : σ → String → σ
  /-- Go `os.Stat(path)`: whether `err == nil`; the call succeeds on a file and on a
  directory. -/
  stat : σ → String → Bool
  /-- Go `os.Rename(src, dst)`, with whether `err == nil`. -/
  rename : σ → String → String → σ × Bool
  /-- The lines `in, _ := os.Open(src)` to `out.Close()`: the copy of the bytes of
  `src` to a created `dest`. -/
  copyFile : σ → String → String → σ
  /-- Go `os.Remove(path)`. -/
  remove : σ → String → σ

/-! ## The file system as a map -/

/-- Files by path: the first binding of a path is its content. -/
abbrev FS := List (String × String)

/-- The content of the file at a path, if there is one. -/
def fsRead (fs : FS) (path : String) : Option String :=
  match fs with
  | [] => none
  | (k, v) :: rest => if k = path then some v else fsRead rest path

/-- Removes a path. -/
def fsRemove (fs : FS) (path : String) : FS :=
  fs.filter (fun e => decide (e.1 ≠ path))

/-- Creates or replaces the file at a path. -/
def fsWrite (fs : FS) (path content : String) : FS :=
  (path, content) :: fsRemove fs path

/-- Go `os.Stat(path)` on the map: whether `err == nil`. The map has files only. -/
def osStat (fs : FS) (path : String) : Bool :=
  (fsRead fs path).isSome

/-- Go `os.Rename(src, dst)` on the map, with whether `err == nil`: moves the entry and
replaces an existing target; fails, leaving the files as they are, when the source is
absent. -/
def osRename (fs : FS) (src dst : String) : FS × Bool :=
  match fsRead fs src with
  | none => (fs, false)
  | some c => (fsWrite (fsRemove fs src) dst c, true)

/-- The copy of `OrganizeFiles` on the map: `os.Create(dest)` makes `dest` an empty
file and `io.Copy` fills it with the bytes of `src` when `os.Open(src)` succeeded. -/
def osCopy (fs : FS) (src dest : String) : FS :=
  fsWrite fs dest ((fsRead fs src).getD "")

/-- A name that a directory entry can have. -/
def validName (name : String) : Bool :=
  decide (name ≠ "") && !name.data.contains '/' && decide (name ≠ ".") && decide (name ≠ "..")

/-- Go's `<` on strings: the order of the byte sequences. -/
def bytesLess : Bytes → Bytes → Bool
  | _, [] => false
  | [], _ :: _ => true
  | a :: s, b :: t => if a < b then true else if b < a then false else bytesLess s t

/-- Inserts a name into a list sorted by file name. -/
def insertName (n : String) : List String → List String
  | [] => [n]
  | m :: rest =>
    if bytesLess (goBytes n) (goBytes m) = true then n :: m :: rest
    else m :: insertName n rest

/-- The names of the files of the directory `p`, sorted by file name: the files whose
path is `p` joined with their base name. -/
def dirNames (fs : FS) (p : String) : List String :=
  match fs with
  | [] => []
  | (k, _) :: rest =>
    let name := filepathBase k
    let names := dirNames rest p
    if validName name = true ∧ filepathJoin [p, name] = k ∧ name ∉ names then
      insertName name names
    else names

/-- Go `os.ReadDir(p)` on the map, reduced to the names: the call fails on the empty
path, and then there are no entries. -/
def osReadDir (fs : FS) (p : String) : List String :=
  if p = "" then [] else dirNames fs p

/-- The map as an environment, for given case tables: no entry is a directory. -/
def mapEnv (unicodeLower : Char → Char) : Env FS where
  unicodeLower := unicodeLower
  readDir := fun fs p => (osReadDir fs p).map (fun name => (name, false))
  mkdirAll := fun fs _ => fs
  stat := osStat
  rename := osRename
  copyFile := osCopy
  remove := fsRemove

/-! ## Transaction log (`history.go`) -/

/-- The state the application works on: the files and the parsed content of
`history.json` (a missing or unreadable file is the empty history). -/
structure App (σ : Type) where
  fs : σ
  history : List Transaction

/-- Go `(*App).SaveTransaction(ops)`; `id` is `time.Now().Format("15:04:05")` and
`timestamp` is `time.Now().Unix()`. Returns the history written back. -/
def SaveTransaction (h : List Transaction) (id : String) (timestamp : Int)
    (ops : List MoveOperation) : List Transaction :=
  let tx : Transaction := { ID := id, Timestamp := timestamp, Operations := ops }
  let h := [tx] ++ h
  let h := if h.length > 30 then h.take 30 else h
  h

section Program
variable {σ : Type}

/-- Go `(*App).GetHistory()`. -/
def GetHistory (app : App σ) : List Transaction :=
  app.history

/-- The inner loop of `UndoByID`, `for j := len(tx.Operations) - 1; j >= 0; j--`,
over the operations from the last to the first: makes the directory of `OldPath`,
renames `NewPath` back to `OldPath` and ignores the error. -/
def undoOperations (env : Env σ) : List MoveOperation → σ → σ
  | [], fs => fs
  | op :: earlier, fs =>
    let fs := env.mkdirAll fs (filepathDir op.OldPath)
    undoOperations env earlier (env.rename fs op.NewPath op.OldPath).1

/-- The outer loop of `UndoByID` from index `len(before)` on: on the first
transaction with the ID, the files after the undo and
`append(history[:i], history[i+1:]...)`. -/
def undoScan (env : Env σ) (id : String) (fs : σ) :
    List Transaction → List Transaction → Option (σ × List Transaction)
  | _, [] => none
  | before, tx :: rest =>
    if tx.ID = id then some (undoOperations env tx.Operations.reverse fs, before ++ rest)
    else undoScan env id fs (before ++ [tx]) rest

/-- Go `(*App).UndoByID(id)`: the state afterwards and the returned error (`none` is
`nil`). -/
def UndoByID (env : Env σ) (app : App σ) (id : String) : App σ × Option String :=
  let history := GetHistory app
  match undoScan env id app.fs [] history with
  | some r => ({ fs := r.1, history := r.2 }, none)
  | none => (app, none)

end Program

/-! ## Move executor (`OrganizeFiles`) -/

/-- The destination directory of a file of the directory `p`
(`app.go`, from `destDir := ""` to the second `filepath.Join`). -/
def destinationDir (sorted : List Rule) (p fileName ext : String) : String :=
  let destDir := scanRules fileName ext sorted ""
  let destDir := if destDir = "" then filepathJoin [p, "!Uncategorized"] else destDir
  let destDir := if filepathIsAbs destDir = false then filepathJoin [p, destDir] else destDir
  destDir

/-- What the loop body of `OrganizeFiles` does with one file. -/
inductive Outcome where
  | skipped
  | moved (op : MoveOperation)
  deriving DecidableEq, Repr

/-- The conflict resolution of `OrganizeFiles` for the file `fileName` of `p` with
destination directory `destDir`, at Unix time `now`; `destExists` is whether
`os.Stat(dest)` returned no error. -/
def resolveConflict (destExists : Bool) (conflictAction : String) (now : Int)
    (p destDir fileName : String) : Outcome :=
  let src := filepathJoin [p, fileName]
  let dest := filepathJoin [destDir, fileName]
  if destExists = true then
    if conflictAction = "skip" then Outcome.skipped
    else
      let dest :=
        if conflictAction = "rename" then filepathJoin [destDir, sprintD now ++ "_" ++ fileName]
        else dest
      Outcome.moved { FileName := fileName, OldPath := src, NewPath := dest }
  else Outcome.moved { FileName := fileName, OldPath := src, NewPath := dest }

/-- The files and the operations recorded so far in a run of `OrganizeFiles`. -/
structure RunState (σ : Type) where
  fs : σ
  allOps : List MoveOperation

section Executor
variable {σ : Type}

/-- The move of `OrganizeFiles`: `os.Rename`, and when it fails the copy of the
bytes to a created destination followed by the removal of the source. -/
def moveFile (env : Env σ) (fs : σ) (src dest : String) : σ :=
  let r := env.rename fs src dest
  if r.2 = true then r.1
  else env.remove (env.copyFile r.1 src dest) src

/-- The body of the loop over the files of `p`, for an entry that is not a directory.
`clock` is `time.Now().Unix()` as a function of the number of operations recorded so
far. -/
def organizeFile (env : Env σ) (sorted : List Rule) (conflictAction : String)
    (clock : Nat → Int) (p fileName : String) (st : RunState σ) : RunState σ :=
  let ext := stringsToLower env.unicodeLower (filepathExt fileName)
  let destDir := destinationDir sorted p fileName ext
  let fs := env.mkdirAll st.fs destDir
  let dest := filepathJoin [destDir, fileName]
  match resolveConflict (env.stat fs dest) conflictAction (clock st.allOps.length) p destDir
      fileName with
  | Outcome.skipped => { fs := fs, allOps := st.allOps }
  | Outcome.moved op =>
    { fs := moveFile env fs op.OldPath op.NewPath, allOps := st.allOps ++ [op] }

/-- The loop over the entries of one target path; directories are passed over. -/
def organizeDir (env : Env σ) (sorted : List Rule) (conflictAction : String)
    (clock : Nat → Int) (p : String) : List (String × Bool) → RunState σ → RunState σ
  | [], st => st
  | f :: files, st =>
    if f.2 = true then organizeDir env sorted conflictAction clock p files st
    else
      organizeDir env sorted conflictAction clock p files
        (organizeFile env sorted conflictAction clock p f.1 st)

/-- The loop over the target paths; each directory is read when its turn comes. -/
def organizePaths (env : Env σ) (sorted : List Rule) (conflictAction : String)
    (clock : Nat → Int) : List String → RunState σ → RunState σ
  | [], st => st
  | p :: paths, st =>
    organizePaths env sorted conflictAction clock paths
      (organizeDir env sorted conflictAction clock p (env.readDir st.fs p) st)

/-- Go `(*App).OrganizeFiles(targetPaths, schema, conflictAction)`: the state
afterwards and the returned count (the error is always `nil`). `txID` and `txTime`
are the clock readings of `SaveTransaction`. -/
def OrganizeFiles (env : Env σ) (app : App σ) (targetPaths : List String) (schema : Schema)
    (conflictAction : String) (clock : Nat → Int) (txID : String) (txTime : Int) :
    App σ × Nat :=
  let st := organizePaths env (sortedRules schema) conflictAction clock targetPaths
    { fs := app.fs, allOps := [] }
  let history :=
    if st.allOps.length > 0 then SaveTransaction app.history txID txTime st.allOps
    else app.history
  ({ fs := st.fs, history := history }, st.allOps.length)

end Executor

/-! ## Vocabulary of the specification, examples and proof invariants -/

/-- The pattern with its `*` and `?` characters removed. -/
def cleanedPattern (pattern : String) : String :=
  ⟨pattern.data.filter (fun c => decide (c ≠ '*' ∧ c ≠ '?'))⟩

/-- A rule claims a file: its non-empty pattern glob-matches the name, or the
extension is a member of its extension set. -/
def ruleClaims (fileName ext : String) (r : Rule) : Bool :=
  (decide (r.Pattern ≠ "") && (filepathMatch r.Pattern fileName).1) || decide (ext ∈ r.Extensions)

/-- The rules `{pattern: "*.tmp", targetDir: "Trash"}` and
`{extensions: [".tmp"], targetDir: "Archive"}` of the scenario; the fields that the
scenario leaves out have Go's zero value. -/
def scenarioRules : List Rule :=
  [ { ID := "", Name := "", Extensions := [], Pattern := "*.tmp", TargetDir := "Trash" },
    { ID := "", Name := "", Extensions := [".tmp"], Pattern := "", TargetDir := "Archive" } ]

section SortSpec
variable {α : Type}

/-- Insertion of `x` behind a prefix given in reverse (last element first): `x`
moves ahead of the elements it is `less` than, up to the first one it is not. -/
def insertRev (less : α → α → Bool) (x : α) : List α → List α
  | [] => [x]
  | y :: rp => if less x y = true then y :: insertRev less x rp else x :: y :: rp

/-- Insertion of `x` at the end of a prefix, moved forward as far as `less` allows. -/
def insertInto (less : α → α → Bool) (x : α) (pre : List α) : List α :=
  (insertRev less x pre.reverse).reverse

/-- Insertion sort of `rest` onto the sorted prefix `pre`. -/
def isortFold (less : α → α → Bool) : List α → List α → List α
  | pre, [] => pre
  | pre, x :: rest => isortFold less (insertInto less x pre) rest

/-- The order induced by a key, largest key first. -/
def keyLess (key : α → Nat) (x y : α) : Bool :=
  decide (key y < key x)

/-- The key at an index of the slice (0 outside of it). -/
def keyAt (key : α → Nat) (d : List α) (i : Nat) : Nat :=
  match d[i]? with
  | some x => key x
  | none => 0

/-- The part `d[a:b]` of a slice. -/
def sliceOf (d : List α) (a b : Nat) : List α :=
  (d.take b).drop a

/-- The slice `d'` is `d` with the part `[a, b)` permuted. -/
structure RangePerm (a b : Nat) (d d' : List α) : Prop where
  len : d'.length = d.length
  left : d'.take a = d.take a
  right : d'.drop b = d.drop b
  mid : (sliceOf d' a b).Perm (sliceOf d a b)

/-- The part `[a, b)` of the slice is in order: keys do not increase. -/
def SortedOn (key : α → Nat) (a b : Nat) (d : List α) : Prop :=
  ∀ i j, a ≤ i → i < j → j < b → keyAt key d j ≤ keyAt key d i

end SortSpec

section SortInvariants
variable {α : Type}

/-- Invariant of the loops of `partition_func`, the pivot key `kp` being at index
`a`: left of `i` the keys are larger than `kp`, right of `j` they are not. -/
def PartInv (key : α → Nat) (a b kp : Nat) (d : List α) (i j : Nat) : Prop :=
  keyAt key d a = kp ∧ a + 1 ≤ i ∧ j < b ∧ i ≤ j + 1 ∧ b ≤ d.length ∧
    (∀ k, a < k → k < i → kp < keyAt key d k) ∧
    (∀ k, j < k → k < b → keyAt key d k ≤ kp)

/-- Invariant of the loop of `partitionEqual_func`: left of `i` the keys equal `kp`,
right of `j` they are smaller. -/
def PartEqInv (key : α → Nat) (a b kp : Nat) (d : List α) (i j : Nat) : Prop :=
  keyAt key d a = kp ∧ a + 1 ≤ i ∧ j < b ∧ i ≤ j + 1 ∧ b ≤ d.length ∧
    (∀ k, a ≤ k → k < b → keyAt key d k ≤ kp) ∧
    (∀ k, a < k → k < i → keyAt key d k = kp) ∧
    (∀ k, j < k → k < b → keyAt key d k < kp)

/-- The heap condition of `heapSort_func` at node `p` of the heap `[first, first+hi)`:
the key of a node is not larger than the keys of its children. -/
def HeapAt (key : α → Nat) (first hi : Nat) (d : List α) (p : Nat) : Prop :=
  ∀ c, (c = 2 * p + 1 ∨ c = 2 * p + 2) → c < hi →
    keyAt key d (first + p) ≤ keyAt key d (first + c)

end SortInvariants

/-- A stable descending sort of the rules by score: a permutation, scores do not
increase, and the rules of any one score are in their original order. -/
def StableByScore (rules sorted : List Rule) : Prop :=
  sorted.Perm rules
    ∧ sorted.Pairwise (fun u v => getSpecificityScore v ≤ getSpecificityScore u)
    ∧ ∀ s, sorted.filter (fun r => decide (getSpecificityScore r = s))
        = rules.filter (fun r => decide (getSpecificityScore r = s))

/-- An extension rule for `.x` with the given ID and target directory. -/
def extRule (id target : String) : Rule :=
  { ID := id, Name := "", Extensions := [".x"], Pattern := "", TargetDir := target }

/-- Thirteen rules: one without pattern and extensions (score 0) followed by twelve
extension rules of score 100. -/
def thirteenRules : List Rule :=
  [ { ID := "0", Name := "", Extensions := [], Pattern := "", TargetDir := "T0" },
    extRule "1" "T1", extRule "2" "T2", extRule "3" "T3", extRule "4" "T4",
    extRule "5" "T5", extRule "6" "T6", extRule "7" "T7", extRule "8" "T8",
    extRule "9" "T9", extRule "10" "T10", extRule "11" "T11", extRule "12" "T12" ]

/-- Two file systems hold the same files: every path has the same content in both. -/
def SameFiles (fs fs' : FS) : Prop :=
  ∀ path, fsRead fs' path = fsRead fs path

/-- Two files named `x.txt` in two directories, and one rule sending `.txt` files to
the absolute directory `/dst`. -/
def twoDirs : FS :=
  [("/a/x.txt", "A"), ("/b/x.txt", "B")]

/-- The rule `.txt → /dst`. -/
def txtRule : Rule :=
  { ID := "1", Name := "Text", Extensions := [".txt"], Pattern := "", TargetDir := "/dst" }

/-- Case tables that leave every rune outside ASCII as it is. The examples run with
them: their file names are ASCII, for which `unicode.ToLower` consults no table. -/
def noCaseTables : Char → Char :=
  fun r => r

/-- The run of `OrganizeFiles` over `/a` and `/b` on `twoDirs` with the rule
`.txt → /dst` and the policy `overwrite`. -/
def overwriteRun : App FS × Nat :=
  OrganizeFiles (mapEnv noCaseTables) ⟨twoDirs, []⟩ ["/a", "/b"] ⟨[txtRule]⟩ "overwrite"
    (fun _ => 5) "12:00:00" 5

/-- The paths that hold a file. -/
def livePaths (fs : FS) : Finset String :=
  (fs.map Prod.fst).toFinset

/-- A text file in `/a` and a file of the same name already in `/dst`. -/
def conflictDir : FS :=
  [("/a/x.txt", "A"), ("/dst/x.txt", "old")]

section FreeMoves
variable {σ : Type}

/-- The move that the loop body makes for the file `fileName` of `p` replaces
nothing: the file is passed over, or the path it is moved to is free at that moment
(`os.Stat` fails on it), or is the path of the file itself. -/
def moveLandsFree (env : Env σ) (sorted : List Rule) (conflictAction : String)
    (clock : Nat → Int) (p fileName : String) (st : RunState σ) : Bool :=
  let destDir :=
    destinationDir sorted p fileName (stringsToLower env.unicodeLower (filepathExt fileName))
  let fs := env.mkdirAll st.fs destDir
  match resolveConflict (env.stat fs (filepathJoin [destDir, fileName])) conflictAction
      (clock st.allOps.length) p destDir fileName with
  | Outcome.skipped => true
  | Outcome.moved op => !env.stat fs op.NewPath || decide (op.NewPath = op.OldPath)

/-- No move of the loop over the entries of `p` replaces a file. -/
def freeMovesDir (env : Env σ) (sorted : List Rule) (conflictAction : String)
    (clock : Nat → Int) (p : String) : List (String × Bool) → RunState σ → Bool
  | [], _ => true
  | f :: files, st =>
    if f.2 = true then freeMovesDir env sorted conflictAction clock p files st
    else
      moveLandsFree env sorted conflictAction clock p f.1 st
        && freeMovesDir env sorted conflictAction clock p files
          (organizeFile env sorted conflictAction clock p f.1 st)

/-- No move of the loop over the target paths replaces a file. -/
def freeMovesPaths (env : Env σ) (sorted : List Rule) (conflictAction : String)
    (clock : Nat → Int) : List String → RunState σ → Bool
  | [], _ => true
  | p :: paths, st =>
    freeMovesDir env sorted conflictAction clock p (env.readDir st.fs p) st
      && freeMovesPaths env sorted conflictAction clock paths
        (organizeDir env sorted conflictAction clock p (env.readDir st.fs p) st)

/-- No move of the run of `OrganizeFiles` lands on an occupied path: every file that
the run moves goes to a path that is free when it is moved, or stays at its own
path. -/
def freeMoves (env : Env σ) (app : App σ) (targetPaths : List String) (schema : Schema)
    (conflictAction : String) (clock : Nat → Int) : Bool :=
  freeMovesPaths env (sortedRules schema) conflictAction clock targetPaths
    { fs := app.fs, allOps := [] }

end FreeMoves

/-- Invariant of the buffer of `filepath.Clean` on a rooted path: it starts with the
root slash, which `..` does not remove. -/
def CleanInv (rooted : Bool) (out : List Char) (dotdot : Nat) : Prop :=
  rooted = true → out.head? = some '/' ∧ 1 ≤ dotdot

/-- A path element that `filepath.Clean` copies: not empty, without `/`, neither `.`
nor `..`. -/
def RealElem (x : List Char) : Prop :=
  x ≠ [] ∧ '/' ∉ x ∧ x ≠ ['.'] ∧ x ≠ ['.', '.']

/-- The rules that `LoadSchema` returns when there is no schema file. -/
def defaultRules : List Rule :=
  [ { ID := "1", Name := "Images", Extensions := [".jpg", ".png", ".webp"], Pattern := "",
      TargetDir := "Pictures" },
    { ID := "2", Name := "Docs", Extensions := [".pdf", ".docx", ".txt"], Pattern := "",
      TargetDir := "Documents" } ]

/-- A state whose history has two transactions of the ID `10:00:01` around one of the
ID `10:00:00`, which moved `/a/f` to `/b/f`. -/
def threeTransactions : App FS :=
  { fs := [("/b/f", "c")],
    history := [⟨"10:00:01", 3, []⟩, ⟨"10:00:00", 2, [⟨"f", "/a/f", "/b/f"⟩]⟩,
      ⟨"10:00:01", 1, []⟩] }

/-! # Theorems -/

/-! ## Specificity score -/

theorem utf8Encode_ascii (c : Char) (h : c.toNat < 128) : utf8Encode c = [c.toNat] := by
  simp [utf8Encode, h]

theorem utf8Encode_not_ascii (c : Char) (b : Nat) (hb : b < 128) (hc : c.toNat ≠ b) :
    ∀ x ∈ utf8Encode c, x ≠ b := by
  intro x hx
  unfold utf8Encode at hx
  simp only at hx
  split at hx
  · simp at hx; omega
  · split at hx
    · simp at hx; omega
    · split at hx
      · simp at hx; omega
      · simp at hx; omega

theorem char_toNat_ne {c d : Char} (h : c ≠ d) : c.toNat ≠ d.toNat := by
  intro e
  apply h
  apply Char.ext
  apply UInt32.ext
  exact e

theorem replaceLoop_single (x : Nat) (s : Bytes) :
    replaceLoop [x] [] s 0 = s.filter (fun b => decide (b ≠ x)) := by
  induction s with
  | nil => simp [replaceLoop]
  | cons c s ih =>
    by_cases h : c = x
    · subst h
      simp [replaceLoop, startsWith, ih]
    · have hp : startsWith (c :: s) [c] = true := by cases s <;> simp [startsWith]
      have hn : startsWith (c :: s) [x] = false := by cases s <;> simp [startsWith, h]
      simp [replaceLoop, hn, ih, h]

theorem goBytes_filter_ascii (d : Char) (hd : d.toNat < 128) (l : List Char) :
    (l.flatMap utf8Encode).filter (fun b => decide (b ≠ d.toNat)) =
      (l.filter (fun c => decide (c ≠ d))).flatMap utf8Encode := by
  induction l with
  | nil => simp
  | cons c l ih =>
    simp only [List.flatMap_cons, List.filter_append, ih]
    by_cases h : c = d
    · subst h
      simp [utf8Encode_ascii c hd]
    · have hk : (utf8Encode c).filter (fun b => decide (b ≠ d.toNat)) = utf8Encode c := by
        rw [List.filter_eq_self]
        intro x hx
        simpa using utf8Encode_not_ascii c d.toNat hd (char_toNat_ne h) x hx
      rw [hk]
      simp [h]

theorem cleanPattern_bytes (pattern : String) :
    stringsReplaceAll (stringsReplaceAll (goBytes pattern) (goBytes "*") (goBytes ""))
      (goBytes "?") (goBytes "") = goBytes (cleanedPattern pattern) := by
  have e1 : goBytes "*" = [('*' : Char).toNat] := by decide
  have e2 : goBytes "?" = [('?' : Char).toNat] := by decide
  have e3 : goBytes "" = [] := by decide
  rw [e1, e2, e3]
  have s1 : ∀ s x, stringsReplaceAll s [x] [] = s.filter (fun b => decide (b ≠ x)) := by
    intro s x
    simp [stringsReplaceAll, replaceLoop_single]
  rw [s1, s1]
  unfold goBytes cleanedPattern
  rw [goBytes_filter_ascii '*' (by decide), goBytes_filter_ascii '?' (by decide)]
  simp only [List.filter_filter]
  congr 1
  apply List.filter_congr
  intro c _
  by_cases h1 : c = '*' <;> by_cases h2 : c = '?' <;> simp [h1, h2]

theorem getSpecificityScore_unfold (r : Rule) :
    getSpecificityScore r =
      (if r.Pattern ≠ "" then 1000 + goLen (cleanedPattern r.Pattern) else 0) +
      (if r.Extensions ≠ [] then 100 else 0) := by
  unfold getSpecificityScore
  simp only [cleanPattern_bytes, goLen]
  have hl : (r.Extensions.length > 0) ↔ r.Extensions ≠ [] := by
    cases r.Extensions <;> simp
  by_cases hp : r.Pattern = "" <;> by_cases he : r.Extensions = [] <;> simp [hp, he]

/-- C8: the specificity score of a rule is `1000 + len(pattern without '*' and '?')`
when the pattern is non-empty (else 0), plus 100 when the extension list is non-empty
(else 0); it is 0 exactly for a rule with neither, at least 1000 for every rule with a
pattern, and exactly 100 for every rule with extensions and no pattern. -/
theorem getSpecificityScore_spec (r : Rule) :
    getSpecificityScore r =
        (if r.Pattern ≠ "" then 1000 + goLen (cleanedPattern r.Pattern) else 0) +
        (if r.Extensions ≠ [] then 100 else 0)
      ∧ (getSpecificityScore r = 0 ↔ r.Pattern = "" ∧ r.Extensions = [])
      ∧ (r.Pattern ≠ "" → 1000 ≤ getSpecificityScore r)
      ∧ (r.Pattern = "" → r.Extensions ≠ [] → getSpecificityScore r = 100) := by
  refine ⟨getSpecificityScore_unfold r, ?_, ?_, ?_⟩
  · rw [getSpecificityScore_unfold]
    by_cases hp : r.Pattern = "" <;> by_cases he : r.Extensions = [] <;> simp [hp, he]
  · intro hp
    rw [getSpecificityScore_unfold]
    simp [hp]
    omega
  · intro hp he
    rw [getSpecificityScore_unfold]
    simp [hp, he]

/-- C8, at a concrete rule: pattern `"a*b?"` with two extensions scores
`1000 + 2 + 100`. -/
theorem getSpecificityScore_spec_witness :
    getSpecificityScore ⟨"7", "w", [".x", ".y"], "a*b?", "T"⟩ = 1102
      ∧ 1000 ≤ getSpecificityScore ⟨"7", "w", [".x", ".y"], "a*b?", "T"⟩ :=
  ⟨by decide, (getSpecificityScore_spec ⟨"7", "w", [".x", ".y"], "a*b?", "T"⟩).2.2.1 (by decide)⟩

/-! ## Rule scan -/

theorem matchLoop_bad (fuel : Nat) (pattern name : Bytes) :
    (matchLoop fuel pattern name).2 = true → (matchLoop fuel pattern name).1 = false := by
  induction fuel generalizing pattern name with
  | zero => intro _; rfl
  | succ n ih =>
    unfold matchLoop
    simp only
    split
    · simp
    · split
      · simp
      · split
        · exact ih _ _
        · split
          · simp
          · split
            · exact ih _ _
            · simp
            · simp

theorem filepathMatch_bad (pattern name : String) :
    (filepathMatch pattern name).2 = true → (filepathMatch pattern name).1 = false :=
  matchLoop_bad _ _ _

/-- The loop of `contains` decides membership in the slice. -/
theorem contains_iff (s : List String) (e : String) : contains s e = true ↔ e ∈ s := by
  induction s with
  | nil => simp [contains]
  | cons a s ih =>
    unfold contains
    by_cases h : a = e
    · simp [h]
    · rw [if_neg h, ih]
      have h2 : e ≠ a := fun x => h x.symm
      simp [h2]

theorem scanRules_cons (fileName ext : String) (r : Rule) (rest : List Rule) :
    scanRules fileName ext (r :: rest) "" =
      if ruleClaims fileName ext r = true then r.TargetDir
      else scanRules fileName ext rest "" := by
  unfold ruleClaims
  rw [scanRules]
  have hc : (contains r.Extensions ext = true) = (ext ∈ r.Extensions) :=
    propext (contains_iff r.Extensions ext)
  by_cases h1 : r.Pattern ≠ "" ∧ (filepathMatch r.Pattern fileName).1 = true
  · have : (decide (r.Pattern ≠ "") && (filepathMatch r.Pattern fileName).1) = true := by
      simp [h1.1, h1.2]
    simp [h1, this]
  · have : (decide (r.Pattern ≠ "") && (filepathMatch r.Pattern fileName).1) = false := by
      by_cases hp : r.Pattern = ""
      · simp [hp]
      · have : (filepathMatch r.Pattern fileName).1 = false := by
          cases hm : (filepathMatch r.Pattern fileName).1
          · rfl
          · exact absurd ⟨hp, hm⟩ h1
        simp [this]
    rw [if_neg h1]
    simp only [this, Bool.false_or, true_and, hc, decide_eq_true_eq]

theorem scanRules_find (fileName ext : String) (rules : List Rule) :
    scanRules fileName ext rules "" =
      match rules.find? (ruleClaims fileName ext) with
      | some r => r.TargetDir
      | none => "" := by
  induction rules with
  | nil => rfl
  | cons r rest ih =>
    rw [scanRules_cons, List.find?_cons]
    cases h : ruleClaims fileName ext r
    · simpa using ih
    · simp

/-- C10: the rule scan of `OrganizeFiles` selects the `TargetDir` of the first rule,
in the order scanned, whose non-empty pattern glob-matches the file name or whose
extension set has the extension as a member, and leaves `destDir` empty when no rule
passes either test. A rule that has the extension in its set claims the file before
any later rule is looked at, whatever its pattern does: a pattern that does not match
and a malformed pattern, which never matches, leave the extension test of the same
rule in force. -/
theorem scanRules_first_claim (fileName ext : String) (rules : List Rule) :
    (scanRules fileName ext rules "" =
      match rules.find? (fun r => decide
          ((r.Pattern ≠ "" ∧ (filepathMatch r.Pattern fileName).1 = true)
            ∨ ext ∈ r.Extensions)) with
      | some r => r.TargetDir
      | none => "")
    ∧ ((∀ r ∈ rules, ¬ (r.Pattern ≠ "" ∧ (filepathMatch r.Pattern fileName).1 = true)
          ∧ ext ∉ r.Extensions) →
        scanRules fileName ext rules "" = "")
    ∧ (∀ (r : Rule) (rest : List Rule), ext ∈ r.Extensions →
        scanRules fileName ext (r :: rest) "" = r.TargetDir)
    ∧ (∀ r : Rule, (filepathMatch r.Pattern fileName).2 = true →
        (filepathMatch r.Pattern fileName).1 = false) := by
  have hfun : (fun r : Rule => decide
      ((r.Pattern ≠ "" ∧ (filepathMatch r.Pattern fileName).1 = true) ∨ ext ∈ r.Extensions))
      = ruleClaims fileName ext := by
    funext r
    unfold ruleClaims
    by_cases h1 : r.Pattern = "" <;> by_cases h2 : ext ∈ r.Extensions <;>
      cases h3 : (filepathMatch r.Pattern fileName).1 <;> simp [h1, h2, h3]
  refine ⟨?_, ?_, ?_, ?_⟩
  · rw [hfun]
    exact scanRules_find fileName ext rules
  · intro hnone
    rw [scanRules_find]
    have : rules.find? (ruleClaims fileName ext) = none := by
      rw [List.find?_eq_none]
      intro r hr
      obtain ⟨h1, h2⟩ := hnone r hr
      unfold ruleClaims
      by_cases hp : r.Pattern = ""
      · simp [hp, h2]
      · have : (filepathMatch r.Pattern fileName).1 = false := by
          cases hm : (filepathMatch r.Pattern fileName).1
          · rfl
          · exact absurd ⟨hp, hm⟩ h1
        simp [this, h2]
    rw [this]
  · intro r rest hmem
    rw [scanRules_cons]
    simp [ruleClaims, hmem]
  · intro r
    exact filepathMatch_bad r.Pattern fileName

/-- C10, at concrete rules: the pattern `report*` does not match `a.tmp` and the
pattern `[` is malformed; either rule has `.tmp` in its extension set and is scanned
first, so it wins over the later pattern rule that matches. -/
theorem scanRules_first_claim_witness :
    scanRules "a.tmp" ".tmp"
      [⟨"1", "r", [".tmp"], "report*", "Reports"⟩, ⟨"2", "t", [], "*.tmp", "Trash"⟩] ""
      = "Reports"
    ∧ scanRules "a.tmp" ".tmp"
      [⟨"1", "r", [".log", ".tmp"], "[", "Logs"⟩, ⟨"2", "t", [], "*.tmp", "Trash"⟩] ""
      = "Logs"
    ∧ filepathMatch "report*" "a.tmp" = (false, false)
    ∧ filepathMatch "[" "a.tmp" = (false, true) :=
  ⟨(scanRules_first_claim "a.tmp" ".tmp" []).2.2.1 ⟨"1", "r", [".tmp"], "report*", "Reports"⟩
      [⟨"2", "t", [], "*.tmp", "Trash"⟩] (by decide),
    (scanRules_first_claim "a.tmp" ".tmp" []).2.2.1 ⟨"1", "r", [".log", ".tmp"], "[", "Logs"⟩
      [⟨"2", "t", [], "*.tmp", "Trash"⟩] (by decide),
    by decide, by decide⟩

/-- On a string of ASCII characters `strings.ToLower` does not consult the case
tables. -/
theorem stringsToLower_ascii (t1 t2 : Char → Char) (s : String)
    (h : ∀ c ∈ s.data, c.toNat < 128) : stringsToLower t1 s = stringsToLower t2 s := by
  unfold stringsToLower
  congr 1
  apply List.map_congr_left
  intro c hc
  unfold unicodeToLower
  rw [if_pos (h c hc), if_pos (h c hc)]

/-- The extension of `a.tmp` is `.tmp`, which `strings.ToLower` leaves as it is
whatever the case tables are. -/
theorem ext_a_tmp (unicodeLower : Char → Char) :
    stringsToLower unicodeLower (filepathExt "a.tmp") = ".tmp" := by
  rfl

/-- C9 as stated fails: the score of the rule with pattern `*.tmp` is not 1003. -/
theorem scenario_score_not_1003 :
    ¬ (scenarioRules.map getSpecificityScore = [1003, 100]
      ∧ scanRules "a.tmp" (stringsToLower noCaseTables (filepathExt "a.tmp"))
          (sortedRules ⟨scenarioRules⟩) "" = "Trash") := by
  decide

/-- C9, amended: with the rules `[{pattern "*.tmp", targetDir "Trash"},
{extensions [".tmp"], targetDir "Archive"}]` the pattern rule scores 1004
(1000 plus the four bytes of `.tmp`), the extension rule scores 100, and the scan
of the sorted rules selects `Trash` for the file `a.tmp`, in either declaration
order and whatever the case tables of `strings.ToLower` are. -/
theorem scenario_tmp_trash (unicodeLower : Char → Char) :
    scenarioRules.map getSpecificityScore = [1004, 100]
    ∧ scanRules "a.tmp" (stringsToLower unicodeLower (filepathExt "a.tmp"))
        (sortedRules ⟨scenarioRules⟩) "" = "Trash"
    ∧ scanRules "a.tmp" (stringsToLower unicodeLower (filepathExt "a.tmp"))
        (sortedRules ⟨scenarioRules.reverse⟩) "" = "Trash" := by
  rw [ext_a_tmp]
  decide

/-! ## Transaction log -/

theorem SaveTransaction_eq (h : List Transaction) (id : String) (timestamp : Int)
    (ops : List MoveOperation) :
    SaveTransaction h id timestamp ops =
      { ID := id, Timestamp := timestamp, Operations := ops } :: h.take (min h.length 29) := by
  unfold SaveTransaction
  by_cases hl : h.length + 1 > 30
  · have : min h.length 29 = 29 := by omega
    simp [hl, this]
  · have : min h.length 29 = h.length := by omega
    simp [hl, this]

/-- C6: `SaveTransaction(ops)` writes back the new transaction, whose operations are
`ops`, followed by the first `min(len(h), 29)` transactions of the stored history in
their order; the result never has more than 30 entries, and on a history of 30
entries exactly the last (oldest) one is dropped. -/
theorem SaveTransaction_spec (h : List Transaction) (id : String) (timestamp : Int)
    (ops : List MoveOperation) :
    SaveTransaction h id timestamp ops =
        { ID := id, Timestamp := timestamp, Operations := ops } :: h.take (min h.length 29)
      ∧ ((SaveTransaction h id timestamp ops).head?.map (fun tx => tx.Operations)) = some ops
      ∧ (SaveTransaction h id timestamp ops).length ≤ 30
      ∧ (h.length = 30 → SaveTransaction h id timestamp ops =
          { ID := id, Timestamp := timestamp, Operations := ops } :: h.dropLast) := by
  have key := SaveTransaction_eq h id timestamp ops
  refine ⟨key, ?_, ?_, ?_⟩
  · rw [key]; rfl
  · rw [key]
    simp
  · intro h30
    rw [key, List.dropLast_eq_take, h30]
    rfl

/-- C6, on a stored history of 30 transactions `t0 … t29`: the entry `t29` is
evicted. -/
theorem SaveTransaction_spec_witness :
    SaveTransaction ((List.range 30).map (fun i => Transaction.mk "t" (Int.ofNat i) [])) "n" 99
        [⟨"f", "/a/f", "/b/f"⟩]
      = Transaction.mk "n" 99 [⟨"f", "/a/f", "/b/f"⟩] ::
          (List.range 29).map (fun i => Transaction.mk "t" (Int.ofNat i) []) := by
  have h := (SaveTransaction_spec ((List.range 30).map (fun i => Transaction.mk "t" (Int.ofNat i) []))
    "n" 99 [⟨"f", "/a/f", "/b/f"⟩]).2.2.2 (by simp)
  rw [h]
  decide

theorem undoScan_eq {σ : Type} (env : Env σ) (id : String) (fs : σ)
    (before h : List Transaction) :
    undoScan env id fs before h =
      match h.find? (fun tx => decide (tx.ID = id)) with
      | some tx => some (undoOperations env tx.Operations.reverse fs,
          before ++ h.eraseP (fun tx => decide (tx.ID = id)))
      | none => none := by
  induction h generalizing before with
  | nil => rfl
  | cons tx rest ih =>
    unfold undoScan
    by_cases e : tx.ID = id
    · simp [e, List.find?_cons, List.eraseP_cons]
    · rw [if_neg e, ih]
      simp only [List.find?_cons, List.eraseP_cons, e, decide_False]
      cases List.find? (fun tx => decide (tx.ID = id)) rest <;> simp

/-- C4: `UndoByID(id)` returns no error. When a stored transaction has the ID, the
history written back is the stored one without the first (newest) transaction of
that ID, one entry shorter, the others kept in order; when none has it, the history
and the files are left as they were. This holds over every file system. -/
theorem UndoByID_spec {σ : Type} (env : Env σ) (app : App σ) (id : String) :
    (UndoByID env app id).2 = none
      ∧ (UndoByID env app id).1.history = app.history.eraseP (fun tx => decide (tx.ID = id))
      ∧ ((∃ tx ∈ app.history, tx.ID = id) →
          ∃ pre tx post, app.history = pre ++ tx :: post ∧ tx.ID = id
            ∧ (∀ t ∈ pre, t.ID ≠ id)
            ∧ (UndoByID env app id).1.history = pre ++ post
            ∧ (UndoByID env app id).1.history.length = app.history.length - 1)
      ∧ ((∀ tx ∈ app.history, tx.ID ≠ id) → (UndoByID env app id).1 = app) := by
  have hh : (UndoByID env app id).1.history = app.history.eraseP (fun tx => decide (tx.ID = id)) := by
    unfold UndoByID GetHistory
    simp only [undoScan_eq]
    cases hf : List.find? (fun tx => decide (tx.ID = id)) app.history with
    | none =>
      simp only
      rw [List.eraseP_of_forall_not]
      intro a ha
      have := List.find?_eq_none.mp hf a ha
      simpa using this
    | some tx => simp
  refine ⟨?_, hh, ?_, ?_⟩
  · unfold UndoByID
    simp only
    split <;> rfl
  · rintro ⟨tx, hm, he⟩
    obtain ⟨a, l₁, l₂, hn, hp, e1, e2⟩ :=
      @List.exists_of_eraseP _ (fun tx => decide (tx.ID = id)) _ _ hm (by simpa using he)
    refine ⟨l₁, a, l₂, e1, by simpa using hp, ?_, ?_, ?_⟩
    · intro t ht
      simpa using hn t ht
    · rw [hh, e2]
    · rw [hh, e2, e1]
      simp
  · intro hn
    unfold UndoByID GetHistory
    simp only [undoScan_eq]
    have hf : List.find? (fun tx => decide (tx.ID = id)) app.history = none := by
      rw [List.find?_eq_none]
      intro a ha
      simpa using hn a ha
    rw [hf]

/-- C4, on a history with two transactions of one ID around a transaction of another:
undoing the middle one leaves the other two in order, and an ID that no transaction
has leaves the state as it is. -/
theorem UndoByID_spec_witness :
    (∃ pre tx post, threeTransactions.history = pre ++ tx :: post ∧ tx.ID = "10:00:00"
        ∧ (∀ t ∈ pre, t.ID ≠ "10:00:00")
        ∧ (UndoByID (mapEnv noCaseTables) threeTransactions "10:00:00").1.history = pre ++ post
        ∧ (UndoByID (mapEnv noCaseTables) threeTransactions "10:00:00").1.history.length
            = threeTransactions.history.length - 1)
    ∧ (UndoByID (mapEnv noCaseTables) threeTransactions "09:00:00").1 = threeTransactions :=
  ⟨(UndoByID_spec (mapEnv noCaseTables) threeTransactions "10:00:00").2.2.1
      ⟨⟨"10:00:00", 2, [⟨"f", "/a/f", "/b/f"⟩]⟩, by decide, rfl⟩,
    (UndoByID_spec (mapEnv noCaseTables) threeTransactions "09:00:00").2.2.2 (by decide)⟩

/-! ## `sort.Slice`: insertion sort -/

section InsertionSort
variable {α : Type}

theorem swapAt_cons_succ (x : α) (d : List α) (i j : Nat) :
    swapAt (x :: d) (i + 1) (j + 1) = x :: swapAt d i j := by
  unfold swapAt
  simp only [List.getElem?_cons_succ]
  cases d[i]? <;> cases d[j]? <;> simp

theorem lessAt_cons_succ (less : α → α → Bool) (x : α) (d : List α) (i j : Nat) :
    lessAt less (x :: d) (i + 1) (j + 1) = lessAt less d i j := by
  unfold lessAt
  simp only [List.getElem?_cons_succ]

theorem swapAt_append_left (L d : List α) (i j : Nat) :
    swapAt (L ++ d) (L.length + i) (L.length + j) = L ++ swapAt d i j := by
  induction L with
  | nil => simp
  | cons x L ih =>
    have e1 : (x :: L).length + i = (L.length + i) + 1 := by simp; omega
    have e2 : (x :: L).length + j = (L.length + j) + 1 := by simp; omega
    rw [e1, e2, List.cons_append, swapAt_cons_succ, ih, List.cons_append]

theorem lessAt_append_left (less : α → α → Bool) (L d : List α) (i j : Nat) :
    lessAt less (L ++ d) (L.length + i) (L.length + j) = lessAt less d i j := by
  induction L with
  | nil => simp
  | cons x L ih =>
    have e1 : (x :: L).length + i = (L.length + i) + 1 := by simp; omega
    have e2 : (x :: L).length + j = (L.length + j) + 1 := by simp; omega
    rw [e1, e2, List.cons_append, lessAt_cons_succ, ih]

theorem swapAt_adjacent (A B : List α) (x y : α) :
    swapAt (A ++ y :: x :: B) (A.length + 1) A.length = A ++ x :: y :: B := by
  have h := swapAt_append_left A (y :: x :: B) 1 0
  simp only [Nat.add_zero] at h
  rw [h]
  simp [swapAt]

theorem lessAt_adjacent (less : α → α → Bool) (A B : List α) (x y : α) :
    lessAt less (A ++ y :: x :: B) (A.length + 1) A.length = less x y := by
  have h := lessAt_append_left less A (y :: x :: B) 1 0
  simp only [Nat.add_zero] at h
  rw [h]
  simp [lessAt]

theorem insertLoop_closed (less : α → α → Bool) (L : List α) (x : α) :
    ∀ (rp post : List α),
      insertLoop less L.length (L.length + rp.length) (L ++ rp.reverse ++ x :: post) =
        L ++ (insertRev less x rp).reverse ++ post := by
  intro rp
  induction rp with
  | nil =>
    intro post
    simp only [List.length_nil, Nat.add_zero, List.reverse_nil, List.append_nil, insertRev,
      List.reverse_cons, List.nil_append, List.append_assoc, List.singleton_append]
    cases hL : L.length with
    | zero => rfl
    | succ n => simp [insertLoop]
  | cons y rp ih =>
    intro post
    have hj : L.length + (y :: rp).length = (L.length + rp.length) + 1 := by simp; omega
    have hd : L ++ (y :: rp).reverse ++ x :: post = (L ++ rp.reverse) ++ y :: x :: post := by simp
    have hlen : (L ++ rp.reverse).length = L.length + rp.length := by simp
    rw [hj, hd, insertLoop]
    have hl := lessAt_adjacent less (L ++ rp.reverse) post x y
    have hs := swapAt_adjacent (L ++ rp.reverse) post x y
    rw [hlen] at hl hs
    rw [hl, hs]
    by_cases hxy : less x y = true
    · have ha : L.length < L.length + rp.length + 1 := by omega
      rw [if_pos ⟨ha, hxy⟩, ih (y :: post)]
      simp [insertRev, hxy]
    · rw [if_neg (fun h => hxy h.2)]
      simp [insertRev, hxy]

theorem insertRev_length (less : α → α → Bool) (x : α) (rp : List α) :
    (insertRev less x rp).length = rp.length + 1 := by
  induction rp with
  | nil => rfl
  | cons y rp ih => unfold insertRev; split <;> simp [ih]

theorem insertInto_length (less : α → α → Bool) (x : α) (pre : List α) :
    (insertInto less x pre).length = pre.length + 1 := by
  simp [insertInto, insertRev_length]

theorem insertionSortLoop_closed (less : α → α → Bool) (L R : List α) :
    ∀ (rest pre : List α),
      insertionSortLoop less L.length rest.length (L.length + pre.length)
          (L ++ pre ++ rest ++ R) = L ++ isortFold less pre rest ++ R := by
  intro rest
  induction rest with
  | nil => intro pre; simp [insertionSortLoop, isortFold]
  | cons x rest ih =>
    intro pre
    simp only [List.length_cons, insertionSortLoop, isortFold]
    have h1 := insertLoop_closed less L x pre.reverse (rest ++ R)
    simp only [List.length_reverse, List.reverse_reverse] at h1
    have hd : L ++ pre ++ x :: rest ++ R = L ++ pre ++ x :: (rest ++ R) := by simp
    rw [hd, h1]
    have h2 := ih (insertInto less x pre)
    rw [insertInto_length] at h2
    rw [← h2]
    simp [insertInto, Nat.add_assoc]

/-- Insertion sort of a list: what `insertionSort_func` computes on a range. -/
theorem insertionSortFunc_closed (less : α → α → Bool) (L M R : List α) :
    insertionSortFunc less (L ++ M ++ R) L.length (L.length + M.length) =
      L ++ isortFold less [] M ++ R := by
  unfold insertionSortFunc
  cases M with
  | nil => simp [insertionSortLoop, isortFold]
  | cons x M =>
    have h := insertionSortLoop_closed less L R M [x]
    have e : L.length + (x :: M).length - (L.length + 1) = M.length := by simp; omega
    rw [e]
    simp only [List.length_singleton] at h
    have hd : L ++ x :: M ++ R = L ++ [x] ++ M ++ R := by simp
    rw [hd, h]
    simp [isortFold, insertInto, insertRev]

end InsertionSort

section InsertionSortProps
variable {α : Type}

theorem insertRev_perm (less : α → α → Bool) (x : α) (rp : List α) :
    (insertRev less x rp).Perm (x :: rp) := by
  induction rp with
  | nil => exact List.Perm.refl _
  | cons y rp ih =>
    unfold insertRev
    split
    · exact ((List.Perm.cons y ih).trans (List.Perm.swap x y rp))
    · exact List.Perm.refl _

theorem insertInto_perm (less : α → α → Bool) (x : α) (pre : List α) :
    (insertInto less x pre).Perm (pre ++ [x]) := by
  unfold insertInto
  refine (List.reverse_perm _).trans ((insertRev_perm less x _).trans ?_)
  refine (List.Perm.cons x (List.reverse_perm pre)).trans ?_
  exact (List.perm_append_singleton x pre).symm

theorem isortFold_perm (less : α → α → Bool) (rest pre : List α) :
    (isortFold less pre rest).Perm (pre ++ rest) := by
  induction rest generalizing pre with
  | nil => simp [isortFold]
  | cons x rest ih =>
    unfold isortFold
    refine (ih _).trans ?_
    have := (insertInto_perm less x pre).append_right rest
    simpa using this

theorem insertRev_asc (key : α → Nat) (x : α) (rp : List α)
    (h : rp.Pairwise (fun u v => key u ≤ key v)) :
    (insertRev (keyLess key) x rp).Pairwise (fun u v => key u ≤ key v) := by
  induction rp with
  | nil => simp [insertRev]
  | cons y rp ih =>
    rw [List.pairwise_cons] at h
    unfold insertRev
    by_cases hxy : keyLess key x y = true
    · rw [if_pos hxy, List.pairwise_cons]
      refine ⟨?_, ih h.2⟩
      intro z hz
      rcases List.mem_cons.mp ((insertRev_perm (keyLess key) x rp).mem_iff.mp hz) with e | e
      · subst e
        have : key y < key z := by simpa [keyLess] using hxy
        omega
      · exact h.1 z e
    · rw [if_neg hxy]
      have hk : key x ≤ key y := by
        have : ¬ key y < key x := by simpa [keyLess] using hxy
        omega
      rw [List.pairwise_cons, List.pairwise_cons]
      refine ⟨?_, h.1, h.2⟩
      intro z hz
      rcases List.mem_cons.mp hz with e | e
      · subst e; exact hk
      · exact Nat.le_trans hk (h.1 z e)

theorem insertInto_desc (key : α → Nat) (x : α) (pre : List α)
    (h : pre.Pairwise (fun u v => key v ≤ key u)) :
    (insertInto (keyLess key) x pre).Pairwise (fun u v => key v ≤ key u) := by
  unfold insertInto
  rw [List.pairwise_reverse]
  apply insertRev_asc
  rw [List.pairwise_reverse]
  exact h

theorem isortFold_desc (key : α → Nat) (rest pre : List α)
    (h : pre.Pairwise (fun u v => key v ≤ key u)) :
    (isortFold (keyLess key) pre rest).Pairwise (fun u v => key v ≤ key u) := by
  induction rest generalizing pre with
  | nil => simpa [isortFold] using h
  | cons x rest ih =>
    unfold isortFold
    exact ih _ (insertInto_desc key x pre h)

theorem insertRev_filter (key : α → Nat) (s : Nat) (x : α) (rp : List α) :
    (insertRev (keyLess key) x rp).filter (fun r => decide (key r = s)) =
      (if key x = s then [x] else []) ++ rp.filter (fun r => decide (key r = s)) := by
  induction rp with
  | nil => unfold insertRev; by_cases hx : key x = s <;> simp [hx]
  | cons y rp ih =>
    unfold insertRev
    by_cases hxy : keyLess key x y = true
    · rw [if_pos hxy, List.filter_cons, ih]
      have hlt : key y < key x := by simpa [keyLess] using hxy
      by_cases hx : key x = s
      · have hy : ¬ key y = s := by omega
        simp [hx, hy]
      · simp [hx, List.filter_cons]
    · rw [if_neg hxy]
      by_cases hx : key x = s <;> simp [hx]

theorem insertInto_filter (key : α → Nat) (s : Nat) (x : α) (pre : List α) :
    (insertInto (keyLess key) x pre).filter (fun r => decide (key r = s)) =
      pre.filter (fun r => decide (key r = s)) ++ (if key x = s then [x] else []) := by
  unfold insertInto
  rw [List.filter_reverse, insertRev_filter, List.reverse_append, List.filter_reverse,
    List.reverse_reverse]
  by_cases hx : key x = s <;> simp [hx]

theorem isortFold_filter (key : α → Nat) (s : Nat) (rest pre : List α) :
    (isortFold (keyLess key) pre rest).filter (fun r => decide (key r = s)) =
      pre.filter (fun r => decide (key r = s)) ++ rest.filter (fun r => decide (key r = s)) := by
  induction rest generalizing pre with
  | nil => simp [isortFold]
  | cons x rest ih =>
    unfold isortFold
    rw [ih, insertInto_filter, List.filter_cons]
    by_cases hx : key x = s <;> simp [hx]

end InsertionSortProps

/-! ## `sort.Slice`: slices, swaps and ranges -/

section Ranges
variable {α : Type}

theorem swapAt_length (d : List α) (i j : Nat) : (swapAt d i j).length = d.length := by
  unfold swapAt
  split <;> simp

theorem getElem?_swapAt (d : List α) (i j k : Nat) (hi : i < d.length) (hj : j < d.length) :
    (swapAt d i j)[k]? = if k = j then d[i]? else if k = i then d[j]? else d[k]? := by
  unfold swapAt
  rw [List.getElem?_eq_getElem hi, List.getElem?_eq_getElem hj]
  simp only [List.getElem?_set, List.length_set]
  by_cases h1 : k = j
  · subst h1; simp [hj]
  · by_cases h2 : k = i
    · subst h2
      simp [h1, hi, Ne.symm h1]
    · simp [h1, h2, Ne.symm h1, Ne.symm h2]

theorem keyAt_swapAt (key : α → Nat) (d : List α) (i j k : Nat) (hi : i < d.length)
    (hj : j < d.length) :
    keyAt key (swapAt d i j) k =
      if k = j then keyAt key d i else if k = i then keyAt key d j else keyAt key d k := by
  unfold keyAt
  rw [getElem?_swapAt d i j k hi hj]
  split_ifs <;> rfl

theorem lessAt_keyLess (key : α → Nat) (d : List α) (i j : Nat) (hi : i < d.length)
    (hj : j < d.length) :
    lessAt (keyLess key) d i j = decide (keyAt key d j < keyAt key d i) := by
  unfold lessAt keyAt keyLess
  rw [List.getElem?_eq_getElem hi, List.getElem?_eq_getElem hj]

theorem set_perm_cons (x y : α) (d : List α) (j : Nat) (h : d[j]? = some y) :
    (y :: d.set j x).Perm (x :: d) := by
  induction d generalizing j with
  | nil => simp at h
  | cons z t ih =>
    cases j with
    | zero =>
      simp at h
      subst h
      simpa using List.Perm.swap x z t
    | succ j =>
      simp at h
      rw [List.set_cons_succ]
      exact ((List.Perm.swap z y _).trans ((ih j h).cons z)).trans (List.Perm.swap x z t)

theorem swapAt_perm (d : List α) (i j : Nat) : (swapAt d i j).Perm d := by
  induction d generalizing i j with
  | nil => simp [swapAt]
  | cons x d ih =>
    cases i with
    | zero =>
      cases j with
      | zero => simp [swapAt]
      | succ j =>
        unfold swapAt
        simp only [List.getElem?_cons_zero, List.getElem?_cons_succ]
        cases h : d[j]? with
        | none => simp
        | some y =>
          simp only [List.set_cons_zero, List.set_cons_succ]
          exact set_perm_cons x y d j h
    | succ i =>
      cases j with
      | zero =>
        unfold swapAt
        simp only [List.getElem?_cons_zero, List.getElem?_cons_succ]
        cases h : d[i]? with
        | none => simp
        | some y =>
          simp only [List.set_cons_zero, List.set_cons_succ]
          exact set_perm_cons x y d i h
      | succ j =>
        rw [swapAt_cons_succ]
        exact (ih i j).cons x

theorem sliceOf_decomp (d : List α) (a b : Nat) (hab : a ≤ b) :
    d = d.take a ++ sliceOf d a b ++ d.drop b := by
  unfold sliceOf
  have h1 : d.take a = (d.take b).take a := by
    rw [List.take_take, Nat.min_eq_left hab]
  rw [h1, List.take_append_drop, List.take_append_drop]

theorem RangePerm.refl (a b : Nat) (d : List α) : RangePerm a b d d :=
  ⟨rfl, rfl, rfl, List.Perm.refl _⟩

theorem RangePerm.trans {a b : Nat} {d d' d'' : List α} (h1 : RangePerm a b d d')
    (h2 : RangePerm a b d' d'') : RangePerm a b d d'' :=
  ⟨h2.len.trans h1.len, h2.left.trans h1.left, h2.right.trans h1.right, h2.mid.trans h1.mid⟩

theorem RangePerm.perm {a b : Nat} {d d' : List α} (hab : a ≤ b) (h : RangePerm a b d d') :
    d'.Perm d := by
  rw [sliceOf_decomp d a b hab, sliceOf_decomp d' a b hab, h.left, h.right]
  exact (h.mid.append_left _).append_right _

theorem RangePerm.of_perm {a b : Nat} {d d' : List α} (hab : a ≤ b)
    (hl : d'.take a = d.take a) (hr : d'.drop b = d.drop b) (hp : d'.Perm d) :
    RangePerm a b d d' := by
  refine ⟨hp.length_eq, hl, hr, ?_⟩
  have e1 := sliceOf_decomp d a b hab
  have e2 := sliceOf_decomp d' a b hab
  rw [e1, e2, hl, hr] at hp
  exact (List.perm_append_left_iff _).mp ((List.perm_append_right_iff _).mp hp)

theorem take_eq_of_getElem? (d d' : List α) (a : Nat)
    (h : ∀ k, k < a → d'[k]? = d[k]?) : d'.take a = d.take a := by
  apply List.ext_getElem?
  intro k
  simp only [List.getElem?_take]
  by_cases hk : k < a
  · simp [hk, h k hk]
  · simp [hk]

theorem drop_eq_of_getElem? (d d' : List α) (b : Nat)
    (h : ∀ k, b ≤ k → d'[k]? = d[k]?) : d'.drop b = d.drop b := by
  apply List.ext_getElem?
  intro k
  simp only [List.getElem?_drop]
  exact h _ (by omega)

theorem RangePerm.swap (a b : Nat) (d : List α) (i j : Nat) (hai : a ≤ i) (hib : i < b)
    (haj : a ≤ j) (hjb : j < b) (hb : b ≤ d.length) : RangePerm a b d (swapAt d i j) := by
  apply RangePerm.of_perm (by omega)
  · apply take_eq_of_getElem?
    intro k hk
    rw [getElem?_swapAt d i j k (by omega) (by omega)]
    simp [show k ≠ j by omega, show k ≠ i by omega]
  · apply drop_eq_of_getElem?
    intro k hk
    rw [getElem?_swapAt d i j k (by omega) (by omega)]
    simp [show k ≠ j by omega, show k ≠ i by omega]
  · exact swapAt_perm d i j

theorem RangePerm.widen {a b a' b' : Nat} {d d' : List α} (h : RangePerm a b d d')
    (hab : a ≤ b) (ha : a' ≤ a) (hb : b ≤ b') : RangePerm a' b' d d' := by
  apply RangePerm.of_perm (by omega)
  · have := congrArg (List.take a') h.left
    simpa [List.take_take, Nat.min_eq_left ha] using this
  · have := congrArg (List.drop (b' - b)) h.right
    simpa [List.drop_drop, Nat.sub_add_cancel hb, Nat.add_sub_cancel' hb] using this
  · exact h.perm hab

theorem getElem?_outside {a b : Nat} {d d' : List α} (h : RangePerm a b d d') (k : Nat)
    (hk : k < a ∨ b ≤ k) : d'[k]? = d[k]? := by
  rcases hk with hk | hk
  · have := congrArg (fun l => l[k]?) h.left
    simpa [List.getElem?_take, hk] using this
  · have := congrArg (fun l => l[k - b]?) h.right
    simpa [List.getElem?_drop, Nat.add_sub_cancel' hk] using this

theorem keyAt_outside (key : α → Nat) {a b : Nat} {d d' : List α} (h : RangePerm a b d d')
    (k : Nat) (hk : k < a ∨ b ≤ k) : keyAt key d' k = keyAt key d k := by
  unfold keyAt
  rw [getElem?_outside h k hk]

theorem mem_sliceOf (d : List α) (a b : Nat) (x : α) :
    x ∈ sliceOf d a b ↔ ∃ j, a ≤ j ∧ j < b ∧ d[j]? = some x := by
  unfold sliceOf
  rw [List.mem_iff_getElem?]
  constructor
  · rintro ⟨k, hk⟩
    rw [List.getElem?_drop, List.getElem?_take] at hk
    by_cases hlt : a + k < b
    · exact ⟨a + k, by omega, hlt, by simpa [hlt] using hk⟩
    · simp [hlt] at hk
  · rintro ⟨j, h1, h2, h3⟩
    refine ⟨j - a, ?_⟩
    rw [List.getElem?_drop, List.getElem?_take]
    have : a + (j - a) = j := by omega
    simp [this, h2, h3]

/-- What holds for every key of the range before a permutation of the range holds for
every key of the range after it. -/
theorem RangePerm.forall_key (key : α → Nat) {a b : Nat} {d d' : List α}
    (h : RangePerm a b d d') (hb : b ≤ d.length) (P : Nat → Prop)
    (hP : ∀ j, a ≤ j → j < b → P (keyAt key d j)) :
    ∀ i, a ≤ i → i < b → P (keyAt key d' i) := by
  intro i hai hib
  have hi : i < d'.length := by rw [h.len]; omega
  have hm : d'[i] ∈ sliceOf d' a b :=
    (mem_sliceOf d' a b _).mpr ⟨i, hai, hib, List.getElem?_eq_getElem hi⟩
  obtain ⟨j, h1, h2, h3⟩ := (mem_sliceOf d a b _).mp (h.mid.mem_iff.mp hm)
  have := hP j h1 h2
  unfold keyAt at this ⊢
  rw [h3] at this
  rw [List.getElem?_eq_getElem hi]
  exact this

end Ranges

/-! ## `sort.Slice`: partitioning -/

section Partition
variable {α : Type}

theorem advanceWhile_spec (p : Nat → Bool) (j : Nat) :
    ∀ (n i : Nat), j + 1 - i ≤ n →
      i ≤ advanceWhile p j n i
      ∧ (advanceWhile p j n i ≤ j + 1 ∨ advanceWhile p j n i = i)
      ∧ (∀ k, i ≤ k → k < advanceWhile p j n i → p k = true)
      ∧ (advanceWhile p j n i ≤ j → p (advanceWhile p j n i) = false) := by
  intro n
  induction n with
  | zero =>
    intro i hn
    unfold advanceWhile
    refine ⟨Nat.le_refl _, Or.inr rfl, ?_, ?_⟩
    · intro k h1 h2; omega
    · intro h; omega
  | succ n ih =>
    intro i hn
    unfold advanceWhile
    by_cases hc : i ≤ j ∧ p i = true
    · rw [if_pos hc]
      obtain ⟨h1, h2, h3, h4⟩ := ih (i + 1) (by omega)
      refine ⟨by omega, ?_, ?_, h4⟩
      · rcases h2 with h2 | h2
        · exact Or.inl h2
        · left; omega
      · intro k hk1 hk2
        by_cases hki : k = i
        · subst hki; exact hc.2
        · exact h3 k (by omega) hk2
    · rw [if_neg hc]
      refine ⟨Nat.le_refl _, Or.inr rfl, ?_, ?_⟩
      · intro k h1 h2; omega
      · intro h
        cases hp : p i
        · rfl
        · exact absurd ⟨h, hp⟩ hc

theorem retreatWhile_spec (p : Nat → Bool) (i : Nat) (hi : 1 ≤ i) :
    ∀ (n j : Nat), j + 1 - i ≤ n →
      retreatWhile p i n j ≤ j
      ∧ (i ≤ retreatWhile p i n j + 1 ∨ retreatWhile p i n j = j)
      ∧ (∀ k, retreatWhile p i n j < k → k ≤ j → p k = true)
      ∧ (i ≤ retreatWhile p i n j → p (retreatWhile p i n j) = false) := by
  intro n
  induction n with
  | zero =>
    intro j hn
    unfold retreatWhile
    refine ⟨Nat.le_refl _, Or.inr rfl, ?_, ?_⟩
    · intro k h1 h2; omega
    · intro h; omega
  | succ n ih =>
    intro j hn
    unfold retreatWhile
    by_cases hc : i ≤ j ∧ p j = true
    · rw [if_pos hc]
      obtain ⟨h1, h2, h3, h4⟩ := ih (j - 1) (by omega)
      refine ⟨by omega, ?_, ?_, h4⟩
      · rcases h2 with h2 | h2
        · exact Or.inl h2
        · left; omega
      · intro k hk1 hk2
        by_cases hkj : k = j
        · subst hkj; exact hc.2
        · exact h3 k hk1 (by omega)
    · rw [if_neg hc]
      refine ⟨Nat.le_refl _, Or.inr rfl, ?_, ?_⟩
      · intro k h1 h2; omega
      · intro h
        cases hp : p j
        · rfl
        · exact absurd ⟨h, hp⟩ hc

end Partition

section PartitionSpec
variable {α : Type}

theorem partInv_scan (key : α → Nat) (a b kp : Nat) (d : List α) (i j : Nat)
    (h : PartInv key a b kp d i j) :
    PartInv key a b kp d
        (advanceWhile (fun k => lessAt (keyLess key) d k a) j (j + 1 - i) i)
        (retreatWhile (fun k => !lessAt (keyLess key) d k a)
          (advanceWhile (fun k => lessAt (keyLess key) d k a) j (j + 1 - i) i)
          (j + 1 - advanceWhile (fun k => lessAt (keyLess key) d k a) j (j + 1 - i) i) j)
      ∧ i ≤ advanceWhile (fun k => lessAt (keyLess key) d k a) j (j + 1 - i) i
      ∧ retreatWhile (fun k => !lessAt (keyLess key) d k a)
          (advanceWhile (fun k => lessAt (keyLess key) d k a) j (j + 1 - i) i)
          (j + 1 - advanceWhile (fun k => lessAt (keyLess key) d k a) j (j + 1 - i) i) j ≤ j
      ∧ (advanceWhile (fun k => lessAt (keyLess key) d k a) j (j + 1 - i) i ≤
          retreatWhile (fun k => !lessAt (keyLess key) d k a)
            (advanceWhile (fun k => lessAt (keyLess key) d k a) j (j + 1 - i) i)
            (j + 1 - advanceWhile (fun k => lessAt (keyLess key) d k a) j (j + 1 - i) i) j →
          keyAt key d (advanceWhile (fun k => lessAt (keyLess key) d k a) j (j + 1 - i) i) ≤ kp
          ∧ kp < keyAt key d (retreatWhile (fun k => !lessAt (keyLess key) d k a)
            (advanceWhile (fun k => lessAt (keyLess key) d k a) j (j + 1 - i) i)
            (j + 1 - advanceWhile (fun k => lessAt (keyLess key) d k a) j (j + 1 - i) i) j)) := by
  obtain ⟨hk, hi, hj, hij, hb, hl, hr⟩ := h
  obtain ⟨a1, a2, a3, a4⟩ :=
    advanceWhile_spec (fun k => lessAt (keyLess key) d k a) j (j + 1 - i) i (Nat.le_refl _)
  generalize advanceWhile (fun k => lessAt (keyLess key) d k a) j (j + 1 - i) i = i1 at *
  obtain ⟨r1, r2, r3, r4⟩ :=
    retreatWhile_spec (fun k => !lessAt (keyLess key) d k a) i1 (by omega) (j + 1 - i1) j
      (Nat.le_refl _)
  generalize retreatWhile (fun k => !lessAt (keyLess key) d k a) i1 (j + 1 - i1) j = j1 at *
  have hi1 : i1 ≤ j + 1 := by omega
  have hless : ∀ k, k < b → (lessAt (keyLess key) d k a = true ↔ kp < keyAt key d k) := by
    intro k hkb
    rw [lessAt_keyLess key d k a (by omega) (by omega), hk]
    simp
  refine ⟨⟨hk, by omega, by omega, by omega, hb, ?_, ?_⟩, a1, r1, ?_⟩
  · intro k h1 h2
    by_cases hki : k < i
    · exact hl k h1 hki
    · exact (hless k (by omega)).mp (a3 k (by omega) h2)
  · intro k h1 h2
    by_cases hkj : j < k
    · exact hr k hkj h2
    · have := r3 k h1 (by omega)
      simp only [Bool.not_eq_true'] at this
      have hn : ¬ kp < keyAt key d k := by
        intro hc
        have := (hless k h2).mpr hc
        simp_all
      omega
  · intro hle
    constructor
    · have := a4 (by omega)
      have hn : ¬ kp < keyAt key d i1 := by
        intro hc
        have := (hless i1 (by omega)).mpr hc
        simp_all
      omega
    · have := r4 hle
      simp only [Bool.not_eq_false'] at this
      exact (hless j1 (by omega)).mp this

theorem partInv_swap (key : α → Nat) (a b kp : Nat) (d : List α) (i j : Nat)
    (h : PartInv key a b kp d i j) (hij : i ≤ j) (h1 : keyAt key d i ≤ kp)
    (h2 : kp < keyAt key d j) :
    PartInv key a b kp (swapAt d i j) (i + 1) (j - 1) := by
  obtain ⟨hk, hi, hj, _, hb, hl, hr⟩ := h
  have hne : i ≠ j := by
    intro e; subst e; omega
  have hK := fun k => keyAt_swapAt key d i j k (by omega) (by omega)
  refine ⟨?_, by omega, by omega, by omega, by rw [swapAt_length]; exact hb, ?_, ?_⟩
  · rw [hK, if_neg (by omega), if_neg (by omega)]
    exact hk
  · intro k k1 k2
    rw [hK]
    by_cases e1 : k = j
    · omega
    · rw [if_neg e1]
      by_cases e2 : k = i
      · rw [if_pos e2]; exact h2
      · rw [if_neg e2]; exact hl k k1 (by omega)
  · intro k k1 k2
    rw [hK]
    by_cases e1 : k = j
    · rw [if_pos e1]; exact h1
    · rw [if_neg e1, if_neg (by omega)]
      exact hr k (by omega) k2

theorem partitionLoop_spec (key : α → Nat) (a b kp : Nat) :
    ∀ (fuel : Nat) (d : List α) (i j : Nat), PartInv key a b kp d i j → j + 1 - i < fuel →
      RangePerm a b d (partitionLoop (keyLess key) a fuel d i j).1
      ∧ PartInv key a b kp (partitionLoop (keyLess key) a fuel d i j).1
          ((partitionLoop (keyLess key) a fuel d i j).2 + 1)
          (partitionLoop (keyLess key) a fuel d i j).2 := by
  intro fuel
  induction fuel with
  | zero => intro d i j _ hf; omega
  | succ n ih =>
    intro d i j h hf
    obtain ⟨s1, s2, s3, s4⟩ := partInv_scan key a b kp d i j h
    unfold partitionLoop
    simp only
    generalize advanceWhile (fun k => lessAt (keyLess key) d k a) j (j + 1 - i) i = i1 at *
    generalize retreatWhile (fun k => !lessAt (keyLess key) d k a) i1 (j + 1 - i1) j = j1 at *
    by_cases hc : i1 > j1
    · rw [if_pos hc]
      refine ⟨RangePerm.refl _ _ _, ?_⟩
      obtain ⟨hk, hi, hj, hij, hb, hl, hr⟩ := s1
      exact ⟨hk, by omega, hj, by omega, hb, fun k k1 k2 => hl k k1 (by omega), hr⟩
    · rw [if_neg hc]
      obtain ⟨e1, e2⟩ := s4 (by omega)
      have hsw := partInv_swap key a b kp d i1 j1 s1 (by omega) e1 e2
      have hne : i1 ≠ j1 := by intro e; subst e; omega
      obtain ⟨r1, r2⟩ := ih (swapAt d i1 j1) (i1 + 1) (j1 - 1) hsw (by omega)
      refine ⟨RangePerm.trans ?_ r1, r2⟩
      obtain ⟨hk, hi, hj, hij, hb, hl, hr⟩ := s1
      exact RangePerm.swap a b d i1 j1 (by omega) (by omega) (by omega) (by omega) hb

/-- Go `partition_func`: the range is permuted, the pivot ends at the returned index,
the keys before it are larger and the keys after it are not. -/
theorem partitionFunc_spec (key : α → Nat) (d : List α) (a b pivot : Nat)
    (hap : a ≤ pivot) (hpb : pivot < b) (hb : b ≤ d.length) :
    RangePerm a b d (partitionFunc (keyLess key) d a b pivot).1
    ∧ a ≤ (partitionFunc (keyLess key) d a b pivot).2.1
    ∧ (partitionFunc (keyLess key) d a b pivot).2.1 < b
    ∧ (∀ k, a ≤ k → k < (partitionFunc (keyLess key) d a b pivot).2.1 →
        keyAt key (partitionFunc (keyLess key) d a b pivot).1
          (partitionFunc (keyLess key) d a b pivot).2.1
        < keyAt key (partitionFunc (keyLess key) d a b pivot).1 k)
    ∧ (∀ k, (partitionFunc (keyLess key) d a b pivot).2.1 < k → k < b →
        keyAt key (partitionFunc (keyLess key) d a b pivot).1 k
        ≤ keyAt key (partitionFunc (keyLess key) d a b pivot).1
          (partitionFunc (keyLess key) d a b pivot).2.1) := by
  have hd1 : RangePerm a b d (swapAt d a pivot) :=
    RangePerm.swap a b d a pivot (Nat.le_refl _) (by omega) hap hpb hb
  have hlen1 : b ≤ (swapAt d a pivot).length := by rw [swapAt_length]; exact hb
  have h0 : PartInv key a b (keyAt key (swapAt d a pivot) a) (swapAt d a pivot) (a + 1) (b - 1) :=
    ⟨rfl, Nat.le_refl _, by omega, by omega, hlen1, fun k k1 k2 => by omega,
      fun k k1 k2 => by omega⟩
  generalize keyAt key (swapAt d a pivot) a = kp at h0
  -- the closing swap of the pivot into its place
  have fin : ∀ (e : List α) (m : Nat), RangePerm a b d e → PartInv key a b kp e (m + 1) m →
      RangePerm a b d (swapAt e m a) ∧ a ≤ m ∧ m < b
      ∧ (∀ k, a ≤ k → k < m → keyAt key (swapAt e m a) m < keyAt key (swapAt e m a) k)
      ∧ (∀ k, m < k → k < b → keyAt key (swapAt e m a) k ≤ keyAt key (swapAt e m a) m) := by
    intro e m hp hinv
    obtain ⟨hk, hi, hj, _, hbe, hl, hr⟩ := hinv
    have hK := fun k => keyAt_swapAt key e m a k (by omega) (by omega)
    refine ⟨hp.trans (RangePerm.swap a b e m a (by omega) hj (Nat.le_refl _) (by omega) hbe),
      by omega, hj, ?_, ?_⟩
    · intro k k1 k2
      rw [hK m, hK k]
      by_cases e1 : m = a
      · omega
      · rw [if_neg e1, if_pos rfl]
        by_cases e2 : k = a
        · rw [if_pos e2, hk]; exact hl m (by omega) (by omega)
        · rw [if_neg e2, if_neg (by omega), hk]; exact hl k (by omega) (by omega)
    · intro k k1 k2
      rw [hK m, hK k, if_neg (by omega), if_neg (by omega)]
      by_cases e1 : m = a
      · rw [if_pos e1, e1]
        have := hr k k1 k2
        omega
      · rw [if_neg e1, if_pos rfl, hk]; exact hr k k1 k2
  obtain ⟨s1, s2, s3, s4⟩ := partInv_scan key a b kp (swapAt d a pivot) (a + 1) (b - 1) h0
  unfold partitionFunc
  simp only
  generalize advanceWhile (fun k => lessAt (keyLess key) (swapAt d a pivot) k a) (b - 1)
    (b - 1 + 1 - (a + 1)) (a + 1) = i1 at *
  generalize retreatWhile (fun k => !lessAt (keyLess key) (swapAt d a pivot) k a) i1
    (b - 1 + 1 - i1) (b - 1) = j1 at *
  by_cases hc : i1 > j1
  · rw [if_pos hc]
    simp only
    apply fin _ _ hd1
    obtain ⟨hk, hi, hj, hij, hbe, hl, hr⟩ := s1
    exact ⟨hk, by omega, hj, by omega, hbe, fun k k1 k2 => hl k k1 (by omega), hr⟩
  · rw [if_neg hc]
    simp only
    obtain ⟨e1, e2⟩ := s4 (by omega)
    have hsw := partInv_swap key a b kp (swapAt d a pivot) i1 j1 s1 (by omega) e1 e2
    have hne : i1 ≠ j1 := by intro e; subst e; omega
    obtain ⟨hk, hi, hj, hij, hbe, hl, hr⟩ := s1
    obtain ⟨r1, r2⟩ := partitionLoop_spec key a b kp (b - a) (swapAt (swapAt d a pivot) i1 j1)
      (i1 + 1) (j1 - 1) hsw (by omega)
    apply fin _ _ ((hd1.trans
      (RangePerm.swap a b _ i1 j1 (by omega) (by omega) (by omega) (by omega) hbe)).trans r1) r2

end PartitionSpec

section PartitionEqualSpec
variable {α : Type}

theorem partEqInv_scan (key : α → Nat) (a b kp : Nat) (d : List α) (i j : Nat)
    (h : PartEqInv key a b kp d i j) :
    PartEqInv key a b kp d
        (advanceWhile (fun k => !lessAt (keyLess key) d a k) j (j + 1 - i) i)
        (retreatWhile (fun k => lessAt (keyLess key) d a k)
          (advanceWhile (fun k => !lessAt (keyLess key) d a k) j (j + 1 - i) i)
          (j + 1 - advanceWhile (fun k => !lessAt (keyLess key) d a k) j (j + 1 - i) i) j)
      ∧ i ≤ advanceWhile (fun k => !lessAt (keyLess key) d a k) j (j + 1 - i) i
      ∧ retreatWhile (fun k => lessAt (keyLess key) d a k)
          (advanceWhile (fun k => !lessAt (keyLess key) d a k) j (j + 1 - i) i)
          (j + 1 - advanceWhile (fun k => !lessAt (keyLess key) d a k) j (j + 1 - i) i) j ≤ j
      ∧ (advanceWhile (fun k => !lessAt (keyLess key) d a k) j (j + 1 - i) i ≤
          retreatWhile (fun k => lessAt (keyLess key) d a k)
            (advanceWhile (fun k => !lessAt (keyLess key) d a k) j (j + 1 - i) i)
            (j + 1 - advanceWhile (fun k => !lessAt (keyLess key) d a k) j (j + 1 - i) i) j →
          keyAt key d (advanceWhile (fun k => !lessAt (keyLess key) d a k) j (j + 1 - i) i) < kp
          ∧ keyAt key d (retreatWhile (fun k => lessAt (keyLess key) d a k)
            (advanceWhile (fun k => !lessAt (keyLess key) d a k) j (j + 1 - i) i)
            (j + 1 - advanceWhile (fun k => !lessAt (keyLess key) d a k) j (j + 1 - i) i) j)
              = kp) := by
  obtain ⟨hk, hi, hj, hij, hb, hmax, hl, hr⟩ := h
  obtain ⟨a1, a2, a3, a4⟩ :=
    advanceWhile_spec (fun k => !lessAt (keyLess key) d a k) j (j + 1 - i) i (Nat.le_refl _)
  generalize advanceWhile (fun k => !lessAt (keyLess key) d a k) j (j + 1 - i) i = i1 at *
  obtain ⟨r1, r2, r3, r4⟩ :=
    retreatWhile_spec (fun k => lessAt (keyLess key) d a k) i1 (by omega) (j + 1 - i1) j
      (Nat.le_refl _)
  generalize retreatWhile (fun k => lessAt (keyLess key) d a k) i1 (j + 1 - i1) j = j1 at *
  have hless : ∀ k, k < b → (lessAt (keyLess key) d a k = true ↔ keyAt key d k < kp) := by
    intro k hkb
    rw [lessAt_keyLess key d a k (by omega) (by omega), hk]
    simp
  refine ⟨⟨hk, by omega, by omega, by omega, hb, hmax, ?_, ?_⟩, a1, r1, ?_⟩
  · intro k h1 h2
    by_cases hki : k < i
    · exact hl k h1 hki
    · have := a3 k (by omega) h2
      simp only [Bool.not_eq_true'] at this
      have hn : ¬ keyAt key d k < kp := by
        intro hc
        have := (hless k (by omega)).mpr hc
        simp_all
      have := hmax k (by omega) (by omega)
      omega
  · intro k h1 h2
    by_cases hkj : j < k
    · exact hr k hkj h2
    · exact (hless k h2).mp (r3 k h1 (by omega))
  · intro hle
    constructor
    · have := a4 (by omega)
      simp only [Bool.not_eq_false'] at this
      exact (hless i1 (by omega)).mp this
    · have := r4 hle
      have hn : ¬ keyAt key d j1 < kp := by
        intro hc
        have := (hless j1 (by omega)).mpr hc
        simp_all
      have := hmax j1 (by omega) (by omega)
      omega

theorem partEqInv_swap (key : α → Nat) (a b kp : Nat) (d : List α) (i j : Nat)
    (h : PartEqInv key a b kp d i j) (hij : i ≤ j) (h1 : keyAt key d i < kp)
    (h2 : keyAt key d j = kp) :
    PartEqInv key a b kp (swapAt d i j) (i + 1) (j - 1) := by
  obtain ⟨hk, hi, hj, _, hb, hmax, hl, hr⟩ := h
  have hne : i ≠ j := by
    intro e; subst e; omega
  have hK := fun k => keyAt_swapAt key d i j k (by omega) (by omega)
  refine ⟨?_, by omega, by omega, by omega, by rw [swapAt_length]; exact hb, ?_, ?_, ?_⟩
  · rw [hK, if_neg (by omega), if_neg (by omega)]
    exact hk
  · intro k k1 k2
    rw [hK]
    by_cases e1 : k = j
    · rw [if_pos e1]; omega
    · rw [if_neg e1]
      by_cases e2 : k = i
      · rw [if_pos e2]; omega
      · rw [if_neg e2]; exact hmax k k1 k2
  · intro k k1 k2
    rw [hK]
    by_cases e1 : k = j
    · omega
    · rw [if_neg e1]
      by_cases e2 : k = i
      · rw [if_pos e2]; exact h2
      · rw [if_neg e2]; exact hl k k1 (by omega)
  · intro k k1 k2
    rw [hK]
    by_cases e1 : k = j
    · rw [if_pos e1]; exact h1
    · rw [if_neg e1, if_neg (by omega)]
      exact hr k (by omega) k2

theorem partitionEqualLoop_spec (key : α → Nat) (a b kp : Nat) :
    ∀ (fuel : Nat) (d : List α) (i j : Nat), PartEqInv key a b kp d i j → j + 1 - i < fuel →
      RangePerm a b d (partitionEqualLoop (keyLess key) a fuel d i j).1
      ∧ PartEqInv key a b kp (partitionEqualLoop (keyLess key) a fuel d i j).1
          (partitionEqualLoop (keyLess key) a fuel d i j).2
          ((partitionEqualLoop (keyLess key) a fuel d i j).2 - 1) := by
  intro fuel
  induction fuel with
  | zero => intro d i j _ hf; omega
  | succ n ih =>
    intro d i j h hf
    obtain ⟨s1, s2, s3, s4⟩ := partEqInv_scan key a b kp d i j h
    unfold partitionEqualLoop
    simp only
    generalize advanceWhile (fun k => !lessAt (keyLess key) d a k) j (j + 1 - i) i = i1 at *
    generalize retreatWhile (fun k => lessAt (keyLess key) d a k) i1 (j + 1 - i1) j = j1 at *
    by_cases hc : i1 > j1
    · rw [if_pos hc]
      refine ⟨RangePerm.refl _ _ _, ?_⟩
      obtain ⟨hk, hi, hj, hij, hb, hmax, hl, hr⟩ := s1
      exact ⟨hk, hi, by omega, by omega, hb, hmax, hl, fun k k1 k2 => hr k (by omega) k2⟩
    · rw [if_neg hc]
      obtain ⟨e1, e2⟩ := s4 (by omega)
      have hsw := partEqInv_swap key a b kp d i1 j1 s1 (by omega) e1 e2
      have hne : i1 ≠ j1 := by intro e; subst e; omega
      obtain ⟨r1, r2⟩ := ih (swapAt d i1 j1) (i1 + 1) (j1 - 1) hsw (by omega)
      refine ⟨RangePerm.trans ?_ r1, r2⟩
      obtain ⟨hk, hi, hj, hij, hb, hmax, hl, hr⟩ := s1
      exact RangePerm.swap a b d i1 j1 (by omega) (by omega) (by omega) (by omega) hb

/-- Go `partitionEqual_func`, when no key of the range exceeds the pivot's: the range is
permuted, the keys before the returned index equal the pivot's, the keys from it on
are smaller. -/
theorem partitionEqualFunc_spec (key : α → Nat) (d : List α) (a b pivot : Nat)
    (hap : a ≤ pivot) (hpb : pivot < b) (hb : b ≤ d.length)
    (hmax : ∀ k, a ≤ k → k < b → keyAt key d k ≤ keyAt key d pivot) :
    RangePerm a b d (partitionEqualFunc (keyLess key) d a b pivot).1
    ∧ a < (partitionEqualFunc (keyLess key) d a b pivot).2
    ∧ (partitionEqualFunc (keyLess key) d a b pivot).2 ≤ b
    ∧ (∀ k, a ≤ k → k < (partitionEqualFunc (keyLess key) d a b pivot).2 →
        keyAt key (partitionEqualFunc (keyLess key) d a b pivot).1 k = keyAt key d pivot)
    ∧ (∀ k, (partitionEqualFunc (keyLess key) d a b pivot).2 ≤ k → k < b →
        keyAt key (partitionEqualFunc (keyLess key) d a b pivot).1 k < keyAt key d pivot) := by
  have hd1 : RangePerm a b d (swapAt d a pivot) :=
    RangePerm.swap a b d a pivot (Nat.le_refl _) (by omega) hap hpb hb
  have hlen1 : b ≤ (swapAt d a pivot).length := by rw [swapAt_length]; exact hb
  have hka : keyAt key (swapAt d a pivot) a = keyAt key d pivot := by
    rw [keyAt_swapAt key d a pivot a (by omega) (by omega)]
    by_cases e : a = pivot
    · rw [if_pos e, e]
    · rw [if_neg e, if_pos rfl]
  have hmax1 : ∀ k, a ≤ k → k < b → keyAt key (swapAt d a pivot) k ≤ keyAt key d pivot :=
    RangePerm.forall_key key hd1 hb (fun n => n ≤ keyAt key d pivot) hmax
  have h0 : PartEqInv key a b (keyAt key d pivot) (swapAt d a pivot) (a + 1) (b - 1) :=
    ⟨hka, Nat.le_refl _, by omega, by omega, hlen1, hmax1, fun k k1 k2 => by omega,
      fun k k1 k2 => by omega⟩
  obtain ⟨r1, r2⟩ := partitionEqualLoop_spec key a b (keyAt key d pivot) (b - a + 1)
    (swapAt d a pivot) (a + 1) (b - 1) h0 (by omega)
  unfold partitionEqualFunc
  obtain ⟨hk, hi, hj, hij, hbe, hm, hl, hr⟩ := r2
  refine ⟨hd1.trans r1, by omega, by omega, ?_, ?_⟩
  · intro k k1 k2
    by_cases e : k = a
    · rw [e]; exact hk
    · exact hl k (by omega) k2
  · intro k k1 k2
    exact hr k (by omega) k2

end PartitionEqualSpec

/-! ## `sort.Slice`: between ranges of a slice and lists -/

section Convert
variable {α : Type}

theorem rangePerm_decomp (L M M' R : List α) (h : M'.Perm M) :
    RangePerm L.length (L.length + M.length) (L ++ M ++ R) (L ++ M' ++ R) := by
  apply RangePerm.of_perm (by omega)
  · simp [List.take_append_eq_append_take]
  · have e : L.length + M.length = (L ++ M').length := by simp [h.length_eq]
    have e2 : L.length + M.length = (L ++ M).length := by simp
    rw [List.drop_left' e.symm, List.drop_left' e2.symm]
  · exact (h.append_left L).append_right R

theorem keyAt_decomp (key : α → Nat) (L M R : List α) (k : Nat) (hk : k < M.length) :
    keyAt key (L ++ M ++ R) (L.length + k) = keyAt key M k := by
  unfold keyAt
  rw [List.append_assoc, List.getElem?_append_right (by omega)]
  simp only [Nat.add_sub_cancel_left]
  rw [List.getElem?_append_left hk]

theorem sortedOn_decomp (key : α → Nat) (L M R : List α)
    (h : M.Pairwise (fun u v => key v ≤ key u)) :
    SortedOn key L.length (L.length + M.length) (L ++ M ++ R) := by
  intro i j hi hij hj
  have e1 : i = L.length + (i - L.length) := by omega
  have e2 : j = L.length + (j - L.length) := by omega
  rw [e1, e2, keyAt_decomp key L M R _ (by omega), keyAt_decomp key L M R _ (by omega)]
  have hi' : i - L.length < M.length := by omega
  have hj' : j - L.length < M.length := by omega
  unfold keyAt
  rw [List.getElem?_eq_getElem hi', List.getElem?_eq_getElem hj']
  exact List.pairwise_iff_getElem.mp h _ _ hi' hj' (by omega)

theorem sliceOf_length (d : List α) (a b : Nat) (hb : b ≤ d.length) :
    (sliceOf d a b).length = b - a := by
  unfold sliceOf
  simp [List.length_drop, List.length_take, Nat.min_eq_left hb]

theorem keyAt_sliceOf (key : α → Nat) (d : List α) (a b k : Nat) (hk : a + k < b) :
    keyAt key (sliceOf d a b) k = keyAt key d (a + k) := by
  unfold keyAt sliceOf
  rw [List.getElem?_drop, List.getElem?_take]
  simp [hk]

theorem pairwise_of_sortedOn (key : α → Nat) (d : List α) (a b : Nat) (hb : b ≤ d.length)
    (h : SortedOn key a b d) :
    (sliceOf d a b).Pairwise (fun u v => key v ≤ key u) := by
  rw [List.pairwise_iff_getElem]
  intro i j hi hj hij
  rw [sliceOf_length d a b hb] at hi hj
  have := h (a + i) (a + j) (by omega) (by omega) (by omega)
  rw [← keyAt_sliceOf key d a b i (by omega), ← keyAt_sliceOf key d a b j (by omega)] at this
  unfold keyAt at this
  rw [List.getElem?_eq_getElem (by rw [sliceOf_length d a b hb]; omega),
    List.getElem?_eq_getElem (by rw [sliceOf_length d a b hb]; omega)] at this
  exact this

/-- Go `insertionSort_func` on a range: the range is permuted into order. -/
theorem insertionSortFunc_spec (key : α → Nat) (d : List α) (a b : Nat) (hab : a ≤ b)
    (hb : b ≤ d.length) :
    RangePerm a b d (insertionSortFunc (keyLess key) d a b)
    ∧ SortedOn key a b (insertionSortFunc (keyLess key) d a b) := by
  have hd := sliceOf_decomp d a b hab
  have hL : (d.take a).length = a := by simp [List.length_take]; omega
  have hM : (sliceOf d a b).length = b - a := sliceOf_length d a b hb
  have hc := insertionSortFunc_closed (keyLess key) (d.take a) (sliceOf d a b) (d.drop b)
  rw [hL, hM, ← hd, Nat.add_sub_cancel' hab] at hc
  rw [hc]
  have hp := isortFold_perm (keyLess key) (sliceOf d a b) []
  rw [List.nil_append] at hp
  constructor
  · have := rangePerm_decomp (d.take a) (sliceOf d a b) _ (d.drop b) hp
    rw [hL, hM, ← hd, Nat.add_sub_cancel' hab] at this
    exact this
  · have := sortedOn_decomp key (d.take a) _ (d.drop b)
      (isortFold_desc key (sliceOf d a b) [] List.Pairwise.nil)
    rw [hL, hp.length_eq, hM, Nat.add_sub_cancel' hab] at this
    exact this

theorem sortedOn_of_adjacent (key : α → Nat) (d : List α) (a b : Nat)
    (h : ∀ k, a < k → k < b → keyAt key d k ≤ keyAt key d (k - 1)) : SortedOn key a b d := by
  intro i j hi hij hj
  induction j with
  | zero => omega
  | succ j ih =>
    by_cases e : i = j
    · subst e
      exact h (i + 1) (by omega) hj
    · have h1 := ih (by omega) (by omega)
      have h2 := h (j + 1) (by omega) hj
      simp only [Nat.add_sub_cancel] at h2
      omega

theorem SortedOn.mono (key : α → Nat) {d : List α} {a b a' b' : Nat} (h : SortedOn key a b d)
    (ha : a ≤ a') (hb : b' ≤ b) : SortedOn key a' b' d :=
  fun i j hi hij hj => h i j (by omega) hij (by omega)

/-- A sorted range stays sorted when the slice changes outside of it only. -/
theorem SortedOn.congr (key : α → Nat) {d d' : List α} {a b : Nat} (h : SortedOn key a b d)
    (he : ∀ k, a ≤ k → k < b → keyAt key d' k = keyAt key d k) : SortedOn key a b d' := by
  intro i j hi hij hj
  rw [he i hi (by omega), he j (by omega) hj]
  exact h i j hi hij hj

end Convert

/-! ## `sort.Slice`: the steps that only swap -/

section SwapSteps
variable {α : Type}

theorem breakPatternsLoop_rangePerm (a b length modulus idx : Nat) (hlen : length = b - a)
    (hmod : modulus ≤ 2 * length) (hpos : 0 < modulus)
    (hidx1 : a ≤ idx) (hidx2 : idx + 3 ≤ b) :
    ∀ (n i random : Nat) (d : List α), i + n ≤ 3 → b ≤ d.length →
      RangePerm a b d (breakPatternsLoop a length modulus idx n i random d) := by
  intro n
  induction n with
  | zero => intro i random d _ _; exact RangePerm.refl _ _ _
  | succ n ih =>
    intro i random d hi hb
    unfold breakPatternsLoop
    simp only
    have hother : xorshiftNext random % modulus < modulus := Nat.mod_lt _ hpos
    generalize xorshiftNext random % modulus = other at hother
    have ho1 : (if other ≥ length then other - length else other) < length := by
      split <;> omega
    generalize (if other ≥ length then other - length else other) = other1 at ho1
    have hs : RangePerm a b d (swapAt d (idx + i) (a + other1)) :=
      RangePerm.swap a b d _ _ (by omega) (by omega) (by omega) (by omega) hb
    exact hs.trans (ih (i + 1) _ _ (by omega) (by rw [swapAt_length]; exact hb))

theorem breakPatternsFunc_rangePerm (d : List α) (a b : Nat) (hb : b ≤ d.length) :
    RangePerm a b d (breakPatternsFunc d a b) := by
  unfold breakPatternsFunc
  simp only
  split
  · rename_i h8
    have hne : b - a ≠ 0 := by omega
    have h1 : 2 ^ bitsLen (b - a) ≤ 2 * (b - a) := by
      unfold bitsLen
      rw [if_neg hne, Nat.pow_succ]
      have := Nat.log2_self_le hne
      omega
    have h2 : 0 < 2 ^ bitsLen (b - a) := Nat.pow_pos (by omega)
    exact breakPatternsLoop_rangePerm a b (b - a) _ _ rfl h1 h2 (by omega) (by omega) 3 0 _ d
      (by omega) hb
  · exact RangePerm.refl _ _ _

theorem reverseLoop_rangePerm (a b : Nat) :
    ∀ (n i j : Nat) (d : List α), a ≤ i → j < b → b ≤ d.length →
      RangePerm a b d (reverseLoop n i j d) := by
  intro n
  induction n with
  | zero => intro i j d _ _ _; exact RangePerm.refl _ _ _
  | succ n ih =>
    intro i j d hi hj hb
    unfold reverseLoop
    split
    · exact (RangePerm.swap a b d i j hi (by omega) (by omega) hj hb).trans
        (ih (i + 1) (j - 1) _ (by omega) (by omega) (by rw [swapAt_length]; exact hb))
    · exact RangePerm.refl _ _ _

theorem reverseRange_rangePerm (d : List α) (a b : Nat) (hab : a < b) (hb : b ≤ d.length) :
    RangePerm a b d (reverseRange d a b) :=
  reverseLoop_rangePerm a b _ a (b - 1) d (Nat.le_refl _) (by omega) hb

theorem order2_mem (less : α → α → Bool) (d : List α) (x y s : Nat) :
    ((order2 less d x y s).1 = x ∧ (order2 less d x y s).2.1 = y)
    ∨ ((order2 less d x y s).1 = y ∧ (order2 less d x y s).2.1 = x) := by
  unfold order2
  split
  · right; exact ⟨rfl, rfl⟩
  · left; exact ⟨rfl, rfl⟩

theorem medianFunc_mem (less : α → α → Bool) (d : List α) (x y z s : Nat) :
    (medianFunc less d x y z s).1 = x ∨ (medianFunc less d x y z s).1 = y
      ∨ (medianFunc less d x y z s).1 = z := by
  unfold medianFunc
  simp only
  rcases order2_mem less d x y s with ⟨h1, h2⟩ | ⟨h1, h2⟩ <;>
  rcases order2_mem less d (order2 less d x y s).2.1 z (order2 less d x y s).2.2
    with ⟨h3, h4⟩ | ⟨h3, h4⟩ <;>
  rcases order2_mem less d (order2 less d x y s).1
    (order2 less d (order2 less d x y s).2.1 z (order2 less d x y s).2.2).1
    (order2 less d (order2 less d x y s).2.1 z (order2 less d x y s).2.2).2.2
    with ⟨h5, h6⟩ | ⟨h5, h6⟩ <;>
  simp_all

theorem medianFunc_range (less : α → α → Bool) (d : List α) (x y z s a b : Nat)
    (hx : a ≤ x ∧ x < b) (hy : a ≤ y ∧ y < b) (hz : a ≤ z ∧ z < b) :
    a ≤ (medianFunc less d x y z s).1 ∧ (medianFunc less d x y z s).1 < b := by
  rcases medianFunc_mem less d x y z s with h | h | h <;> rw [h] <;> assumption

/-- The pivot that `choosePivot_func` returns is an index of the range. -/
theorem choosePivot_range (less : α → α → Bool) (d : List α) (a b : Nat) (h8 : 8 ≤ b - a) :
    a ≤ (choosePivot less d a b).1 ∧ (choosePivot less d a b).1 < b := by
  have key : ∀ r : Nat × Nat, (a ≤ r.1 ∧ r.1 < b) →
      a ≤ (if r.2 = 0 then (r.1, SortedHint.increasingHint)
        else if r.2 = 12 then (r.1, SortedHint.decreasingHint)
        else (r.1, SortedHint.unknownHint)).1
      ∧ (if r.2 = 0 then (r.1, SortedHint.increasingHint)
        else if r.2 = 12 then (r.1, SortedHint.decreasingHint)
        else (r.1, SortedHint.unknownHint)).1 < b := by
    intro r hr
    split
    · exact hr
    · split <;> exact hr
  unfold choosePivot
  simp only
  apply key
  rw [if_pos h8]
  split
  · rename_i h50
    apply medianFunc_range
    · exact medianFunc_range less d _ _ _ _ a b (by omega) (by omega) (by omega)
    · exact medianFunc_range less d _ _ _ _ a b (by omega) (by omega) (by omega)
    · exact medianFunc_range less d _ _ _ _ a b (by omega) (by omega) (by omega)
  · exact medianFunc_range less d _ _ _ _ a b (by omega) (by omega) (by omega)

theorem shiftRight_rangePerm (less : α → α → Bool) (lo b : Nat) :
    ∀ (n j : Nat) (d : List α), lo + 1 ≤ j → b ≤ d.length →
      RangePerm lo b d (shiftRight less b n j d) := by
  intro n
  induction n with
  | zero => intro j d _ _; exact RangePerm.refl _ _ _
  | succ n ih =>
    intro j d hj hb
    unfold shiftRight
    split
    · split
      · exact RangePerm.refl _ _ _
      · exact (RangePerm.swap lo b d j (j - 1) (by omega) (by omega) (by omega) (by omega) hb).trans
          (ih (j + 1) _ (by omega) (by rw [swapAt_length]; exact hb))
    · exact RangePerm.refl _ _ _

end SwapSteps

/-! ## `sort.Slice`: partial insertion sort -/

section PartialInsertion
variable {α : Type}

theorem shiftLeft_eq_insertLoop (less : α → α → Bool) :
    ∀ (j : Nat) (d : List α), shiftLeft less j d = insertLoop less 0 j d := by
  intro j
  induction j with
  | zero => intro d; rfl
  | succ j ih =>
    intro d
    unfold shiftLeft insertLoop
    cases h : lessAt less d (j + 1) j
    · simp
    · simp [ih]

theorem insertRev_append (less : α → α → Bool) (x : α) (A B : List α)
    (hB : ∀ z, B.head? = some z → less x z = false) :
    insertRev less x (A ++ B) = insertRev less x A ++ B := by
  induction A with
  | nil =>
    cases B with
    | nil => rfl
    | cons z B =>
      have := hB z rfl
      simp [insertRev, this]
  | cons y A ih =>
    by_cases hxy : less x y = true
    · simp [insertRev, hxy, ih]
    · simp [insertRev, hxy]

theorem shiftLeft_closed (less : α → α → Bool) (L pre post : List α) (x : α)
    (hL : ∀ z, L.getLast? = some z → less x z = false) :
    shiftLeft less (L.length + pre.length) (L ++ pre ++ x :: post) =
      L ++ insertInto less x pre ++ post := by
  rw [shiftLeft_eq_insertLoop]
  have h := insertLoop_closed less [] x (L ++ pre).reverse post
  simp only [List.length_nil, Nat.zero_add, List.length_reverse, List.length_append,
    List.reverse_reverse, List.nil_append] at h
  rw [h, List.reverse_append, insertRev_append less x _ _ (by
    intro z hz
    apply hL z
    rw [← List.head?_reverse]
    exact hz)]
  simp [insertInto]

theorem decomp_at (d : List α) (a j : Nat) (haj : a ≤ j) (hj : j < d.length) :
    d = d.take a ++ sliceOf d a j ++ d[j] :: d.drop (j + 1) := by
  have h := sliceOf_decomp d a j haj
  rw [List.drop_eq_getElem_cons hj] at h
  exact h

theorem sliceOf_succ (d : List α) (a j : Nat) (haj : a ≤ j) (hj : j < d.length) :
    sliceOf d a (j + 1) = sliceOf d a j ++ [d[j]] := by
  unfold sliceOf
  rw [List.take_succ, List.getElem?_eq_getElem hj]
  simp only [Option.toList_some]
  rw [List.drop_append_of_le_length (by simp [List.length_take]; omega)]

/-- The shift to the left of `partialInsertionSort_func` inserts the element at `j`
into the sorted part `[a, j)`, when it cannot move past index `a`. -/
theorem shiftLeft_spec (key : α → Nat) (d : List α) (a j : Nat) (haj : a ≤ j)
    (hj : j < d.length) (hs : SortedOn key a j d)
    (hbound : a = 0 ∨ keyAt key d j ≤ keyAt key d (a - 1)) :
    RangePerm a (j + 1) d (shiftLeft (keyLess key) j d)
    ∧ SortedOn key a (j + 1) (shiftLeft (keyLess key) j d) := by
  have hd := decomp_at d a j haj hj
  have hL : (d.take a).length = a := by simp [List.length_take]; omega
  have hM : (sliceOf d a j).length = j - a := sliceOf_length d a j (by omega)
  have hstop : ∀ z, (d.take a).getLast? = some z → keyLess key d[j] z = false := by
    intro z hz
    rcases hbound with h0 | hk
    · subst h0; simp at hz
    · have ha : a - 1 < d.length := by omega
      have hz2 : d[a - 1]? = some z := by
        rw [List.getLast?_eq_getElem?, hL, List.getElem?_take] at hz
        by_cases h0 : a = 0
        · subst h0; simp at hz
        · simpa [show a - 1 < a by omega] using hz
      unfold keyAt at hk
      rw [List.getElem?_eq_getElem hj, hz2] at hk
      simp [keyLess]
      exact hk
  have hc := shiftLeft_closed (keyLess key) (d.take a) (sliceOf d a j) (d.drop (j + 1)) d[j] hstop
  rw [hL, hM, ← hd, Nat.add_sub_cancel' haj] at hc
  rw [hc]
  have hp := insertInto_perm (keyLess key) d[j] (sliceOf d a j)
  have hlen : (sliceOf d a j ++ [d[j]]).length = j + 1 - a := by
    rw [List.length_append, hM]; simp; omega
  have hd2 : d = d.take a ++ (sliceOf d a j ++ [d[j]]) ++ d.drop (j + 1) := by
    conv => lhs; rw [hd]
    simp
  constructor
  · have := rangePerm_decomp (d.take a) (sliceOf d a j ++ [d[j]]) _ (d.drop (j + 1)) hp
    rw [hL, hlen, ← hd2, Nat.add_sub_cancel' (by omega : a ≤ j + 1)] at this
    exact this
  · have := sortedOn_decomp key (d.take a) _ (d.drop (j + 1))
      (insertInto_desc key d[j] (sliceOf d a j) (pairwise_of_sortedOn key d a j (by omega) hs))
    rw [hL, hp.length_eq, hlen, Nat.add_sub_cancel' (by omega : a ≤ j + 1)] at this
    exact this

theorem partialInsertionLoop_spec (key : α → Nat) (a b : Nat) :
    ∀ (steps i : Nat) (d : List α), a + 1 ≤ i → i ≤ b → b ≤ d.length → SortedOn key a i d →
      (a = 0 ∨ ∀ k, a ≤ k → k < b → keyAt key d k ≤ keyAt key d (a - 1)) →
      RangePerm a b d (partialInsertionLoop (keyLess key) a b steps i d).1
      ∧ ((partialInsertionLoop (keyLess key) a b steps i d).2 = true →
          SortedOn key a b (partialInsertionLoop (keyLess key) a b steps i d).1) := by
  intro steps
  induction steps with
  | zero =>
    intro i d _ _ _ _ _
    unfold partialInsertionLoop
    exact ⟨RangePerm.refl _ _ _, fun h => by simp at h⟩
  | succ n ih =>
    intro i d hai hib hb hs hbound
    obtain ⟨a1, a2, a3, a4⟩ := advanceWhile_spec
      (fun k => !lessAt (keyLess key) d k (k - 1)) (b - 1) (b - i) i (by omega)
    unfold partialInsertionLoop
    simp only
    generalize advanceWhile (fun k => !lessAt (keyLess key) d k (k - 1)) (b - 1) (b - i) i
      = i1 at *
    have hi1 : i1 ≤ b := by omega
    have hless : ∀ k, 1 ≤ k → k < b →
        (lessAt (keyLess key) d k (k - 1) = true ↔ keyAt key d (k - 1) < keyAt key d k) := by
      intro k _ hkb
      rw [lessAt_keyLess key d k (k - 1) (by omega) (by omega)]
      simp
    have hs1 : SortedOn key a i1 d := by
      apply sortedOn_of_adjacent
      intro k k1 k2
      by_cases hki : k < i
      · exact hs (k - 1) k (by omega) (by omega) hki
      · have := a3 k (by omega) k2
        simp only [Bool.not_eq_true'] at this
        have hn : ¬ keyAt key d (k - 1) < keyAt key d k := by
          intro hc
          have := (hless k (by omega) (by omega)).mpr hc
          simp_all
        omega
    by_cases e : i1 = b
    · rw [if_pos e]
      exact ⟨RangePerm.refl _ _ _, fun _ => e ▸ hs1⟩
    · rw [if_neg e]
      by_cases h50 : b - a < 50
      · rw [if_pos h50]
        exact ⟨RangePerm.refl _ _ _, fun h => by simp at h⟩
      · rw [if_neg h50]
        -- the swap of the out-of-order pair
        have p1 : RangePerm a b d (swapAt d i1 (i1 - 1)) :=
          RangePerm.swap a b d _ _ (by omega) (by omega) (by omega) (by omega) hb
        have l1 : b ≤ (swapAt d i1 (i1 - 1)).length := by rw [swapAt_length]; exact hb
        have hK := fun k => keyAt_swapAt key d i1 (i1 - 1) k (by omega) (by omega)
        have s1 : SortedOn key a (i1 - 1) (swapAt d i1 (i1 - 1)) := by
          apply SortedOn.congr key (hs1.mono key (Nat.le_refl _) (by omega))
          intro k k1 k2
          rw [hK, if_neg (by omega), if_neg (by omega)]
        -- the shift to the left
        have p2 : RangePerm a b (swapAt d i1 (i1 - 1))
            (if i1 - a ≥ 2 then shiftLeft (keyLess key) (i1 - 1) (swapAt d i1 (i1 - 1))
              else swapAt d i1 (i1 - 1))
          ∧ SortedOn key a i1
            (if i1 - a ≥ 2 then shiftLeft (keyLess key) (i1 - 1) (swapAt d i1 (i1 - 1))
              else swapAt d i1 (i1 - 1)) := by
          split
          · have hb1 : a = 0 ∨ keyAt key (swapAt d i1 (i1 - 1)) (i1 - 1)
                ≤ keyAt key (swapAt d i1 (i1 - 1)) (a - 1) := by
              rcases hbound with h0 | hk
              · exact Or.inl h0
              · right
                rw [hK, hK, if_pos rfl, if_neg (by omega), if_neg (by omega)]
                exact hk i1 (by omega) (by omega)
            have := shiftLeft_spec key (swapAt d i1 (i1 - 1)) a (i1 - 1) (by omega) (by omega)
              s1 hb1
            rw [Nat.sub_add_cancel (by omega : 1 ≤ i1)] at this
            exact ⟨this.1.widen (by omega) (Nat.le_refl _) (by omega), this.2⟩
          · refine ⟨RangePerm.refl _ _ _, ?_⟩
            intro x y hx hxy hy
            omega
        generalize (if i1 - a ≥ 2 then shiftLeft (keyLess key) (i1 - 1) (swapAt d i1 (i1 - 1))
              else swapAt d i1 (i1 - 1)) = d2 at p2
        have l2 : b ≤ d2.length := by rw [p2.1.len]; exact l1
        -- the shift to the right
        have p3 : RangePerm i1 b d2
            (if b - i1 ≥ 2 then shiftRight (keyLess key) b (b - (i1 + 1)) (i1 + 1) d2 else d2) := by
          split
          · exact shiftRight_rangePerm (keyLess key) i1 b _ _ d2 (Nat.le_refl _) l2
          · exact RangePerm.refl _ _ _
        generalize (if b - i1 ≥ 2 then shiftRight (keyLess key) b (b - (i1 + 1)) (i1 + 1) d2
          else d2) = d3 at p3
        have s3 : SortedOn key a i1 d3 :=
          SortedOn.congr key p2.2 (fun k _ k2 => keyAt_outside key p3 k (Or.inl k2))
        have pall : RangePerm a b d d3 :=
          (p1.trans p2.1).trans (p3.widen (by omega) (by omega) (Nat.le_refl _))
        have l3 : b ≤ d3.length := by rw [pall.len]; exact hb
        have hbound3 : a = 0 ∨ ∀ k, a ≤ k → k < b → keyAt key d3 k ≤ keyAt key d3 (a - 1) := by
          rcases hbound with h0 | hk
          · exact Or.inl h0
          · by_cases h0 : a = 0
            · exact Or.inl h0
            right
            rw [keyAt_outside key pall (a - 1) (Or.inl (by omega))]
            exact RangePerm.forall_key key pall hb (fun n => n ≤ keyAt key d (a - 1)) hk
        obtain ⟨r1, r2⟩ := ih i1 d3 (by omega) hi1 l3 s3 hbound3
        exact ⟨pall.trans r1, r2⟩

/-- Go `partialInsertionSort_func`: the range is permuted, and is in order when the
function says so. -/
theorem partialInsertionSortFunc_spec (key : α → Nat) (d : List α) (a b : Nat) (hab : a < b)
    (hb : b ≤ d.length)
    (hbound : a = 0 ∨ ∀ k, a ≤ k → k < b → keyAt key d k ≤ keyAt key d (a - 1)) :
    RangePerm a b d (partialInsertionSortFunc (keyLess key) d a b).1
    ∧ ((partialInsertionSortFunc (keyLess key) d a b).2 = true →
        SortedOn key a b (partialInsertionSortFunc (keyLess key) d a b).1) := by
  unfold partialInsertionSortFunc
  apply partialInsertionLoop_spec key a b 5 (a + 1) d (Nat.le_refl _) (by omega) hb _ hbound
  intro i j hi hij hj
  omega

end PartialInsertion

/-! ## `sort.Slice`: heap sort -/

section HeapSort
variable {α : Type}

theorem siftDown_spec (key : α → Nat) (hi first lo : Nat) :
    ∀ (fuel root : Nat) (d : List α), hi - root ≤ fuel → lo ≤ root → first + hi ≤ d.length →
      (∀ p, lo ≤ p → p ≠ root → HeapAt key first hi d p) →
      (∀ p c, lo ≤ p → (root = 2 * p + 1 ∨ root = 2 * p + 2) →
        (c = 2 * root + 1 ∨ c = 2 * root + 2) → c < hi →
        keyAt key d (first + p) ≤ keyAt key d (first + c)) →
      RangePerm first (first + hi) d (siftDown (keyLess key) hi first fuel root d)
      ∧ ∀ p, lo ≤ p → HeapAt key first hi (siftDown (keyLess key) hi first fuel root d) p := by
  intro fuel
  induction fuel with
  | zero =>
    intro root d hf hlo hlen hheap hgp
    unfold siftDown
    refine ⟨RangePerm.refl _ _ _, ?_⟩
    intro p hp
    by_cases e : p = root
    · intro c hc hch; omega
    · exact hheap p hp e
  | succ n ih =>
    intro root d hf hlo hlen hheap hgp
    unfold siftDown
    simp only
    by_cases hch : 2 * root + 1 ≥ hi
    · rw [if_pos hch]
      refine ⟨RangePerm.refl _ _ _, ?_⟩
      intro p hp
      by_cases e : p = root
      · intro c hc hc2; omega
      · exact hheap p hp e
    · rw [if_neg hch]
      -- the child with the smaller key
      have hmin : ∃ c1, (if 2 * root + 1 + 1 < hi ∧
            lessAt (keyLess key) d (first + (2 * root + 1)) (first + (2 * root + 1) + 1) = true
            then 2 * root + 1 + 1 else 2 * root + 1) = c1
          ∧ (c1 = 2 * root + 1 ∨ c1 = 2 * root + 2) ∧ c1 < hi
          ∧ ∀ c, (c = 2 * root + 1 ∨ c = 2 * root + 2) → c < hi →
              keyAt key d (first + c1) ≤ keyAt key d (first + c) := by
        by_cases h2 : 2 * root + 1 + 1 < hi ∧
            lessAt (keyLess key) d (first + (2 * root + 1)) (first + (2 * root + 1) + 1) = true
        · rw [if_pos h2]
          refine ⟨_, rfl, Or.inr (by omega), h2.1, ?_⟩
          have := h2.2
          rw [lessAt_keyLess key d _ _ (by omega) (by omega)] at this
          simp only [decide_eq_true_eq] at this
          intro c hc hc2
          rcases hc with e | e
          · subst e
            have e2 : first + (2 * root + 1) + 1 = first + (2 * root + 1 + 1) := by omega
            rw [e2] at this
            omega
          · subst e
            exact Nat.le_refl _
        · rw [if_neg h2]
          refine ⟨_, rfl, Or.inl rfl, by omega, ?_⟩
          intro c hc hc2
          rcases hc with e | e
          · subst e; exact Nat.le_refl _
          · subst e
            have h3 : ¬ lessAt (keyLess key) d (first + (2 * root + 1))
                (first + (2 * root + 1) + 1) = true := fun h => h2 ⟨by omega, h⟩
            rw [lessAt_keyLess key d _ _ (by omega) (by omega)] at h3
            simp only [decide_eq_true_eq] at h3
            have e2 : first + (2 * root + 1) + 1 = first + (2 * root + 2) := by omega
            rw [e2] at h3
            omega
      obtain ⟨c1, hc1, hc1ch, hc1hi, hc1min⟩ := hmin
      rw [hc1]
      by_cases hl : lessAt (keyLess key) d (first + root) (first + c1) = false
      · rw [if_pos hl]
        refine ⟨RangePerm.refl _ _ _, ?_⟩
        rw [lessAt_keyLess key d _ _ (by omega) (by omega)] at hl
        simp only [decide_eq_false_iff_not] at hl
        intro p hp
        by_cases e : p = root
        · subst e
          intro c hc hc2
          have := hc1min c hc hc2
          omega
        · exact hheap p hp e
      · rw [if_neg hl]
        rw [lessAt_keyLess key d _ _ (by omega) (by omega)] at hl
        simp only [decide_eq_false_iff_not, Decidable.not_not] at hl
        have hK := fun k => keyAt_swapAt key d (first + root) (first + c1) k (by omega) (by omega)
        have hsw : RangePerm first (first + hi) d (swapAt d (first + root) (first + c1)) :=
          RangePerm.swap _ _ d _ _ (by omega) (by omega) (by omega) (by omega) hlen
        obtain ⟨r1, r2⟩ := ih c1 (swapAt d (first + root) (first + c1)) (by omega) (by omega)
          (by rw [swapAt_length]; exact hlen)
          (by
            intro p hp hpc c hc hc2
            rw [hK (first + p), hK (first + c)]
            by_cases e : p = root
            · subst e
              rw [if_neg (by omega), if_pos rfl]
              by_cases e2 : c = c1
              · subst e2
                rw [if_pos rfl]; omega
              · rw [if_neg (by omega), if_neg (by omega)]
                exact hc1min c hc hc2
            · rw [if_neg (by omega), if_neg (by omega)]
              by_cases e2 : c = c1
              · omega
              · rw [if_neg (by omega)]
                by_cases e3 : c = root
                · subst e3
                  rw [if_pos rfl]
                  exact hgp p c1 hp (by omega) hc1ch hc1hi
                · rw [if_neg (by omega)]
                  exact hheap p hp e c hc hc2)
          (by
            intro p c hp hpc hc hc2
            have e : p = root := by omega
            subst e
            rw [hK (first + p), hK (first + c), if_neg (by omega), if_pos rfl,
              if_neg (by omega), if_neg (by omega)]
            exact hheap c1 (by omega) (by omega) c hc hc2)
        exact ⟨hsw.trans r1, r2⟩

theorem heap_root_min (key : α → Nat) (first hi : Nat) (d : List α)
    (h : ∀ p, HeapAt key first hi d p) :
    ∀ k, k < hi → keyAt key d first ≤ keyAt key d (first + k) := by
  intro k
  induction k using Nat.strong_induction_on with
  | _ k ih =>
    intro hk
    by_cases e : k = 0
    · subst e; exact Nat.le_refl _
    · have h1 := ih ((k - 1) / 2) (by omega) (by omega)
      have h2 := h ((k - 1) / 2) k (by omega) hk
      omega

theorem HeapAt.shrink (key : α → Nat) {first hi hi' : Nat} {d : List α} {p : Nat}
    (h : HeapAt key first hi d p) (hh : hi' ≤ hi) : HeapAt key first hi' d p :=
  fun c hc hc2 => h c hc (by omega)

theorem heapBuild_spec (key : α → Nat) (hi first : Nat) :
    ∀ (i : Nat) (d : List α), first + hi ≤ d.length →
      (∀ p, i + 1 ≤ p → HeapAt key first hi d p) →
      RangePerm first (first + hi) d (heapBuild (keyLess key) hi first i d)
      ∧ ∀ p, HeapAt key first hi (heapBuild (keyLess key) hi first i d) p := by
  intro i
  induction i with
  | zero =>
    intro d hlen hheap
    unfold heapBuild
    obtain ⟨r1, r2⟩ := siftDown_spec key hi first 0 hi 0 d (by omega) (Nat.le_refl _) hlen
      (fun p _ hp => hheap p (by omega)) (fun p c _ hpc _ _ => by omega)
    exact ⟨r1, fun p => r2 p (Nat.zero_le _)⟩
  | succ i ih =>
    intro d hlen hheap
    unfold heapBuild
    obtain ⟨r1, r2⟩ := siftDown_spec key hi first (i + 1) hi (i + 1) d (by omega)
      (Nat.le_refl _) hlen (fun p h1 hp => hheap p (by omega)) (fun p c h1 hpc _ _ => by omega)
    obtain ⟨q1, q2⟩ := ih _ (by rw [r1.len]; exact hlen) r2
    exact ⟨r1.trans q1, q2⟩

end HeapSort

section HeapPop
variable {α : Type}

theorem heapPop_spec (key : α → Nat) (first H : Nat) :
    ∀ (i : Nat) (d : List α), i < H → first + H ≤ d.length →
      (∀ p, HeapAt key first (i + 1) d p) →
      SortedOn key (first + i + 1) (first + H) d →
      (∀ k m, k ≤ i → i < m → m < H → keyAt key d (first + m) ≤ keyAt key d (first + k)) →
      RangePerm first (first + H) d (heapPop (keyLess key) first i d)
      ∧ SortedOn key first (first + H) (heapPop (keyLess key) first i d) := by
  intro i
  induction i with
  | zero =>
    intro d hi hlen _ hs hsep
    unfold heapPop siftDown
    have hK := fun k => keyAt_swapAt key d first first k (by omega) (by omega)
    have hsame : ∀ k, keyAt key (swapAt d first first) k = keyAt key d k := by
      intro k
      rw [hK]
      by_cases e : k = first
      · rw [if_pos e, e]
      · rw [if_neg e, if_neg e]
    refine ⟨RangePerm.swap _ _ d _ _ (Nat.le_refl _) (by omega) (Nat.le_refl _) (by omega) hlen, ?_⟩
    intro x y hx hxy hy
    rw [hsame, hsame]
    by_cases e : x = first
    · subst e
      have := hsep 0 (y - x) (Nat.le_refl _) (by omega) (by omega)
      rw [Nat.add_zero, Nat.add_sub_cancel' (by omega : x ≤ y)] at this
      exact this
    · exact hs x y (by omega) hxy hy
  | succ i ih =>
    intro d hi hlen hheap hs hsep
    unfold heapPop
    have hK := fun k => keyAt_swapAt key d first (first + (i + 1)) k (by omega) (by omega)
    have hmin := heap_root_min key first (i + 1 + 1) d hheap
    have p1 : RangePerm first (first + H) d (swapAt d first (first + (i + 1))) :=
      RangePerm.swap _ _ d _ _ (Nat.le_refl _) (by omega) (by omega) (by omega) hlen
    have l1 : first + H ≤ (swapAt d first (first + (i + 1))).length := by
      rw [swapAt_length]; exact hlen
    obtain ⟨r1, r2⟩ := siftDown_spec key (i + 1) first 0 (i + 1) 0
      (swapAt d first (first + (i + 1))) (by omega) (Nat.le_refl _) (by omega)
      (by
        intro p _ hp c hc hc2
        rw [hK (first + p), hK (first + c), if_neg (by omega), if_neg (by omega),
          if_neg (by omega), if_neg (by omega)]
        exact hheap p c hc (by omega))
      (fun p c _ hpc _ _ => by omega)
    generalize siftDown (keyLess key) (i + 1) first (i + 1) 0
      (swapAt d first (first + (i + 1))) = d2 at r1 r2
    have l2 : first + H ≤ d2.length := by rw [r1.len]; exact l1
    have hout : ∀ k, first + (i + 1) ≤ k →
        keyAt key d2 k = keyAt key (swapAt d first (first + (i + 1))) k :=
      fun k hk => keyAt_outside key r1 k (Or.inr hk)
    have hs2 : SortedOn key (first + i + 1) (first + H) d2 := by
      intro x y hx hxy hy
      rw [hout x (by omega), hout y (by omega), hK x, hK y, if_neg (by omega)]
      by_cases e : x = first + (i + 1)
      · rw [if_pos e, if_neg (by omega)]
        have := hsep 0 (y - first) (by omega) (by omega) (by omega)
        rw [Nat.add_zero, Nat.add_sub_cancel' (by omega : first ≤ y)] at this
        exact this
      · rw [if_neg e, if_neg (by omega), if_neg (by omega)]
        exact hs x y (by omega) hxy hy
    have hsep2 : ∀ k m, k ≤ i → i < m → m < H →
        keyAt key d2 (first + m) ≤ keyAt key d2 (first + k) := by
      intro k m hk hm hmH
      apply RangePerm.forall_key key r1 (by omega) (fun n => keyAt key d2 (first + m) ≤ n) _
        (first + k) (by omega) (by omega)
      intro j hj1 hj2
      show keyAt key d2 (first + m) ≤ keyAt key (swapAt d first (first + (i + 1))) j
      rw [hout (first + m) (by omega), hK (first + m), hK j, if_neg (by omega : j ≠ first + (i + 1))]
      by_cases e : m = i + 1
      · subst e
        rw [if_pos rfl]
        by_cases e2 : j = first
        · rw [if_pos e2]
          exact hmin (i + 1) (by omega)
        · rw [if_neg e2]
          have := hmin (j - first) (by omega)
          rw [Nat.add_sub_cancel' (by omega : first ≤ j)] at this
          exact this
      · rw [if_neg (by omega), if_neg (by omega)]
        by_cases e2 : j = first
        · rw [if_pos e2]
          exact hsep (i + 1) m (Nat.le_refl _) (by omega) hmH
        · rw [if_neg e2]
          have := hsep (j - first) m (by omega) (by omega) hmH
          rw [Nat.add_sub_cancel' (by omega : first ≤ j)] at this
          exact this
    obtain ⟨q1, q2⟩ := ih d2 (by omega) l2 (fun p => r2 p (Nat.zero_le _)) hs2 hsep2
    exact ⟨(p1.trans (r1.widen (by omega) (Nat.le_refl _) (by omega))).trans q1, q2⟩

/-- Go `heapSort_func` on a non-empty range: the range is permuted into order. -/
theorem heapSortFunc_spec (key : α → Nat) (d : List α) (a b : Nat) (hab : a < b)
    (hb : b ≤ d.length) :
    RangePerm a b d (heapSortFunc (keyLess key) d a b)
    ∧ SortedOn key a b (heapSortFunc (keyLess key) d a b) := by
  unfold heapSortFunc
  simp only
  have hH : a + (b - a) = b := by omega
  obtain ⟨r1, r2⟩ := heapBuild_spec key (b - a) a ((b - a - 1) / 2) d (by omega)
    (fun p hp c hc hc2 => by omega)
  obtain ⟨q1, q2⟩ := heapPop_spec key a (b - a) (b - a - 1) _ (by omega)
    (by rw [r1.len]; omega)
    (by rw [Nat.sub_add_cancel (by omega : 1 ≤ b - a)]; exact r2)
    (fun x y hx hxy hy => by omega)
    (fun k m hk hm hmH => by omega)
  rw [hH] at r1 q1 q2
  exact ⟨r1.trans q1, q2⟩

end HeapPop

/-! ## `sort.Slice`: the quicksort -/

section Pdqsort
variable {α : Type}

theorem sortedOn_of_parts (key : α → Nat) (r : List α) (a mid b kp : Nat)
    (h1 : SortedOn key a mid r) (h2 : SortedOn key (mid + 1) b r)
    (hk : keyAt key r mid = kp)
    (hl : ∀ k, a ≤ k → k < mid → kp < keyAt key r k)
    (hr : ∀ k, mid < k → k < b → keyAt key r k ≤ kp) : SortedOn key a b r := by
  intro x y hx hxy hy
  by_cases c1 : y < mid
  · exact h1 x y hx hxy c1
  · by_cases c2 : mid < x
    · exact h2 x y (by omega) hxy hy
    · by_cases c3 : x = mid
      · subst c3
        have := hr y (by omega) hy
        omega
      · have hxl := hl x hx (by omega)
        by_cases c4 : y = mid
        · subst c4; omega
        · have := hr y (by omega) hy
          omega

theorem bound_transport (key : α → Nat) {a b : Nat} {d d' : List α} (h : RangePerm a b d d')
    (hb : b ≤ d.length)
    (hbound : a = 0 ∨ ∀ k, a ≤ k → k < b → keyAt key d k ≤ keyAt key d (a - 1)) :
    a = 0 ∨ ∀ k, a ≤ k → k < b → keyAt key d' k ≤ keyAt key d' (a - 1) := by
  rcases hbound with h0 | hk
  · exact Or.inl h0
  · by_cases h0 : a = 0
    · exact Or.inl h0
    right
    rw [keyAt_outside key h (a - 1) (Or.inl (by omega))]
    exact RangePerm.forall_key key h hb (fun n => n ≤ keyAt key d (a - 1)) hk

theorem pdqsort_spec (key : α → Nat) :
    ∀ (fuel : Nat) (d : List α) (a b limit : Nat) (wb wp : Bool),
      b - a < fuel → a ≤ b → b ≤ d.length →
      (a = 0 ∨ ∀ k, a ≤ k → k < b → keyAt key d k ≤ keyAt key d (a - 1)) →
      RangePerm a b d (pdqsort (keyLess key) fuel d a b limit wb wp)
      ∧ SortedOn key a b (pdqsort (keyLess key) fuel d a b limit wb wp) := by
  intro fuel
  induction fuel with
  | zero => intro d a b limit wb wp hf; omega
  | succ n ih =>
    intro d a b limit wb wp hf hab hb hbound
    rw [pdqsort]
    split
    · exact insertionSortFunc_spec key d a b hab hb
    rename_i h12
    split
    · exact heapSortFunc_spec key d a b (by omega) hb
    lift_lets
    intro d1 limit1 cp d2 pivot hint pis
    clear_value limit1
    have hd1 : RangePerm a b d d1 := by
      show RangePerm a b d (if wb = true then d else breakPatternsFunc d a b)
      split
      · exact RangePerm.refl _ _ _
      · exact breakPatternsFunc_rangePerm d a b hb
    clear_value d1
    have l1 : b ≤ d1.length := by rw [hd1.len]; exact hb
    have hcp : a ≤ cp.1 ∧ cp.1 < b := choosePivot_range (keyLess key) d1 a b (by omega)
    clear_value cp
    have hd2 : RangePerm a b d1 d2 := by
      show RangePerm a b d1
        (if cp.2 = SortedHint.decreasingHint then reverseRange d1 a b else d1)
      split
      · exact reverseRange_rangePerm d1 a b (by omega) l1
      · exact RangePerm.refl _ _ _
    clear_value d2
    have l2 : b ≤ d2.length := by rw [hd2.len]; exact l1
    have hpv : a ≤ pivot ∧ pivot < b := by
      show a ≤ (if cp.2 = SortedHint.decreasingHint then b - 1 - (cp.1 - a) else cp.1)
        ∧ (if cp.2 = SortedHint.decreasingHint then b - 1 - (cp.1 - a) else cp.1) < b
      split <;> omega
    clear_value pivot hint
    have hb2 := bound_transport key (hd1.trans hd2) hb hbound
    have hpis : RangePerm a b d2 pis.1 ∧ (pis.2 = true → SortedOn key a b pis.1) := by
      show RangePerm a b d2
          (if wb = true ∧ wp = true ∧ hint = SortedHint.increasingHint
            then partialInsertionSortFunc (keyLess key) d2 a b else (d2, false)).1
        ∧ ((if wb = true ∧ wp = true ∧ hint = SortedHint.increasingHint
            then partialInsertionSortFunc (keyLess key) d2 a b else (d2, false)).2 = true →
          SortedOn key a b (if wb = true ∧ wp = true ∧ hint = SortedHint.increasingHint
            then partialInsertionSortFunc (keyLess key) d2 a b else (d2, false)).1)
      split
      · exact partialInsertionSortFunc_spec key d2 a b (by omega) l2 hb2
      · exact ⟨RangePerm.refl _ _ _, fun h => by simp at h⟩
    clear_value pis
    have hd3 : RangePerm a b d pis.1 := (hd1.trans hd2).trans hpis.1
    have l3 : b ≤ pis.1.length := by rw [hd3.len]; exact hb
    have hb3 := bound_transport key hd3 hb hbound
    split
    · rename_i hsorted
      exact ⟨hd3, hpis.2 hsorted⟩
    split
    · -- the pivot equals the element before the range: partitionEqual
      rename_i heq
      have ha0 : a ≠ 0 := by omega
      have hkp : keyAt key pis.1 (a - 1) ≤ keyAt key pis.1 pivot := by
        have := heq.2
        rw [lessAt_keyLess key pis.1 _ _ (by omega) (by omega)] at this
        simpa using this
      have hmax : ∀ k, a ≤ k → k < b → keyAt key pis.1 k ≤ keyAt key pis.1 pivot := by
        intro k k1 k2
        rcases hb3 with h0 | hk
        · omega
        · have := hk k k1 k2
          omega
      obtain ⟨e1, e2, e3, e4, e5⟩ := partitionEqualFunc_spec key pis.1 a b pivot hpv.1 hpv.2 l3 hmax
      lift_lets
      intro pe
      have hpe : pe = partitionEqualFunc (keyLess key) pis.1 a b pivot := rfl
      clear_value pe
      rw [← hpe] at e1 e2 e3 e4 e5
      have l4 : b ≤ pe.1.length := by rw [e1.len]; exact l3
      obtain ⟨r1, r2⟩ := ih pe.1 pe.2 b limit1 wb wp (by omega) e3 l4 (by
        right
        intro k k1 k2
        rw [e4 (pe.2 - 1) (by omega) (by omega)]
        exact Nat.le_of_lt (e5 k k1 k2))
      generalize pdqsort (keyLess key) n pe.1 pe.2 b limit1 wb wp = r at *
      refine ⟨(hd3.trans e1).trans (r1.widen e3 (by omega) (Nat.le_refl _)), ?_⟩
      have hleft : ∀ k, a ≤ k → k < pe.2 → keyAt key r k = keyAt key pis.1 pivot := by
        intro k k1 k2
        rw [keyAt_outside key r1 k (Or.inl k2)]
        exact e4 k k1 k2
      have hright : ∀ k, pe.2 ≤ k → k < b → keyAt key r k < keyAt key pis.1 pivot :=
        RangePerm.forall_key key r1 l4 (fun n => n < keyAt key pis.1 pivot) e5
      intro x y hx hxy hy
      by_cases c1 : y < pe.2
      · rw [hleft x hx (by omega), hleft y (by omega) c1]
      · by_cases c2 : x < pe.2
        · rw [hleft x hx c2]
          exact Nat.le_of_lt (hright y (by omega) hy)
        · exact r2 x y (by omega) hxy hy
    · -- partition around the pivot, then both sides
      obtain ⟨e1, e2, e3, e4, e5⟩ := partitionFunc_spec key pis.1 a b pivot hpv.1 hpv.2 l3
      lift_lets
      intro pt mid leftLen rightLen balanceThreshold
      have hpt : pt = partitionFunc (keyLess key) pis.1 a b pivot := rfl
      have hmid : mid = pt.2.1 := rfl
      have hll : leftLen = pt.2.1 - a := rfl
      have hrl : rightLen = b - pt.2.1 := rfl
      have hbt : balanceThreshold = (b - a) / 8 := rfl
      clear_value pt mid leftLen rightLen balanceThreshold
      subst hmid hll hrl hbt
      rw [← hpt] at e1 e2 e3 e4 e5
      have hd4 : RangePerm a b d pt.1 := hd3.trans e1
      have l4 : b ≤ pt.1.length := by rw [e1.len]; exact l3
      have hb4 := bound_transport key hd4 hb hbound
      have hbl : a = 0 ∨ ∀ k, a ≤ k → k < pt.2.1 → keyAt key pt.1 k ≤ keyAt key pt.1 (a - 1) := by
        rcases hb4 with h0 | hk
        · exact Or.inl h0
        · exact Or.inr (fun k k1 k2 => hk k k1 (by omega))
      have hbr : pt.2.1 + 1 = 0 ∨ ∀ k, pt.2.1 + 1 ≤ k → k < b →
          keyAt key pt.1 k ≤ keyAt key pt.1 (pt.2.1 + 1 - 1) :=
        Or.inr (fun k k1 k2 => e5 k (by omega) k2)
      split
      · -- left side first
        obtain ⟨r1, r2⟩ := ih pt.1 a pt.2.1 limit1 true true (by omega) e2 (by omega) hbl
        generalize pdqsort (keyLess key) n pt.1 a pt.2.1 limit1 true true = d5 at *
        have l5 : b ≤ d5.length := by rw [r1.len]; exact l4
        obtain ⟨q1, q2⟩ := ih d5 (pt.2.1 + 1) b limit1
          (decide (pt.2.1 - a ≥ (b - a) / 8)) pt.2.2 (by omega) (by omega) l5 (by
            right
            intro k k1 k2
            rw [keyAt_outside key r1 k (Or.inr (by omega)),
              keyAt_outside key r1 (pt.2.1 + 1 - 1) (Or.inr (by omega))]
            exact e5 k (by omega) k2)
        generalize pdqsort (keyLess key) n d5 (pt.2.1 + 1) b limit1
          (decide (pt.2.1 - a ≥ (b - a) / 8)) pt.2.2 = r at *
        refine ⟨(hd4.trans (r1.widen e2 (Nat.le_refl _) (by omega))).trans
          (q1.widen (by omega) (by omega) (Nat.le_refl _)), ?_⟩
        apply sortedOn_of_parts key r a pt.2.1 b (keyAt key pt.1 pt.2.1)
        · exact SortedOn.congr key r2 (fun k _ k2 => keyAt_outside key q1 k (Or.inl (by omega)))
        · exact q2
        · rw [keyAt_outside key q1 _ (Or.inl (by omega)),
            keyAt_outside key r1 _ (Or.inr (Nat.le_refl _))]
        · intro k k1 k2
          rw [keyAt_outside key q1 k (Or.inl (by omega))]
          exact RangePerm.forall_key key r1 (by omega) (fun n => keyAt key pt.1 pt.2.1 < n) e4
            k k1 k2
        · intro k k1 k2
          apply RangePerm.forall_key key q1 l5 (fun n => n ≤ keyAt key pt.1 pt.2.1) _ k
            (by omega) k2
          intro j j1 j2
          show keyAt key d5 j ≤ keyAt key pt.1 pt.2.1
          rw [keyAt_outside key r1 j (Or.inr (by omega))]
          exact e5 j (by omega) j2
      · -- right side first
        obtain ⟨r1, r2⟩ := ih pt.1 (pt.2.1 + 1) b limit1 true true (by omega) (by omega) l4 hbr
        generalize pdqsort (keyLess key) n pt.1 (pt.2.1 + 1) b limit1 true true = d5 at *
        have l5 : b ≤ d5.length := by rw [r1.len]; exact l4
        obtain ⟨q1, q2⟩ := ih d5 a pt.2.1 limit1
          (decide (b - pt.2.1 ≥ (b - a) / 8)) pt.2.2 (by omega) e2 (by omega) (by
            rcases hbl with h0 | hk
            · exact Or.inl h0
            · by_cases h0 : a = 0
              · exact Or.inl h0
              right
              intro k k1 k2
              rw [keyAt_outside key r1 k (Or.inl (by omega)),
                keyAt_outside key r1 (a - 1) (Or.inl (by omega))]
              exact hk k k1 k2)
        generalize pdqsort (keyLess key) n d5 a pt.2.1 limit1
          (decide (b - pt.2.1 ≥ (b - a) / 8)) pt.2.2 = r at *
        refine ⟨(hd4.trans (r1.widen (by omega) (by omega) (Nat.le_refl _))).trans
          (q1.widen e2 (Nat.le_refl _) (by omega)), ?_⟩
        apply sortedOn_of_parts key r a pt.2.1 b (keyAt key pt.1 pt.2.1)
        · exact q2
        · exact SortedOn.congr key r2 (fun k k1 _ => keyAt_outside key q1 k (Or.inr (by omega)))
        · rw [keyAt_outside key q1 _ (Or.inr (Nat.le_refl _)),
            keyAt_outside key r1 _ (Or.inl (by omega))]
        · intro k k1 k2
          apply RangePerm.forall_key key q1 (by omega) (fun n => keyAt key pt.1 pt.2.1 < n) _ k
            k1 k2
          intro j j1 j2
          show keyAt key pt.1 pt.2.1 < keyAt key d5 j
          rw [keyAt_outside key r1 j (Or.inl (by omega))]
          exact e4 j j1 j2
        · intro k k1 k2
          rw [keyAt_outside key q1 k (Or.inr (by omega))]
          exact RangePerm.forall_key key r1 l4 (fun n => n ≤ keyAt key pt.1 pt.2.1)
            (fun j j1 j2 => e5 j (by omega) j2) k (by omega) k2

/-- Go `sort.Slice` with a `less` that compares keys, largest first: the result is a
permutation of the slice in which the keys do not increase. -/
theorem sortSlice_spec (key : α → Nat) (d : List α) :
    (sortSlice (keyLess key) d).Perm d
    ∧ (sortSlice (keyLess key) d).Pairwise (fun u v => key v ≤ key u) := by
  obtain ⟨h1, h2⟩ := pdqsort_spec key (d.length + 1) d 0 d.length (bitsLen d.length) true true
    (by omega) (Nat.zero_le _) (Nat.le_refl _) (Or.inl rfl)
  unfold sortSlice
  generalize pdqsort (keyLess key) (d.length + 1) d 0 d.length (bitsLen d.length) true true
    = r at h1 h2
  refine ⟨h1.perm (Nat.zero_le _), ?_⟩
  have := pairwise_of_sortedOn key r 0 d.length (by rw [h1.len]) h2
  unfold sliceOf at this
  rw [List.drop_zero, ← h1.len, List.take_length] at this
  exact this

end Pdqsort

/-! ## The sorted copy of the rules -/

theorem ruleLess_eq : ruleLess = keyLess getSpecificityScore := by
  funext x y
  rfl

theorem sortedRules_perm (schema : Schema) : (sortedRules schema).Perm schema.Rules := by
  unfold sortedRules
  rw [ruleLess_eq]
  exact (sortSlice_spec getSpecificityScore schema.Rules).1

theorem sortedRules_desc (schema : Schema) :
    (sortedRules schema).Pairwise
      (fun u v => getSpecificityScore v ≤ getSpecificityScore u) := by
  unfold sortedRules
  rw [ruleLess_eq]
  exact (sortSlice_spec getSpecificityScore schema.Rules).2

theorem sortSlice_short {α : Type} (less : α → α → Bool) (d : List α) (h : d.length ≤ 12) :
    sortSlice less d = isortFold less [] d := by
  unfold sortSlice
  rw [pdqsort, if_pos (by omega)]
  have := insertionSortFunc_closed less [] d []
  simpa using this

/-- C7 as stated fails: on thirteen rules, twelve of them of equal score, the sorted
copy does not keep the rules of score 100 in their declared order; the rule declared
seventh comes first and takes a file that the rule declared second also claims. -/
theorem sortedRules_not_stable :
    ¬ StableByScore thirteenRules (sortedRules ⟨thirteenRules⟩)
    ∧ (sortedRules ⟨thirteenRules⟩).map (fun r => r.ID)
        = ["6", "1", "2", "3", "4", "5", "7", "8", "9", "10", "11", "12", "0"]
    ∧ scanRules "f.x" ".x" thirteenRules "" = "T1"
    ∧ scanRules "f.x" ".x" (sortedRules ⟨thirteenRules⟩) "" = "T6" := by
  refine ⟨?_, by decide, by decide, by decide⟩
  intro h
  have h100 := h.2.2 100
  revert h100
  decide

theorem find?_filter_of_find? {α : Type} (p q : α → Bool) (r : α) (hq : q r = true) :
    ∀ l : List α, l.find? p = some r → (l.filter q).find? p = some r := by
  intro l
  induction l with
  | nil => intro h; simp at h
  | cons y t ih =>
    intro h
    rw [List.find?_cons] at h
    cases hp : p y with
    | true =>
      rw [hp] at h
      simp only [Option.some.injEq] at h
      subst h
      rw [List.filter_cons, if_pos hq, List.find?_cons, hp]
    | false =>
      rw [hp] at h
      rw [List.filter_cons]
      split
      · rw [List.find?_cons, hp]
        exact ih h
      · exact ih h

theorem sortedRules_stable (schema : Schema) (h12 : schema.Rules.length ≤ 12) (s : Nat) :
    (sortedRules schema).filter (fun r => decide (getSpecificityScore r = s))
      = schema.Rules.filter (fun r => decide (getSpecificityScore r = s)) := by
  unfold sortedRules
  rw [sortSlice_short ruleLess schema.Rules h12, ruleLess_eq, isortFold_filter]
  simp

/-- C7, amended: for every rule list the sorted copy that `OrganizeFiles` scans is a
permutation of the schema's rules in which the scores do not increase; when the
schema has at most 12 rules (the range on which `sort.Slice` is an insertion sort)
rules of equal score keep their declared order, so that the rule that wins a file is,
among the declared rules of its score, the first one that claims the file. -/
theorem sortedRules_spec (schema : Schema) :
    (sortedRules schema).Perm schema.Rules
    ∧ (sortedRules schema).Pairwise
        (fun u v => getSpecificityScore v ≤ getSpecificityScore u)
    ∧ (schema.Rules.length ≤ 12 → StableByScore schema.Rules (sortedRules schema))
    ∧ (schema.Rules.length ≤ 12 → ∀ (fileName ext : String) (r : Rule),
        (sortedRules schema).find? (ruleClaims fileName ext) = some r →
        (schema.Rules.filter
          (fun x => decide (getSpecificityScore x = getSpecificityScore r))).find?
            (ruleClaims fileName ext) = some r) := by
  refine ⟨sortedRules_perm schema, sortedRules_desc schema, ?_, ?_⟩
  · intro h12
    exact ⟨sortedRules_perm schema, sortedRules_desc schema, sortedRules_stable schema h12⟩
  · intro h12 fileName ext r hr
    rw [← sortedRules_stable schema h12]
    exact find?_filter_of_find? _ _ r (by simp) _ hr

/-- C7, amended, on three rules of scores 100, 1003, 100: the pattern rule moves to
the front and the two extension rules keep their order. -/
theorem sortedRules_spec_witness :
    StableByScore
      [extRule "1" "T1", ⟨"p", "", [], "a*bc", "P"⟩, extRule "2" "T2"]
      (sortedRules ⟨[extRule "1" "T1", ⟨"p", "", [], "a*bc", "P"⟩, extRule "2" "T2"]⟩)
    ∧ sortedRules ⟨[extRule "1" "T1", ⟨"p", "", [], "a*bc", "P"⟩, extRule "2" "T2"]⟩
        = [⟨"p", "", [], "a*bc", "P"⟩, extRule "1" "T1", extRule "2" "T2"] :=
  ⟨(sortedRules_spec ⟨[extRule "1" "T1", ⟨"p", "", [], "a*bc", "P"⟩, extRule "2" "T2"]⟩).2.2.1
    (by decide), by decide⟩

/-! ## Pattern rules and extension rules -/

theorem find_score_ge (p : Rule → Bool) (l : List Rule)
    (hs : l.Pairwise (fun u v => getSpecificityScore v ≤ getSpecificityScore u))
    (x r : Rule) (hx : x ∈ l) (hpx : p x = true) (hr : l.find? p = some r) :
    getSpecificityScore x ≤ getSpecificityScore r := by
  induction l with
  | nil => simp at hx
  | cons y t ih =>
    rw [List.pairwise_cons] at hs
    rw [List.find?_cons] at hr
    cases hpy : p y with
    | true =>
      rw [hpy] at hr
      simp only [Option.some.injEq] at hr
      subst hr
      rcases List.mem_cons.mp hx with e | e
      · subst e; exact Nat.le_refl _
      · exact hs.1 x e
    | false =>
      rw [hpy] at hr
      rcases List.mem_cons.mp hx with e | e
      · subst e; rw [hpx] at hpy; cases hpy
      · exact ih hs.2 e hr

/-- C1 as stated fails: `R1` has the matching pattern `*`, `R2` has `.tmp` among its
extensions and a pattern `zzz` that does not match; `R2` scores higher, is scanned
first and claims `a.tmp` through its extensions, in either declaration order. -/
theorem pattern_rule_can_lose :
    ¬ (∀ (rules : List Rule) (fileName ext : String) (R1 R2 : Rule),
        R1 ∈ rules → R2 ∈ rules →
        R1.Pattern ≠ "" → (filepathMatch R1.Pattern fileName).1 = true →
        contains R2.Extensions ext = true →
        ¬ (R2.Pattern ≠ "" ∧ (filepathMatch R2.Pattern fileName).1 = true) →
        scanRules fileName ext (sortedRules ⟨rules⟩) "" = R1.TargetDir) := by
  intro h
  have := h [⟨"1", "", [], "*", "A"⟩, ⟨"2", "", [".tmp"], "zzz", "B"⟩] "a.tmp" ".tmp"
    ⟨"1", "", [], "*", "A"⟩ ⟨"2", "", [".tmp"], "zzz", "B"⟩
    (by decide) (by decide) (by decide) (by decide) (by decide) (by decide)
  revert this
  decide

/-- C1, amended: when a rule `R1` has a non-empty pattern that matches the file name
and `R2` is a rule without a pattern, then, in whatever order the rules are declared,
the rule scan of `OrganizeFiles` selects the target of a rule with a non-empty pattern
that claims the file and scores at least as much as `R1` and strictly more than `R2`;
it selects `R1`'s target when `R1` is the only rule with a pattern that claims the
file. -/
theorem pattern_rule_beats_extension_rule (rules : List Rule) (fileName ext : String)
    (R1 R2 : Rule) (h1 : R1 ∈ rules) (hp : R1.Pattern ≠ "")
    (hm : (filepathMatch R1.Pattern fileName).1 = true) (hR2 : R2.Pattern = "") :
    (∃ r ∈ rules, r.Pattern ≠ "" ∧ ruleClaims fileName ext r = true
        ∧ getSpecificityScore R1 ≤ getSpecificityScore r
        ∧ getSpecificityScore R2 < getSpecificityScore r
        ∧ scanRules fileName ext (sortedRules ⟨rules⟩) "" = r.TargetDir)
    ∧ ((∀ r ∈ rules, r.Pattern ≠ "" → ruleClaims fileName ext r = true → r = R1) →
        scanRules fileName ext (sortedRules ⟨rules⟩) "" = R1.TargetDir) := by
  have hperm := sortedRules_perm ⟨rules⟩
  have hdesc := sortedRules_desc ⟨rules⟩
  have hc1 : ruleClaims fileName ext R1 = true := by
    simp [ruleClaims, hp, hm]
  have hmem : R1 ∈ sortedRules ⟨rules⟩ := hperm.mem_iff.mpr h1
  have hsome : ((sortedRules ⟨rules⟩).find? (ruleClaims fileName ext)).isSome = true := by
    rw [List.find?_isSome]
    exact ⟨R1, hmem, hc1⟩
  obtain ⟨r, hr⟩ := Option.isSome_iff_exists.mp hsome
  have hscan : scanRules fileName ext (sortedRules ⟨rules⟩) "" = r.TargetDir := by
    rw [scanRules_find, hr]
  have hge := find_score_ge (ruleClaims fileName ext) _ hdesc R1 r hmem hc1 hr
  have h1000 : 1000 ≤ getSpecificityScore R1 := (getSpecificityScore_unfold R1 ▸ by
    simp [hp]; omega)
  have hrp : r.Pattern ≠ "" := by
    intro e
    have := getSpecificityScore_unfold r
    rw [e] at this
    simp at this
    split at this <;> omega
  have h100 : getSpecificityScore R2 ≤ 100 := by
    have := getSpecificityScore_unfold R2
    rw [hR2] at this
    simp at this
    split at this <;> omega
  have hrm : r ∈ rules := hperm.mem_iff.mp (List.mem_of_find?_eq_some hr)
  have hrc : ruleClaims fileName ext r = true := List.find?_some hr
  refine ⟨⟨r, hrm, hrp, hrc, hge, by omega, hscan⟩, ?_⟩
  intro honly
  rw [hscan, honly r hrm hrp hrc]

/-- C1, amended, at concrete rules: the extension rule `.tmp → Archive` is declared
first, the pattern rule `*.tmp → Trash` second; `a.tmp` goes to `Trash`. -/
theorem pattern_rule_beats_extension_rule_witness :
    scanRules "a.tmp" ".tmp" (sortedRules ⟨scenarioRules.reverse⟩) "" = "Trash" :=
  (pattern_rule_beats_extension_rule scenarioRules.reverse "a.tmp" ".tmp"
    ⟨"", "", [], "*.tmp", "Trash"⟩ ⟨"", "", [".tmp"], "", "Archive"⟩
    (by decide) (by decide) (by decide) rfl).2 (by decide)

/-! ## Files, moves and undo -/

theorem fsRead_cons (k v : String) (fs : FS) (p : String) :
    fsRead ((k, v) :: fs) p = if k = p then some v else fsRead fs p := by
  rw [fsRead]

theorem fsRead_fsRemove (fs : FS) (k p : String) :
    fsRead (fsRemove fs k) p = if k = p then none else fsRead fs p := by
  induction fs with
  | nil => simp [fsRemove, fsRead]
  | cons e fs ih =>
    obtain ⟨k', v⟩ := e
    unfold fsRemove at ih ⊢
    rw [List.filter_cons]
    by_cases h1 : k' = k
    · subst h1
      simp only [ne_eq, not_true_eq_false, decide_False, Bool.false_eq_true, if_false]
      rw [ih, fsRead_cons]
      by_cases h2 : k' = p <;> simp [h2]
    · simp only [ne_eq, h1, not_false_eq_true, decide_True, if_true]
      rw [fsRead_cons, fsRead_cons, ih]
      by_cases h2 : k = p
      · subst h2; simp [h1]
      · simp [h2]

theorem fsRead_fsWrite (fs : FS) (k v p : String) :
    fsRead (fsWrite fs k v) p = if k = p then some v else fsRead fs p := by
  unfold fsWrite
  rw [fsRead_cons, fsRead_fsRemove]
  by_cases h : k = p <;> simp [h]

theorem fsRead_osRename (fs : FS) (src dst p : String) :
    fsRead (osRename fs src dst).1 p =
      match fsRead fs src with
      | none => fsRead fs p
      | some c => if dst = p then some c else if src = p then none else fsRead fs p := by
  unfold osRename
  cases h : fsRead fs src with
  | none => rfl
  | some c =>
    simp only
    rw [fsRead_fsWrite, fsRead_fsRemove]

theorem osRename_sameFiles (fs fs' : FS) (src dst : String) (h : SameFiles fs fs') :
    SameFiles (osRename fs src dst).1 (osRename fs' src dst).1 := by
  intro p
  rw [fsRead_osRename, fsRead_osRename, h src, h p]

theorem undoOperations_cons (ul : Char → Char) (op : MoveOperation)
    (ops : List MoveOperation) (fs : FS) :
    undoOperations (mapEnv ul) (op :: ops) fs
      = undoOperations (mapEnv ul) ops (osRename fs op.NewPath op.OldPath).1 := by
  rfl

theorem undoOperations_sameFiles (ul : Char → Char) (ops : List MoveOperation) :
    ∀ (fs fs' : FS), SameFiles fs fs' →
      SameFiles (undoOperations (mapEnv ul) ops fs) (undoOperations (mapEnv ul) ops fs') := by
  induction ops with
  | nil => intro fs fs' h; exact h
  | cons op ops ih =>
    intro fs fs' h
    rw [undoOperations_cons, undoOperations_cons]
    exact ih _ _ (osRename_sameFiles fs fs' _ _ h)

theorem moveFile_map (ul : Char → Char) (fs : FS) (src dest : String) :
    moveFile (mapEnv ul) fs src dest =
      if (osRename fs src dest).2 = true then (osRename fs src dest).1
      else fsRemove (osCopy (osRename fs src dest).1 src dest) src := by
  rfl

theorem fsRead_moveFile (ul : Char → Char) (fs : FS) (src dest c p : String)
    (hs : fsRead fs src = some c) :
    fsRead (moveFile (mapEnv ul) fs src dest) p =
      if dest = p then some c else if src = p then none else fsRead fs p := by
  rw [moveFile_map]
  have : (osRename fs src dest).2 = true := by
    unfold osRename
    rw [hs]
  simp only [this, if_true]
  rw [fsRead_osRename, hs]

/-- Renaming a moved file back restores the files, when the destination was free or
was the path of the file itself. -/
theorem undo_move (ul : Char → Char) (fs : FS) (src dest c : String)
    (hs : fsRead fs src = some c) (hd : fsRead fs dest = none ∨ dest = src) :
    SameFiles fs (osRename (moveFile (mapEnv ul) fs src dest) dest src).1 := by
  intro p
  rw [fsRead_osRename, fsRead_moveFile ul fs src dest c dest hs, if_pos rfl]
  simp only
  rw [fsRead_moveFile ul fs src dest c p hs]
  by_cases h1 : src = p
  · subst h1; rw [if_pos rfl, hs]
  · rw [if_neg h1]
    by_cases h2 : dest = p
    · rcases hd with hd | hd
      · subst h2; rw [if_pos rfl, hd]
      · exact absurd (hd.symm.trans h2) h1
    · rw [if_neg h2, if_neg h2, if_neg h1]

theorem insertName_perm (n : String) (l : List String) : (insertName n l).Perm (n :: l) := by
  induction l with
  | nil => exact List.Perm.refl _
  | cons m rest ih =>
    unfold insertName
    split
    · exact List.Perm.refl _
    · exact (ih.cons m).trans (List.Perm.swap n m rest)

theorem dirNames_spec (p : String) (fs : FS) :
    (dirNames fs p).Nodup
    ∧ ∀ n ∈ dirNames fs p, osStat fs (filepathJoin [p, n]) = true
        ∧ filepathBase (filepathJoin [p, n]) = n := by
  induction fs with
  | nil => simp [dirNames]
  | cons e fs ih =>
    obtain ⟨k, v⟩ := e
    unfold dirNames
    simp only
    have hold : ∀ n ∈ dirNames fs p, osStat ((k, v) :: fs) (filepathJoin [p, n]) = true
        ∧ filepathBase (filepathJoin [p, n]) = n := by
      intro n hn
      refine ⟨?_, (ih.2 n hn).2⟩
      have := (ih.2 n hn).1
      unfold osStat at this ⊢
      rw [fsRead_cons]
      split
      · rfl
      · exact this
    split
    · rename_i hc
      obtain ⟨_, hj, hnot⟩ := hc
      have hp := insertName_perm (filepathBase k) (dirNames fs p)
      refine ⟨hp.nodup_iff.mpr (List.nodup_cons.mpr ⟨hnot, ih.1⟩), ?_⟩
      intro n hn
      rcases List.mem_cons.mp (hp.mem_iff.mp hn) with e | e
      · subst e
        rw [hj]
        refine ⟨?_, rfl⟩
        unfold osStat
        rw [fsRead_cons, if_pos rfl]
        rfl
      · exact hold n e
    · exact ⟨ih.1, hold⟩

/-- The names that `os.ReadDir` lists on the map are distinct names of files that
are there. -/
theorem osReadDir_spec (p : String) (fs : FS) :
    (osReadDir fs p).Nodup
    ∧ ∀ n ∈ osReadDir fs p, osStat fs (filepathJoin [p, n]) = true
        ∧ filepathBase (filepathJoin [p, n]) = n := by
  unfold osReadDir
  split
  · simp
  · exact dirNames_spec p fs

theorem resolveConflict_moved (e : Bool) (conflictAction : String) (now : Int)
    (p destDir f : String) (op : MoveOperation)
    (h : resolveConflict e conflictAction now p destDir f = Outcome.moved op) :
    op = ⟨f, filepathJoin [p, f], op.NewPath⟩ := by
  unfold resolveConflict at h
  simp only at h
  split at h
  · split at h
    · cases h
    · simp only [Outcome.moved.injEq] at h
      subst h
      rfl
  · simp only [Outcome.moved.injEq] at h
    subst h
    rfl

/-- On the map, the body of the loop leaves the state as it is or moves the file; a
move that replaces nothing goes to a path that was free, or to the file's own. -/
theorem organizeFile_step (ul : Char → Char) (sorted : List Rule) (conflictAction : String)
    (clock : Nat → Int) (p f : String) (st : RunState FS)
    (hfree : moveLandsFree (mapEnv ul) sorted conflictAction clock p f st = true) :
    organizeFile (mapEnv ul) sorted conflictAction clock p f st = st
    ∨ ∃ dest, (fsRead st.fs dest = none ∨ dest = filepathJoin [p, f])
        ∧ organizeFile (mapEnv ul) sorted conflictAction clock p f st =
          { fs := moveFile (mapEnv ul) st.fs (filepathJoin [p, f]) dest,
            allOps := st.allOps ++ [⟨f, filepathJoin [p, f], dest⟩] } := by
  unfold moveLandsFree at hfree
  unfold organizeFile
  simp only at hfree ⊢
  cases hout : resolveConflict _ conflictAction (clock st.allOps.length) p _ f with
  | skipped =>
    left
    rfl
  | moved op =>
    right
    rw [hout] at hfree
    simp only [Bool.or_eq_true, Bool.not_eq_true', decide_eq_true_eq] at hfree
    have hop := resolveConflict_moved _ _ _ _ _ _ _ hout
    refine ⟨op.NewPath, ?_, ?_⟩
    · rcases hfree with h | h
      · left
        have h' : osStat st.fs op.NewPath = false := h
        unfold osStat at h'
        cases hr : fsRead st.fs op.NewPath with
        | none => rfl
        | some c => rw [hr] at h'; simp at h'
      · right
        rw [h]
        exact congrArg MoveOperation.OldPath hop
    · have h1 : op.OldPath = filepathJoin [p, f] := congrArg MoveOperation.OldPath hop
      rw [← hop]
      simp only [h1]
      rfl

theorem organizeDir_free (ul : Char → Char) (sorted : List Rule) (conflictAction : String)
    (clock : Nat → Int) (p : String) (fs0 : FS) :
    ∀ (names : List String) (st : RunState FS),
      (∀ n ∈ names, osStat st.fs (filepathJoin [p, n]) = true) →
      (names.map (fun n => filepathJoin [p, n])).Nodup →
      freeMovesDir (mapEnv ul) sorted conflictAction clock p
        (names.map (fun n => (n, false))) st = true →
      SameFiles fs0 (undoOperations (mapEnv ul) st.allOps.reverse st.fs) →
      SameFiles fs0 (undoOperations (mapEnv ul)
        (organizeDir (mapEnv ul) sorted conflictAction clock p
          (names.map (fun n => (n, false))) st).allOps.reverse
        (organizeDir (mapEnv ul) sorted conflictAction clock p
          (names.map (fun n => (n, false))) st).fs) := by
  intro names
  induction names with
  | nil => intro st _ _ _ h; exact h
  | cons f names ih =>
    intro st hex hnd hfree hU
    rw [List.map_cons] at hfree ⊢
    unfold organizeDir
    unfold freeMovesDir at hfree
    simp only [Bool.false_eq_true, if_false, Bool.and_eq_true] at hfree ⊢
    rw [List.map_cons, List.nodup_cons] at hnd
    obtain ⟨hf1, hf2⟩ := hfree
    rcases organizeFile_step ul sorted conflictAction clock p f st hf1 with h | ⟨dest, hd, h⟩
    · rw [h] at hf2 ⊢
      exact ih st (fun n hn => hex n (List.mem_cons_of_mem _ hn)) hnd.2 hf2 hU
    · rw [h] at hf2 ⊢
      have hsrc := hex f (List.mem_cons_self _ _)
      unfold osStat at hsrc
      obtain ⟨c, hc⟩ := Option.isSome_iff_exists.mp hsrc
      refine ih _ ?_ hnd.2 hf2 ?_
      · intro n hn
        have hne : filepathJoin [p, f] ≠ filepathJoin [p, n] := by
          intro e
          apply hnd.1
          rw [e]
          exact List.mem_map_of_mem _ hn
        have := hex n (List.mem_cons_of_mem _ hn)
        unfold osStat at this ⊢
        simp only
        rw [fsRead_moveFile ul st.fs _ dest c _ hc]
        by_cases h2 : dest = filepathJoin [p, n]
        · rw [if_pos h2]; rfl
        · rw [if_neg h2, if_neg hne]; exact this
      · simp only [List.reverse_append, List.reverse_cons, List.reverse_nil, List.nil_append,
          List.singleton_append, undoOperations_cons]
        intro path
        rw [undoOperations_sameFiles ul st.allOps.reverse _ _
          (undo_move ul st.fs (filepathJoin [p, f]) dest c hc hd) path]
        exact hU path

theorem organizePaths_free (ul : Char → Char) (sorted : List Rule) (conflictAction : String)
    (clock : Nat → Int) (fs0 : FS) :
    ∀ (paths : List String) (st : RunState FS),
      freeMovesPaths (mapEnv ul) sorted conflictAction clock paths st = true →
      SameFiles fs0 (undoOperations (mapEnv ul) st.allOps.reverse st.fs) →
      SameFiles fs0 (undoOperations (mapEnv ul)
        (organizePaths (mapEnv ul) sorted conflictAction clock paths st).allOps.reverse
        (organizePaths (mapEnv ul) sorted conflictAction clock paths st).fs) := by
  intro paths
  induction paths with
  | nil => intro st _ h; exact h
  | cons p paths ih =>
    intro st hfree hU
    unfold organizePaths
    unfold freeMovesPaths at hfree
    rw [Bool.and_eq_true] at hfree
    have e : (mapEnv ul).readDir st.fs p = (osReadDir st.fs p).map (fun n => (n, false)) := rfl
    rw [e] at hfree ⊢
    apply ih _ hfree.2
    have hspec := osReadDir_spec p st.fs
    apply organizeDir_free ul sorted conflictAction clock p fs0 _ st
      (fun n hn => (hspec.2 n hn).1) _ hfree.1 hU
    apply List.Nodup.map_on _ hspec.1
    intro x hx y hy e
    rw [← (hspec.2 x hx).2, ← (hspec.2 y hy).2, e]

section SkipIsFree
variable {σ : Type}

/-- Under the policy `skip` a file is moved only to a path on which `os.Stat` has
just failed. -/
theorem moveLandsFree_skip (env : Env σ) (sorted : List Rule) (clock : Nat → Int)
    (p f : String) (st : RunState σ) :
    moveLandsFree env sorted "skip" clock p f st = true := by
  unfold moveLandsFree resolveConflict
  simp only
  split
  · rfl
  · rename_i op h
    split at h
    · simp at h
    · rename_i hstat
      simp only [Outcome.moved.injEq] at h
      subst h
      simp only [Bool.not_eq_true] at hstat
      simp [hstat]

theorem freeMovesDir_skip (env : Env σ) (sorted : List Rule) (clock : Nat → Int)
    (p : String) :
    ∀ (files : List (String × Bool)) (st : RunState σ),
      freeMovesDir env sorted "skip" clock p files st = true := by
  intro files
  induction files with
  | nil => intro st; rfl
  | cons f files ih =>
    intro st
    unfold freeMovesDir
    split
    · exact ih st
    · rw [moveLandsFree_skip, ih]
      rfl

theorem freeMovesPaths_skip (env : Env σ) (sorted : List Rule) (clock : Nat → Int) :
    ∀ (paths : List String) (st : RunState σ),
      freeMovesPaths env sorted "skip" clock paths st = true := by
  intro paths
  induction paths with
  | nil => intro st; rfl
  | cons p paths ih =>
    intro st
    unfold freeMovesPaths
    rw [freeMovesDir_skip, ih]
    rfl

end SkipIsFree

theorem mem_livePaths (fs : FS) (p : String) :
    p ∈ livePaths fs ↔ (fsRead fs p).isSome = true := by
  unfold livePaths
  induction fs with
  | nil => simp [fsRead]
  | cons e fs ih =>
    obtain ⟨k, v⟩ := e
    rw [fsRead_cons]
    simp only [List.map_cons, List.toFinset_cons, Finset.mem_insert]
    by_cases h : k = p
    · simp [h]
    · have h2 : p ≠ k := fun x => h x.symm
      simp only [h, h2, if_false, false_or]
      exact ih

theorem livePaths_sameFiles (fs fs' : FS) (h : SameFiles fs fs') :
    livePaths fs' = livePaths fs := by
  ext p
  rw [mem_livePaths, mem_livePaths, h p]

theorem livePaths_osRename (fs : FS) (src dst c : String) (hs : fsRead fs src = some c) :
    livePaths (osRename fs src dst).1 = insert dst ((livePaths fs).erase src) := by
  ext p
  rw [mem_livePaths, fsRead_osRename, hs, Finset.mem_insert, Finset.mem_erase, mem_livePaths]
  simp only
  by_cases h1 : dst = p
  · simp [h1]
  · have h1' : p ≠ dst := fun x => h1 x.symm
    by_cases h2 : src = p
    · simp [h1, h1', h2]
    · have h2' : p ≠ src := fun x => h2 x.symm
      simp [h1, h1', h2, h2']

/-- A rename on the map never adds a file. -/
theorem card_osRename_le (fs : FS) (src dst : String) :
    (livePaths (osRename fs src dst).1).card ≤ (livePaths fs).card := by
  cases hs : fsRead fs src with
  | none =>
    have : (osRename fs src dst).1 = fs := by
      unfold osRename
      rw [hs]
    rw [this]
  | some c =>
    rw [livePaths_osRename fs src dst c hs]
    have hmem : src ∈ livePaths fs := by
      rw [mem_livePaths, hs]; rfl
    have h1 := Finset.card_insert_le dst ((livePaths fs).erase src)
    have h2 := Finset.card_erase_of_mem hmem
    have h3 : 0 < (livePaths fs).card := Finset.card_pos.mpr ⟨src, hmem⟩
    omega

/-- A rename onto another file leaves one file less. -/
theorem card_osRename_lt (fs : FS) (src dst c : String) (hs : fsRead fs src = some c)
    (hd : (fsRead fs dst).isSome = true) (hne : dst ≠ src) :
    (livePaths (osRename fs src dst).1).card < (livePaths fs).card := by
  rw [livePaths_osRename fs src dst c hs]
  have hmem : src ∈ livePaths fs := by
    rw [mem_livePaths, hs]; rfl
  have hdm : dst ∈ (livePaths fs).erase src := by
    rw [Finset.mem_erase, mem_livePaths]
    exact ⟨hne, hd⟩
  rw [Finset.insert_eq_of_mem hdm, Finset.card_erase_of_mem hmem]
  have h3 : 0 < (livePaths fs).card := Finset.card_pos.mpr ⟨src, hmem⟩
  omega

theorem card_undoOperations_le (ul : Char → Char) (ops : List MoveOperation) :
    ∀ fs : FS, (livePaths (undoOperations (mapEnv ul) ops fs)).card ≤ (livePaths fs).card := by
  induction ops with
  | nil => intro fs; exact Nat.le_refl _
  | cons op ops ih =>
    intro fs
    rw [undoOperations_cons]
    exact Nat.le_trans (ih _) (card_osRename_le fs _ _)

theorem moveFile_present (ul : Char → Char) (fs : FS) (src dest c : String)
    (hs : fsRead fs src = some c) :
    moveFile (mapEnv ul) fs src dest = (osRename fs src dest).1 := by
  rw [moveFile_map]
  have : (osRename fs src dest).2 = true := by
    unfold osRename
    rw [hs]
  rw [if_pos this]

/-- On the map, the body of the loop leaves the state as it is, replacing nothing, or
moves the file to a path, and then it replaces nothing exactly when that path is free
or is the file's own. -/
theorem organizeFile_cases (ul : Char → Char) (sorted : List Rule) (conflictAction : String)
    (clock : Nat → Int) (p f : String) (st : RunState FS) :
    (organizeFile (mapEnv ul) sorted conflictAction clock p f st = st
      ∧ moveLandsFree (mapEnv ul) sorted conflictAction clock p f st = true)
    ∨ ∃ dest,
        organizeFile (mapEnv ul) sorted conflictAction clock p f st =
          { fs := moveFile (mapEnv ul) st.fs (filepathJoin [p, f]) dest,
            allOps := st.allOps ++ [⟨f, filepathJoin [p, f], dest⟩] }
        ∧ moveLandsFree (mapEnv ul) sorted conflictAction clock p f st
          = (!osStat st.fs dest || decide (dest = filepathJoin [p, f])) := by
  unfold moveLandsFree
  unfold organizeFile
  simp only
  cases hout : resolveConflict _ conflictAction (clock st.allOps.length) p _ f with
  | skipped =>
    left
    exact ⟨rfl, rfl⟩
  | moved op =>
    right
    have hop := resolveConflict_moved _ _ _ _ _ _ _ hout
    have h1 : op.OldPath = filepathJoin [p, f] := congrArg MoveOperation.OldPath hop
    refine ⟨op.NewPath, ?_, ?_⟩
    · rw [← hop]
      simp only [h1]
      rfl
    · simp only [h1]
      rfl

theorem card_organizeDir (ul : Char → Char) (sorted : List Rule) (conflictAction : String)
    (clock : Nat → Int) (p : String) :
    ∀ (names : List String) (st : RunState FS),
      (∀ n ∈ names, osStat st.fs (filepathJoin [p, n]) = true) →
      (names.map (fun n => filepathJoin [p, n])).Nodup →
      (livePaths (organizeDir (mapEnv ul) sorted conflictAction clock p
          (names.map (fun n => (n, false))) st).fs).card ≤ (livePaths st.fs).card
      ∧ (freeMovesDir (mapEnv ul) sorted conflictAction clock p
          (names.map (fun n => (n, false))) st = false →
        (livePaths (organizeDir (mapEnv ul) sorted conflictAction clock p
          (names.map (fun n => (n, false))) st).fs).card < (livePaths st.fs).card) := by
  intro names
  induction names with
  | nil =>
    intro st _ _
    refine ⟨Nat.le_refl _, ?_⟩
    intro h
    simp [freeMovesDir] at h
  | cons f names ih =>
    intro st hex hnd
    rw [List.map_cons]
    unfold organizeDir freeMovesDir
    simp only [Bool.false_eq_true, if_false]
    rw [List.map_cons, List.nodup_cons] at hnd
    rcases organizeFile_cases ul sorted conflictAction clock p f st with ⟨h, hl⟩ | ⟨dest, h, hl⟩
    · rw [h, hl]
      have := ih st (fun n hn => hex n (List.mem_cons_of_mem _ hn)) hnd.2
      simpa using this
    · rw [h, hl]
      have hsrc := hex f (List.mem_cons_self _ _)
      unfold osStat at hsrc
      obtain ⟨c, hc⟩ := Option.isSome_iff_exists.mp hsrc
      have hrest := ih ⟨moveFile (mapEnv ul) st.fs (filepathJoin [p, f]) dest,
          st.allOps ++ [⟨f, filepathJoin [p, f], dest⟩]⟩ (by
        intro n hn
        have hne : filepathJoin [p, f] ≠ filepathJoin [p, n] := by
          intro e
          apply hnd.1
          rw [e]
          exact List.mem_map_of_mem _ hn
        have := hex n (List.mem_cons_of_mem _ hn)
        unfold osStat at this ⊢
        simp only
        rw [fsRead_moveFile ul st.fs _ dest c _ hc]
        by_cases h2 : dest = filepathJoin [p, n]
        · rw [if_pos h2]; rfl
        · rw [if_neg h2, if_neg hne]; exact this) hnd.2
      simp only at hrest
      have hmv := moveFile_present ul st.fs (filepathJoin [p, f]) dest c hc
      have hle := card_osRename_le st.fs (filepathJoin [p, f]) dest
      rw [← hmv] at hle
      refine ⟨Nat.le_trans hrest.1 hle, ?_⟩
      intro hfalse
      rw [Bool.and_eq_false_iff] at hfalse
      rcases hfalse with hf | hf
      · simp only [Bool.or_eq_false_iff, Bool.not_eq_false', decide_eq_false_iff_not] at hf
        have hlt := card_osRename_lt st.fs (filepathJoin [p, f]) dest c hc hf.1 hf.2
        rw [← hmv] at hlt
        exact Nat.lt_of_le_of_lt hrest.1 hlt
      · exact Nat.lt_of_lt_of_le (hrest.2 hf) hle

theorem card_organizePaths (ul : Char → Char) (sorted : List Rule) (conflictAction : String)
    (clock : Nat → Int) :
    ∀ (paths : List String) (st : RunState FS),
      (livePaths (organizePaths (mapEnv ul) sorted conflictAction clock paths st).fs).card
        ≤ (livePaths st.fs).card
      ∧ (freeMovesPaths (mapEnv ul) sorted conflictAction clock paths st = false →
        (livePaths (organizePaths (mapEnv ul) sorted conflictAction clock paths st).fs).card
          < (livePaths st.fs).card) := by
  intro paths
  induction paths with
  | nil =>
    intro st
    refine ⟨Nat.le_refl _, ?_⟩
    intro h
    simp [freeMovesPaths] at h
  | cons p paths ih =>
    intro st
    unfold organizePaths freeMovesPaths
    have e : (mapEnv ul).readDir st.fs p = (osReadDir st.fs p).map (fun n => (n, false)) := rfl
    rw [e]
    have hspec := osReadDir_spec p st.fs
    have hdir := card_organizeDir ul sorted conflictAction clock p (osReadDir st.fs p) st
      (fun n hn => (hspec.2 n hn).1) (by
        apply List.Nodup.map_on _ hspec.1
        intro x hx y hy e
        rw [← (hspec.2 x hx).2, ← (hspec.2 y hy).2, e])
    have hrest := ih (organizeDir (mapEnv ul) sorted conflictAction clock p
      ((osReadDir st.fs p).map (fun n => (n, false))) st)
    refine ⟨Nat.le_trans hrest.1 hdir.1, ?_⟩
    intro hfalse
    rw [Bool.and_eq_false_iff] at hfalse
    rcases hfalse with hf | hf
    · exact Nat.lt_of_le_of_lt hrest.1 (hdir.2 hf)
    · exact Nat.lt_of_lt_of_le (hrest.2 hf) hdir.1

/-- The undo of any stored transaction never adds a file. -/
theorem card_UndoByID_le (ul : Char → Char) (app : App FS) (id : String) :
    (livePaths (UndoByID (mapEnv ul) app id).1.fs).card ≤ (livePaths app.fs).card := by
  unfold UndoByID GetHistory
  simp only [undoScan_eq]
  cases List.find? (fun tx => decide (tx.ID = id)) app.history with
  | none => exact Nat.le_refl _
  | some tx => exact card_undoOperations_le ul _ _

/-- When a move of the run replaces a file, the undo cannot bring every file back:
there is one file less than before the run. -/
theorem undo_needs_free_moves (ul : Char → Char) (app : App FS) (targetPaths : List String)
    (schema : Schema) (conflictAction : String) (clock : Nat → Int) (txID : String)
    (txTime : Int)
    (h : SameFiles app.fs
      (UndoByID (mapEnv ul)
        (OrganizeFiles (mapEnv ul) app targetPaths schema conflictAction clock txID txTime).1
        txID).1.fs) :
    freeMoves (mapEnv ul) app targetPaths schema conflictAction clock = true := by
  cases hf : freeMoves (mapEnv ul) app targetPaths schema conflictAction clock with
  | true => rfl
  | false =>
    exfalso
    have hlt := (card_organizePaths ul (sortedRules schema) conflictAction clock targetPaths
      { fs := app.fs, allOps := [] }).2 hf
    have hle := card_UndoByID_le ul
      (OrganizeFiles (mapEnv ul) app targetPaths schema conflictAction clock txID txTime).1 txID
    have heq := congrArg Finset.card (livePaths_sameFiles _ _ h)
    have hfs : (OrganizeFiles (mapEnv ul) app targetPaths schema conflictAction clock txID
        txTime).1.fs
        = (organizePaths (mapEnv ul) (sortedRules schema) conflictAction clock targetPaths
            { fs := app.fs, allOps := [] }).fs := rfl
    rw [hfs] at hle
    simp only at hlt
    omega

/-- C5 as stated fails: with the policy `overwrite`, `/a/x.txt` and `/b/x.txt` are
both moved to `/dst/x.txt`, the second replacing the first; the undo of the recorded
transaction brings `/b/x.txt` back and finds nothing to rename for `/a/x.txt`, which
stays absent. -/
theorem undo_after_overwrite_loses_file :
    overwriteRun.1.history.map (fun tx => tx.Operations)
        = [[⟨"x.txt", "/a/x.txt", "/dst/x.txt"⟩, ⟨"x.txt", "/b/x.txt", "/dst/x.txt"⟩]]
    ∧ fsRead twoDirs "/a/x.txt" = some "A"
    ∧ fsRead (UndoByID (mapEnv noCaseTables) overwriteRun.1 "12:00:00").1.fs "/a/x.txt" = none
    ∧ ¬ SameFiles twoDirs (UndoByID (mapEnv noCaseTables) overwriteRun.1 "12:00:00").1.fs := by
  refine ⟨by decide, by decide, by decide, ?_⟩
  intro h
  have := h "/a/x.txt"
  revert this
  decide

theorem undo_of_free_moves (unicodeLower : Char → Char) (app : App FS)
    (targetPaths : List String) (schema : Schema) (conflictAction : String)
    (clock : Nat → Int) (txID : String) (txTime : Int)
    (hfree : freeMoves (mapEnv unicodeLower) app targetPaths schema conflictAction clock = true)
    (hmoved : 0 < (OrganizeFiles (mapEnv unicodeLower) app targetPaths schema conflictAction
      clock txID txTime).2) :
    SameFiles app.fs
      (UndoByID (mapEnv unicodeLower)
        (OrganizeFiles (mapEnv unicodeLower) app targetPaths schema conflictAction clock txID
          txTime).1 txID).1.fs := by
  have hU := organizePaths_free unicodeLower (sortedRules schema) conflictAction clock app.fs
    targetPaths { fs := app.fs, allOps := [] } hfree (fun _ => rfl)
  unfold OrganizeFiles at hmoved ⊢
  simp only at hmoved ⊢
  generalize organizePaths (mapEnv unicodeLower) (sortedRules schema) conflictAction clock
    targetPaths { fs := app.fs, allOps := [] } = st at hU hmoved ⊢
  rw [if_pos hmoved, SaveTransaction_eq app.history txID txTime st.allOps]
  unfold UndoByID GetHistory
  simp only
  have hscan : ∀ rest : List Transaction,
      undoScan (mapEnv unicodeLower) txID st.fs [] (⟨txID, txTime, st.allOps⟩ :: rest)
        = some (undoOperations (mapEnv unicodeLower) st.allOps.reverse st.fs, rest) := by
    intro rest
    rw [undoScan, if_pos rfl]
    rfl
  rw [hscan]
  exact hU

/-- C5, amended: when a run of `OrganizeFiles` on the map, with any rule list and any
policy, recorded a transaction, `UndoByID` on that transaction right afterwards
leaves every path with the content it had before the run (every moved file is back
at its original path with its original content) if and only if no move of the run
landed on an occupied path: every file that was moved went to a path that was free
at that moment, or stayed at its own path. No move lands on an occupied path under
the policy `skip`, so there every run is undone in full; under `rename` the same
holds whenever the timestamped names are free. -/
theorem undo_restores_files (unicodeLower : Char → Char) (app : App FS)
    (targetPaths : List String) (schema : Schema) (conflictAction : String)
    (clock : Nat → Int) (txID : String) (txTime : Int)
    (hmoved : 0 < (OrganizeFiles (mapEnv unicodeLower) app targetPaths schema conflictAction
      clock txID txTime).2) :
    (SameFiles app.fs
        (UndoByID (mapEnv unicodeLower)
          (OrganizeFiles (mapEnv unicodeLower) app targetPaths schema conflictAction clock txID
            txTime).1 txID).1.fs
      ↔ freeMoves (mapEnv unicodeLower) app targetPaths schema conflictAction clock = true)
    ∧ (conflictAction = "skip" →
        freeMoves (mapEnv unicodeLower) app targetPaths schema conflictAction clock = true
        ∧ SameFiles app.fs
          (UndoByID (mapEnv unicodeLower)
            (OrganizeFiles (mapEnv unicodeLower) app targetPaths schema conflictAction clock
              txID txTime).1 txID).1.fs) := by
  refine ⟨⟨undo_needs_free_moves unicodeLower app targetPaths schema conflictAction clock txID
    txTime, fun hfree => undo_of_free_moves unicodeLower app targetPaths schema conflictAction
    clock txID txTime hfree hmoved⟩, ?_⟩
  intro hskip
  have hfree : freeMoves (mapEnv unicodeLower) app targetPaths schema conflictAction clock
      = true := by
    rw [hskip]
    exact freeMovesPaths_skip _ _ _ _ _
  exact ⟨hfree, undo_of_free_moves unicodeLower app targetPaths schema conflictAction clock
    txID txTime hfree hmoved⟩

/-- C5, amended, on a run where the policy `rename` acts: `/dst/x.txt` exists, so
`/a/x.txt` is moved to the free path `/dst/5_x.txt`; the undo brings it back and
leaves `/dst/x.txt` as it was. -/
theorem undo_restores_files_witness :
    (OrganizeFiles (mapEnv noCaseTables) ⟨conflictDir, []⟩ ["/a"] ⟨[txtRule]⟩ "rename"
        (fun _ => 5) "12:00:00" 5).1.history.map (fun tx => tx.Operations)
      = [[⟨"x.txt", "/a/x.txt", "/dst/5_x.txt"⟩]]
    ∧ SameFiles conflictDir
        (UndoByID (mapEnv noCaseTables)
          (OrganizeFiles (mapEnv noCaseTables) ⟨conflictDir, []⟩ ["/a"] ⟨[txtRule]⟩ "rename"
            (fun _ => 5) "12:00:00" 5).1 "12:00:00").1.fs :=
  ⟨by decide, (undo_restores_files noCaseTables ⟨conflictDir, []⟩ ["/a"] ⟨[txtRule]⟩ "rename"
    (fun _ => 5) "12:00:00" 5 (by decide)).1.mpr (by decide)⟩

/-! ## `filepath.Clean`, `Join` and `Base` -/

theorem cleanLoop_copy (rooted : Bool) :
    ∀ (y out : List Char) (dd : Nat), '/' ∉ y → cleanLoop rooted y true out dd = out ++ y := by
  intro y
  induction y with
  | nil => intro out dd _; simp [cleanLoop]
  | cons c y ih =>
    intro out dd h
    have hc : c ≠ '/' := fun e => h (e ▸ List.mem_cons_self _ _)
    have hy : '/' ∉ y := fun e => h (List.mem_cons_of_mem _ e)
    rw [cleanLoop, if_neg hc, ih _ _ hy]
    simp

/-- The last element of a path, when it is a real element, is appended to the buffer
behind a slash. -/
theorem cleanLoop_last (rooted : Bool) (x out : List Char) (dd : Nat) (hx : RealElem x) :
    cleanLoop rooted x false out dd =
      (if (rooted = true ∧ out.length ≠ 1) ∨ (rooted = false ∧ out.length ≠ 0)
        then out ++ ['/'] else out) ++ x := by
  obtain ⟨h1, h2, h3, h4⟩ := hx
  match x, h1, h2, h3, h4 with
  | [c], _, h2, h3, _ =>
    have hc : c ≠ '/' := fun e => h2 (e ▸ List.mem_cons_self _ _)
    have hd : c ≠ '.' := fun e => h3 (by rw [e])
    rw [cleanLoop, if_neg hc, if_neg hd]
    simp only
    rw [cleanLoop_copy rooted [] _ _ (by simp)]
    simp
  | c :: d :: t, _, h2, _, h4 =>
    have hc : c ≠ '/' := fun e => h2 (e ▸ List.mem_cons_self _ _)
    have hd : d ≠ '/' := fun e => h2 (e ▸ List.mem_cons_of_mem _ (List.mem_cons_self _ _))
    have ht : '/' ∉ t := fun e => h2 (List.mem_cons_of_mem _ (List.mem_cons_of_mem _ e))
    have hdots : ¬ (c = '.' ∧ d = '.' ∧ (t = [] ∨ t.head? = some '/')) := by
      rintro ⟨e1, e2, e3 | e3⟩
      · exact h4 (by rw [e1, e2, e3])
      · cases t with
        | nil => simp at e3
        | cons z t =>
          simp at e3
          exact ht (e3 ▸ List.mem_cons_self _ _)
    rw [cleanLoop, if_neg hc, if_neg (fun h => hd h.2), if_neg hdots]
    simp only
    rw [cleanLoop_copy rooted (d :: t) _ _ (by
      intro e
      rcases List.mem_cons.mp e with e | e
      · exact hd e.symm
      · exact ht e)]
    simp

theorem backtrackLoop_ge (out : List Char) (dd : Nat) :
    ∀ w, dd ≤ w → dd ≤ backtrackLoop out dd w := by
  intro w
  induction w with
  | zero => intro h; simpa [backtrackLoop] using h
  | succ w ih =>
    intro h
    unfold backtrackLoop
    split
    · rename_i hc
      exact ih (by omega)
    · exact h

theorem head?_take_pos (l : List Char) (k : Nat) (hk : 1 ≤ k) : (l.take k).head? = l.head? := by
  cases l with
  | nil => simp
  | cons a l =>
    cases k with
    | zero => omega
    | succ k => simp

theorem head?_append_ne (l m : List Char) (c : Char) (h : l.head? = some c) :
    (l ++ m).head? = some c := by
  cases l with
  | nil => simp at h
  | cons a l => simpa using h

theorem cleanInv_push (rooted : Bool) (out : List Char) (dd : Nat) (c : Char)
    (h : CleanInv rooted out dd) :
    CleanInv rooted
      ((if (rooted = true ∧ out.length ≠ 1) ∨ (rooted = false ∧ out.length ≠ 0)
        then out ++ ['/'] else out) ++ [c]) dd := by
  intro hr
  obtain ⟨h1, h2⟩ := h hr
  refine ⟨?_, h2⟩
  apply head?_append_ne
  split
  · exact head?_append_ne _ _ _ h1
  · exact h1

/-- The part of a path before a slash is consumed by `Clean` leaving the loop outside
of any element, in front of what follows the slash. -/
theorem cleanLoop_upto_slash (rooted : Bool) (x : List Char) (hx : x ≠ []) :
    ∀ (n : Nat) (s : List Char), s.length ≤ n → ∀ (cp : Bool) (out : List Char) (dd : Nat),
      CleanInv rooted out dd →
      ∃ out' dd', CleanInv rooted out' dd'
        ∧ cleanLoop rooted (s ++ '/' :: x) cp out dd = cleanLoop rooted x false out' dd' := by
  obtain ⟨x0, xt, rfl⟩ := List.exists_cons_of_ne_nil hx
  intro n
  induction n with
  | zero =>
    intro s hs cp out dd hinv
    have : s = [] := List.length_eq_zero.mp (by omega)
    subst this
    refine ⟨out, dd, hinv, ?_⟩
    cases cp
    · rw [List.nil_append, cleanLoop, if_pos rfl]
    · rw [List.nil_append, cleanLoop, if_pos rfl]
  | succ n ih =>
    intro s hs cp out dd hinv
    have h0 : ∀ (cp : Bool) (out : List Char) (dd : Nat), CleanInv rooted out dd →
        ∃ out' dd', CleanInv rooted out' dd'
          ∧ cleanLoop rooted ([] ++ '/' :: x0 :: xt) cp out dd
            = cleanLoop rooted (x0 :: xt) false out' dd' :=
      fun cp out dd hinv => ih [] (by simp) cp out dd hinv
    cases cp with
    | true =>
      match s, hs with
      | [], _ => exact h0 true out dd hinv
      | c :: s', hs =>
        rw [List.cons_append, cleanLoop]
        split
        · exact ih s' (by simp at hs; omega) false out dd hinv
        · apply ih s' (by simp at hs; omega) true
          intro hr
          exact ⟨head?_append_ne _ _ _ (hinv hr).1, (hinv hr).2⟩
    | false =>
      match s, hs with
      | [], _ => exact h0 false out dd hinv
      | [c], _ =>
        have e : [c] ++ '/' :: x0 :: xt = c :: '/' :: (x0 :: xt) := rfl
        rw [e, cleanLoop]
        split
        · exact h0 false out dd hinv
        · split
          · exact h0 false out dd hinv
          · split
            · rename_i hdd
              exact absurd hdd.2.1 (by decide)
            · exact h0 true _ dd (cleanInv_push rooted out dd c hinv)
      | c :: d :: s', hs =>
        have hlen : (d :: s').length ≤ n := by simp at hs ⊢; omega
        have hlen2 : s'.length ≤ n := by simp at hs; omega
        have e : (c :: d :: s') ++ '/' :: x0 :: xt = c :: d :: (s' ++ '/' :: x0 :: xt) := rfl
        have e2 : d :: (s' ++ '/' :: x0 :: xt) = (d :: s') ++ '/' :: x0 :: xt := rfl
        rw [e, cleanLoop]
        split
        · rw [e2]; exact ih (d :: s') hlen false out dd hinv
        · split
          · rw [e2]; exact ih (d :: s') hlen false out dd hinv
          · split
            · split
              · rename_i hgt
                apply ih s' hlen2 false
                intro hr
                obtain ⟨i1, i2⟩ := hinv hr
                refine ⟨?_, i2⟩
                rw [head?_take_pos _ _ (Nat.le_trans i2 (backtrackLoop_ge out dd _ (by omega)))]
                exact i1
              · split
                · rename_i hr
                  apply ih s' hlen2 false
                  intro hr2
                  rw [hr] at hr2
                  cases hr2
                · exact ih s' hlen2 false out dd hinv
            · rw [e2]
              exact ih (d :: s') hlen true _ dd (cleanInv_push rooted out dd c hinv)

theorem getLast?_of_head_length_one (out : List Char) (h : out.head? = some '/')
    (hl : out.length = 1) : out.getLast? = some '/' := by
  match out, hl with
  | [c], _ => simpa using h

/-- Go `filepath.Clean` of a directory joined with a real element ends with that element,
directly after a slash or alone. -/
theorem filepathClean_join (dir x : List Char) (hd : dir ≠ []) (hx : RealElem x) :
    ∃ pre : List Char, (pre = [] ∨ pre.getLast? = some '/')
      ∧ (dir.head? = some '/' → pre.head? = some '/')
      ∧ filepathClean ⟨dir ++ '/' :: x⟩ = ⟨pre ++ x⟩ := by
  obtain ⟨c, t, rfl⟩ := List.exists_cons_of_ne_nil hd
  have hxne : x ≠ [] := hx.1
  unfold filepathClean
  simp only [List.cons_append]
  by_cases hc : c = '/'
  · rw [if_pos hc]
    obtain ⟨out', dd', hinv, he⟩ := cleanLoop_upto_slash true x hxne t.length t (Nat.le_refl _)
      false ['/'] 1 (fun _ => ⟨rfl, Nat.le_refl _⟩)
    rw [he, cleanLoop_last true x out' dd' hx]
    refine ⟨if (true = true ∧ out'.length ≠ 1) ∨ (true = false ∧ out'.length ≠ 0)
        then out' ++ ['/'] else out', ?_, ?_, ?_⟩
    · right
      split
      · simp
      · rename_i hn
        have hl : out'.length = 1 := by
          by_contra hl
          exact hn (Or.inl ⟨rfl, hl⟩)
        exact getLast?_of_head_length_one out' (hinv rfl).1 hl
    · intro _
      split
      · exact head?_append_ne _ _ _ (hinv rfl).1
      · exact (hinv rfl).1
    · rw [if_neg]
      rw [List.length_append]
      have : 0 < x.length := List.length_pos.mpr hxne
      omega
  · rw [if_neg hc]
    obtain ⟨out', dd', hinv, he⟩ := cleanLoop_upto_slash false x hxne (c :: t).length (c :: t)
      (Nat.le_refl _) false [] 0 (fun h => by cases h)
    rw [List.cons_append] at he
    rw [he, cleanLoop_last false x out' dd' hx]
    refine ⟨if (false = true ∧ out'.length ≠ 1) ∨ (false = false ∧ out'.length ≠ 0)
        then out' ++ ['/'] else out', ?_, ?_, ?_⟩
    · split
      · right; simp
      · rename_i hn
        left
        have hl : out'.length = 0 := by
          by_contra hl
          exact hn (Or.inr ⟨rfl, hl⟩)
        exact List.length_eq_zero.mp hl
    · intro h
      simp at h
      exact absurd h hc
    · rw [if_neg]
      rw [List.length_append]
      have : 0 < x.length := List.length_pos.mpr hxne
      omega

theorem filepathClean_real (x : List Char) (hx : RealElem x) : filepathClean ⟨x⟩ = ⟨x⟩ := by
  obtain ⟨c, t, rfl⟩ := List.exists_cons_of_ne_nil hx.1
  have hc : c ≠ '/' := fun e => hx.2.1 (e ▸ List.mem_cons_self _ _)
  unfold filepathClean
  simp only
  rw [if_neg hc, cleanLoop_last false (c :: t) [] 0 hx]
  simp

theorem lastElem_append (y : List Char) (hy : '/' ∉ y) (r : List Char)
    (hr : r = [] ∨ r.head? = some '/') :
    ∀ acc, lastElem (y ++ r) acc = y.reverse ++ acc := by
  induction y with
  | nil =>
    intro acc
    rcases hr with e | e
    · subst e; rfl
    · cases r with
      | nil => simp at e
      | cons z r =>
        simp at e
        subst e
        simp [lastElem]
  | cons c y ih =>
    intro acc
    have hc : c ≠ '/' := fun e => hy (e ▸ List.mem_cons_self _ _)
    rw [List.cons_append, lastElem, if_neg hc, ih (fun e => hy (List.mem_cons_of_mem _ e))]
    simp

theorem filepathBase_append (pre x : List Char) (hx : x ≠ []) (hs : '/' ∉ x)
    (hp : pre = [] ∨ pre.getLast? = some '/') : filepathBase ⟨pre ++ x⟩ = ⟨x⟩ := by
  unfold filepathBase
  have hne : (⟨pre ++ x⟩ : String) ≠ "" := by
    intro e
    have := congrArg String.data e
    simp at this
    exact hx this.2
  rw [if_neg hne]
  simp only [List.reverse_append]
  obtain ⟨z, zs, hz⟩ := List.exists_cons_of_ne_nil (by simpa using hx : x.reverse ≠ [])
  have hzs : '/' ∉ x.reverse := by simpa using hs
  have hstrip : stripSlashes (x.reverse ++ pre.reverse) = x.reverse ++ pre.reverse := by
    rw [hz, List.cons_append, stripSlashes, if_neg]
    intro e
    apply hzs
    rw [hz, e]
    exact List.mem_cons_self _ _
  rw [hstrip, lastElem_append x.reverse hzs pre.reverse (by
    rcases hp with e | e
    · left; simp [e]
    · right; rw [List.head?_reverse]; exact e)]
  simp [hx]

theorem stringsJoin_two (a b : String) : (stringsJoin "/" [a, b]).data = a.data ++ '/' :: b.data := by
  simp [stringsJoin, String.data_append]

/-- The base name of a directory joined with a real element is that element. -/
theorem filepathBase_join (dir x : String) (hx : RealElem x.data) :
    filepathBase (filepathJoin [dir, x]) = x := by
  have hxs : x ≠ "" := by
    intro e
    exact hx.1 (by rw [e])
  by_cases hd : dir = ""
  · have e : filepathJoin [dir, x] = filepathClean x := by
      simp [filepathJoin, hd, hxs, stringsJoin]
    rw [e]
    have := filepathClean_real x.data hx
    rw [this]
    have := filepathBase_append [] x.data hx.1 hx.2.1 (Or.inl rfl)
    simpa using this
  · have e : filepathJoin [dir, x] = filepathClean ⟨dir.data ++ '/' :: x.data⟩ := by
      rw [filepathJoin, if_pos hd, ← stringsJoin_two]
    have hdd : dir.data ≠ [] := by
      intro e2
      apply hd
      cases dir
      simp at e2
      rw [e2]
    obtain ⟨pre, hp, _, hc⟩ := filepathClean_join dir.data x.data hdd hx
    rw [e, hc, filepathBase_append pre x.data hx.1 hx.2.1 hp]

theorem digitChar_isDigit (n : Nat) (h : n < 10) : (Nat.digitChar n).isDigit = true := by
  interval_cases n <;> decide

theorem toDigitsCore_digits (fuel : Nat) :
    ∀ (n : Nat) (ds : List Char), (∀ c ∈ ds, c.isDigit = true) →
      ∀ c ∈ Nat.toDigitsCore 10 fuel n ds, c.isDigit = true := by
  induction fuel with
  | zero => intro n ds h; simpa [Nat.toDigitsCore] using h
  | succ fuel ih =>
    intro n ds h
    have hd : ∀ c ∈ Nat.digitChar (n % 10) :: ds, c.isDigit = true := by
      intro c hc
      rcases List.mem_cons.mp hc with e | e
      · rw [e]; exact digitChar_isDigit _ (Nat.mod_lt _ (by decide))
      · exact h c e
    unfold Nat.toDigitsCore
    simp only
    split
    · exact hd
    · exact ih _ _ hd

theorem toDigitsCore_ne_nil (fuel : Nat) :
    ∀ (n : Nat) (ds : List Char), (0 < fuel ∨ ds ≠ []) → Nat.toDigitsCore 10 fuel n ds ≠ [] := by
  induction fuel with
  | zero =>
    intro n ds h
    rcases h with h | h
    · omega
    · simpa [Nat.toDigitsCore] using h
  | succ fuel ih =>
    intro n ds _
    unfold Nat.toDigitsCore
    simp only
    split
    · simp
    · exact ih _ _ (Or.inr (by simp))

/-- The text that `%d` prints for a non-negative number: decimal digits, at least one. -/
theorem sprintD_digits (n : Int) (h : 0 ≤ n) :
    (sprintD n).data ≠ [] ∧ ∀ c ∈ (sprintD n).data, c.isDigit = true := by
  match n, h with
  | Int.ofNat m, _ =>
    unfold sprintD
    simp only [Nat.repr, List.asString]
    exact ⟨toDigitsCore_ne_nil _ _ _ (Or.inl (by omega)),
      toDigitsCore_digits _ _ _ (fun c hc => by cases hc)⟩

/-! ## Destination and conflict resolution -/

theorem realElem_stamped (digits name : String) (hd : digits.data ≠ [])
    (hdig : ∀ c ∈ digits.data, c.isDigit = true) (hn : validName name = true) :
    RealElem (digits ++ "_" ++ name).data := by
  have hslash : '/' ∉ name.data := by
    unfold validName at hn
    simp only [Bool.and_eq_true, Bool.not_eq_true', decide_eq_true_eq] at hn
    intro h
    have := hn.1.1.2
    have h2 : name.data.contains '/' = true := List.elem_eq_true_of_mem h
    rw [h2] at this
    cases this
  obtain ⟨c, t, hct⟩ := List.exists_cons_of_ne_nil hd
  have hc : c.isDigit = true := hdig c (hct ▸ List.mem_cons_self _ _)
  have hdata : (digits ++ "_" ++ name).data = c :: (t ++ '_' :: name.data) := by
    simp [String.data_append, hct]
  rw [hdata]
  refine ⟨by simp, ?_, ?_, ?_⟩
  · intro h
    rcases List.mem_cons.mp h with e | e
    · rw [← e] at hc; revert hc; decide
    · rcases List.mem_append.mp e with e | e
      · have := hdig '/' (hct ▸ List.mem_cons_of_mem _ e)
        revert this; decide
      · rcases List.mem_cons.mp e with e | e
        · revert e; decide
        · exact hslash e
  · intro h
    simp only [List.cons.injEq] at h
    rw [h.1] at hc
    revert hc; decide
  · intro h
    simp only [List.cons.injEq] at h
    rw [h.1] at hc
    revert hc; decide

/-- C3: conflict resolution in `OrganizeFiles`, over every file system, for a file
whose destination `destDir/<fileName>` exists, that is for which `os.Stat` succeeds,
on a file or on a directory: with the policy `skip` no operation is recorded and no
move is made, the only call made being the `os.MkdirAll` that precedes the check;
with `rename` at Unix time `T` the file is moved to, and the recorded `NewPath` is,
`destDir/<T>_<fileName>`, whose base name, for `T ≥ 0`, is a non-empty run of digits,
`_` and the file name; with any other policy the recorded `NewPath` is
`destDir/<fileName>`. When the destination does not exist the recorded `NewPath` is
`destDir/<fileName>` for every policy. -/
theorem conflict_resolution {σ : Type} (env : Env σ) (sorted : List Rule)
    (conflictAction : String) (clock : Nat → Int) (p fileName : String) (st : RunState σ)
    (destDir dest : String) (fs : σ)
    (hdir : destDir = destinationDir sorted p fileName
      (stringsToLower env.unicodeLower (filepathExt fileName)))
    (hfs : fs = env.mkdirAll st.fs destDir)
    (hdest : dest = filepathJoin [destDir, fileName]) :
    (env.stat fs dest = true → conflictAction = "skip" →
        organizeFile env sorted conflictAction clock p fileName st
          = { fs := fs, allOps := st.allOps })
    ∧ (env.stat fs dest = true → conflictAction = "rename" →
        organizeFile env sorted conflictAction clock p fileName st
          = { fs := moveFile env fs (filepathJoin [p, fileName])
                (filepathJoin [destDir, sprintD (clock st.allOps.length) ++ "_" ++ fileName]),
              allOps := st.allOps ++
                [⟨fileName, filepathJoin [p, fileName],
                  filepathJoin [destDir, sprintD (clock st.allOps.length) ++ "_" ++ fileName]⟩] }
        ∧ (0 ≤ clock st.allOps.length → validName fileName = true →
            ∃ digits : String, digits.data ≠ [] ∧ (∀ c ∈ digits.data, c.isDigit = true)
              ∧ filepathBase (filepathJoin
                  [destDir, sprintD (clock st.allOps.length) ++ "_" ++ fileName])
                = digits ++ "_" ++ fileName))
    ∧ (env.stat fs dest = true → conflictAction ≠ "skip" → conflictAction ≠ "rename" →
        organizeFile env sorted conflictAction clock p fileName st
          = { fs := moveFile env fs (filepathJoin [p, fileName]) dest,
              allOps := st.allOps ++ [⟨fileName, filepathJoin [p, fileName], dest⟩] })
    ∧ (env.stat fs dest = false →
        organizeFile env sorted conflictAction clock p fileName st
          = { fs := moveFile env fs (filepathJoin [p, fileName]) dest,
              allOps := st.allOps ++ [⟨fileName, filepathJoin [p, fileName], dest⟩] }) := by
  subst hdir hfs hdest
  refine ⟨?_, ?_, ?_, ?_⟩
  · intro hs hp
    unfold organizeFile resolveConflict
    simp [hs, hp]
  · intro hs hp
    constructor
    · unfold organizeFile resolveConflict
      simp [hs, hp]
    · intro hT hv
      obtain ⟨d1, d2⟩ := sprintD_digits _ hT
      refine ⟨sprintD (clock st.allOps.length), d1, d2, ?_⟩
      exact filepathBase_join _ _ (realElem_stamped _ _ d1 d2 hv)
  · intro hs h1 h2
    unfold organizeFile resolveConflict
    simp [hs, h1, h2]
  · intro hs
    unfold organizeFile resolveConflict
    simp [hs]

/-- C3, on the map with the files `/a/x.txt` and `/dst/x.txt` and the rule
`.txt → /dst` at time 1700000000: the policy `skip` leaves the state as it is, and
the policy `rename` records the new path `/dst/1700000000_x.txt`, whose base name is
`1700000000_x.txt`. -/
theorem conflict_resolution_witness :
    organizeFile (mapEnv noCaseTables) [txtRule] "skip" (fun _ => 1700000000) "/a" "x.txt"
        ⟨conflictDir, []⟩
      = ⟨conflictDir, []⟩
    ∧ (organizeFile (mapEnv noCaseTables) [txtRule] "rename" (fun _ => 1700000000) "/a" "x.txt"
        ⟨conflictDir, []⟩).allOps
      = [⟨"x.txt", "/a/x.txt", "/dst/1700000000_x.txt"⟩]
    ∧ filepathBase "/dst/1700000000_x.txt" = "1700000000_x.txt" :=
  ⟨(conflict_resolution (mapEnv noCaseTables) [txtRule] "skip" (fun _ => 1700000000) "/a"
      "x.txt" ⟨conflictDir, []⟩ "/dst" "/dst/x.txt" conflictDir (by decide) rfl (by decide)).1
      (by decide) rfl,
    by decide, by decide⟩

/-- C2, at a relative target directory: for the file `dl/a.xyz`, which no rule claims,
`OrganizeFiles` on the target path `dl` computes the destination
`dl/dl/!Uncategorized/a.xyz`, not `dl/!Uncategorized/a.xyz`; a file that a rule with
the relative target `Documents` claims goes to `dl/Documents`. -/
theorem uncategorized_relative_doubled :
    destinationDir (sortedRules ⟨defaultRules⟩) "dl" "a.xyz"
        (stringsToLower noCaseTables (filepathExt "a.xyz")) = "dl/dl/!Uncategorized"
    ∧ (OrganizeFiles (mapEnv noCaseTables) ⟨[("dl/a.xyz", "c")], []⟩ ["dl"] ⟨defaultRules⟩
        "rename" (fun _ => 0) "00:00:00" 0).1.history.map (fun tx => tx.Operations)
        = [[⟨"a.xyz", "dl/a.xyz", "dl/dl/!Uncategorized/a.xyz"⟩]]
    ∧ filepathJoin ["dl", "!Uncategorized", "a.xyz"] = "dl/!Uncategorized/a.xyz"
    ∧ destinationDir (sortedRules ⟨defaultRules⟩) "dl" "b.txt"
        (stringsToLower noCaseTables (filepathExt "b.txt")) = "dl/Documents" := by
  decide

theorem filepathJoin_abs (p x : String) (hp : filepathIsAbs p = true) (hx : RealElem x.data) :
    filepathIsAbs (filepathJoin [p, x]) = true := by
  unfold filepathIsAbs at hp ⊢
  have hp' : p.data.head? = some '/' := by simpa using hp
  have hne : p ≠ "" := by
    intro e
    rw [e] at hp'
    simp at hp'
  have hdd : p.data ≠ [] := by
    intro e
    rw [e] at hp'
    simp at hp'
  obtain ⟨pre, _, h2, hc⟩ := filepathClean_join p.data x.data hdd hx
  rw [filepathJoin, if_pos hne]
  have e : stringsJoin "/" [p, x] = ⟨p.data ++ '/' :: x.data⟩ := by
    have := stringsJoin_two p x
    cases hj : stringsJoin "/" [p, x]
    rw [hj] at this
    simp at this
    rw [this]
  rw [e, hc]
  simp only [decide_eq_true_eq]
  exact head?_append_ne _ _ _ (h2 hp')

/-- The fallback destination for an absolute target directory: a file of `p` that no
rule claims is given the destination directory `p/!Uncategorized`, and when
`p/!Uncategorized/<fileName>` does not exist that path is the recorded `NewPath`. -/
theorem uncategorized_absolute (schema : Schema) (p fileName ext : String)
    (hp : filepathIsAbs p = true)
    (hnone : ∀ r ∈ schema.Rules, ruleClaims fileName ext r = false)
    (conflictAction : String) (now : Int) :
    destinationDir (sortedRules schema) p fileName ext = filepathJoin [p, "!Uncategorized"]
    ∧ resolveConflict false conflictAction now p
        (destinationDir (sortedRules schema) p fileName ext) fileName
      = Outcome.moved ⟨fileName, filepathJoin [p, fileName],
          filepathJoin [filepathJoin [p, "!Uncategorized"], fileName]⟩ := by
  have hscan : scanRules fileName ext (sortedRules schema) "" = "" := by
    rw [scanRules_find]
    have : (sortedRules schema).find? (ruleClaims fileName ext) = none := by
      rw [List.find?_eq_none]
      intro r hr
      rw [hnone r ((sortedRules_perm schema).mem_iff.mp hr)]
      simp
    rw [this]
  have habs := filepathJoin_abs p "!Uncategorized" hp (by
    refine ⟨by decide, by decide, by decide, by decide⟩)
  have hdir : destinationDir (sortedRules schema) p fileName ext
      = filepathJoin [p, "!Uncategorized"] := by
    unfold destinationDir
    simp only [hscan, if_true]
    rw [if_neg (by rw [habs]; decide)]
  refine ⟨hdir, ?_⟩
  rw [hdir]
  unfold resolveConflict
  simp

end Superd
